import Mathlib

/-!
# Verification of the KeePassXC three-way merge engine (`Merger.cpp`)

Shallow embedding of `src/core/Merger.cpp` and `src/core/TimeInfo.{h,cpp}`.
Timestamps are modelled as natural numbers counting milliseconds (UTC);
truncation to "serialized precision" cuts off the millisecond component.
UUIDs are modelled as natural numbers. The source database is read-only
during a merge, so the merge functions recurse structurally over the source
tree while threading the evolving target tree as explicit state.

Qt signal plumbing and the `canUpdateTimeinfo`/`setUpdateTimeinfo` flag
protocol are modelled explicitly: mutating helpers of `Entry`/`Group` that
are not part of the given sources (`Entry::setGroup`, history mutation,
`Group::mergeMode`) are modelled from the specification, and each such
definition is marked `Modelled from the spec:` in its doc comment.
-/

namespace KPXC

/-- Modelled from the spec: `Clock::serialized` (`Clock.cpp` is not part of
the given sources) truncates a timestamp to second ("serialized") precision:
the persistent format only supports times down to seconds. -/
def Clock.serialized (t : Nat) : Nat := t / 1000 * 1000

/-- `TimeInfo` (TimeInfo.h): six UTC timestamps plus the `expires` flag and
the usage counter. Timestamps are in milliseconds. -/
structure TimeInfo where
  creationTime : Nat
  lastModificationTime : Nat
  lastAccessTime : Nat
  expiryTime : Nat
  locationChanged : Nat
  expires : Bool
  usageCount : Nat
deriving Repr, DecidableEq

/-- `TimeInfo::equals` under `CompareItemIgnoreMilliseconds` (TimeInfo.cpp):
every timestamp field is compared at serialized precision. -/
def TimeInfo.equalsIgnoreMs (a b : TimeInfo) : Bool :=
  Clock.serialized a.lastModificationTime == Clock.serialized b.lastModificationTime &&
  Clock.serialized a.creationTime == Clock.serialized b.creationTime &&
  Clock.serialized a.lastAccessTime == Clock.serialized b.lastAccessTime &&
  (a.expires == b.expires && Clock.serialized a.expiryTime == Clock.serialized b.expiryTime) &&
  a.usageCount == b.usageCount &&
  Clock.serialized a.locationChanged == Clock.serialized b.locationChanged

/-- `Group::MergeMode` (Group.h). `none` at the `Merger` level plays the role
of the sentinel `ModeDefault = static_cast<MergeMode>(-1)`. -/
inductive MergeMode where
  | Inherit
  | KeepNewer
  | KeepExisting
  | KeepBoth
  | Synchronize
deriving Repr, DecidableEq

/-- The payload of an `Entry` apart from its history: UUID, the credential
fields relevant to the merge, the attribute map and the `TimeInfo` record.
History items are entry-shaped snapshots with no nested history, so they are
represented by this type as well. -/
structure EntryData where
  uuid : Nat
  title : String
  attributes : List (String × String)
  timeInfo : TimeInfo
deriving Repr, DecidableEq

/-- An `Entry`: payload, ordered history (oldest first) and the
`canUpdateTimeinfo` flag controlling implicit timestamping. -/
structure Entry where
  data : EntryData
  history : List EntryData
  updateTimeinfo : Bool
deriving Repr, DecidableEq

/-- `Entry::equals` under `CompareItemIgnoreMilliseconds` on a history item:
payloads equal with timestamps compared at serialized precision. -/
def EntryData.equalsIgnoreMs (a b : EntryData) : Bool :=
  a.uuid == b.uuid && a.title == b.title && a.attributes == b.attributes &&
  a.timeInfo.equalsIgnoreMs b.timeInfo

/-- The scalar fields of a `Group` node. `iconNumber`/`iconUuid` are the
mutually exclusive icon representations. -/
structure GroupData where
  uuid : Nat
  name : String
  notes : String
  iconNumber : Nat
  iconUuid : Nat
  timeInfo : TimeInfo
  mergeMode : MergeMode
  updateTimeinfo : Bool
deriving Repr, DecidableEq

/-- A `Group` tree node: scalar data, its own entries and its child groups
(both ordered as in the C++ object). -/
inductive Group where
  | node : GroupData → List Entry → List Group → Group
deriving Repr

/-- Scalar data of a group node. -/
def Group.data : Group → GroupData
  | .node d _ _ => d

/-- `Group::entries`. -/
def Group.entries : Group → List Entry
  | .node _ es _ => es

/-- `Group::children`. -/
def Group.children : Group → List Group
  | .node _ _ gs => gs

/-- `Group::uuid`. -/
def Group.uuid (g : Group) : Nat := g.data.uuid

/-- `DeletedObject` (tombstone): a `(uuid, deletion_time)` pair. -/
structure DeletedObject where
  uuid : Nat
  deletionTime : Nat
deriving Repr, DecidableEq

/-- The slice of `Metadata` that the merger consumes. `historyMaxItems` is a
C++ `int`; a negative value disables the limit. `customIcons` maps icon UUIDs
to an (opaque, numbered) image payload. -/
structure Metadata where
  name : String
  historyMaxItems : Int
  customIcons : List (Nat × Nat)
deriving Repr, DecidableEq

/-- A database: root group, tombstone set, metadata. -/
structure Database where
  rootGroup : Group
  deletedObjects : List DeletedObject
  metadata : Metadata
deriving Repr

mutual

/-- `Group::findEntryByUuid`: first entry with the given UUID in a pre-order
walk (own entries before children). -/
def Group.findEntryByUuid : Group → Nat → Option Entry
  | .node _ es gs, u =>
    match es.find? (fun e => e.data.uuid == u) with
    | some e => some e
    | none => Group.findEntryByUuidIn gs u

/-- Search a list of sibling groups for an entry by UUID. -/
def Group.findEntryByUuidIn : List Group → Nat → Option Entry
  | [], _ => none
  | g :: gs, u =>
    match Group.findEntryByUuid g u with
    | some e => some e
    | none => Group.findEntryByUuidIn gs u

end

mutual

/-- `Group::findGroupByUuid`: first group with the given UUID in a pre-order
walk including the receiver itself; returns the whole subtree. -/
def Group.findGroupByUuid : Group → Nat → Option Group
  | .node d es gs, u =>
    if d.uuid == u then some (.node d es gs)
    else Group.findGroupByUuidIn gs u

/-- Search a list of sibling groups for a group by UUID. -/
def Group.findGroupByUuidIn : List Group → Nat → Option Group
  | [], _ => none
  | g :: gs, u =>
    match Group.findGroupByUuid g u with
    | some e => some e
    | none => Group.findGroupByUuidIn gs u

end

mutual

/-- UUID of the group directly containing the first entry with UUID `u`
(the model of the `entry->group()` back-pointer). -/
def Group.parentOfEntry : Group → Nat → Option Nat
  | .node d es gs, u =>
    if es.any (fun e => e.data.uuid == u) then some d.uuid
    else Group.parentOfEntryIn gs u

/-- Helper of `Group.parentOfEntry` over sibling lists. -/
def Group.parentOfEntryIn : List Group → Nat → Option Nat
  | [], _ => none
  | g :: gs, u =>
    match Group.parentOfEntry g u with
    | some p => some p
    | none => Group.parentOfEntryIn gs u

end

mutual

/-- UUID of the group directly containing the first child group with UUID `u`
(the model of the `group->parentGroup()` back-pointer). -/
def Group.parentOfGroup : Group → Nat → Option Nat
  | .node d _ gs, u =>
    if gs.any (fun g => g.uuid == u) then some d.uuid
    else Group.parentOfGroupIn gs u

/-- Helper of `Group.parentOfGroup` over sibling lists. -/
def Group.parentOfGroupIn : List Group → Nat → Option Nat
  | [], _ => none
  | g :: gs, u =>
    match Group.parentOfGroup g u with
    | some p => some p
    | none => Group.parentOfGroupIn gs u

end

mutual

/-- UUIDs of all entries in the subtree, in pre-order (the order used by
`findEntryByUuid`); the model of `Group::entriesRecursive`. -/
def Group.entryUuids : Group → List Nat
  | .node _ es gs => es.map (fun e => e.data.uuid) ++ Group.entryUuidsIn gs

/-- Helper of `Group.entryUuids` over sibling lists. -/
def Group.entryUuidsIn : List Group → List Nat
  | [] => []
  | g :: gs => Group.entryUuids g ++ Group.entryUuidsIn gs

end

mutual

/-- UUIDs of all groups in the subtree including the receiver, in pre-order
(the order used by `findGroupByUuid`). -/
def Group.groupUuids : Group → List Nat
  | .node d _ gs => d.uuid :: Group.groupUuidsIn gs

/-- Helper of `Group.groupUuids` over sibling lists. -/
def Group.groupUuidsIn : List Group → List Nat
  | [] => []
  | g :: gs => Group.groupUuids g ++ Group.groupUuidsIn gs

end

/-- UUIDs of the strict descendant groups (`Group::groupsRecursive(false)`). -/
def Group.strictDescendantGroupUuids (g : Group) : List Nat :=
  Group.groupUuidsIn g.children

/-- Well-formedness of a database tree as the merger may assume it: entry
UUIDs are pairwise distinct, group UUIDs are pairwise distinct, and no UUID
occurs both as an entry and as a group. -/
def Group.wf (g : Group) : Prop :=
  g.entryUuids.Nodup ∧ g.groupUuids.Nodup ∧ g.entryUuids.Disjoint g.groupUuids

instance (g : Group) : Decidable g.wf := by
  unfold Group.wf List.Disjoint
  infer_instance

mutual

/-- Append an entry to the entry list of the first group with UUID `dest`
(the model of `Entry::setGroup(dest)` for a detached entry: `Group::addEntry`
appends). If no such group exists the tree is unchanged. -/
def Group.addEntryTo : Group → Nat → Entry → Group
  | .node d es gs, dest, e =>
    if d.uuid == dest then .node d (es ++ [e]) gs
    else .node d es (Group.addEntryToIn gs dest e)

/-- Helper of `Group.addEntryTo` over sibling lists: only the first group
with the UUID receives the entry. -/
def Group.addEntryToIn : List Group → Nat → Entry → List Group
  | [], _, _ => []
  | g :: gs, dest, e =>
    if (g.groupUuids).contains dest then Group.addEntryTo g dest e :: gs
    else g :: Group.addEntryToIn gs dest e

end

mutual

/-- Append a child group to the children of the first group with UUID `dest`
(the model of `Group::setParent(dest)` for a detached group). -/
def Group.addChildTo : Group → Nat → Group → Group
  | .node d es gs, dest, c =>
    if d.uuid == dest then .node d es (gs ++ [c])
    else .node d es (Group.addChildToIn gs dest c)

/-- Helper of `Group.addChildTo` over sibling lists. -/
def Group.addChildToIn : List Group → Nat → Group → List Group
  | [], _, _ => []
  | g :: gs, dest, c =>
    if (g.groupUuids).contains dest then Group.addChildTo g dest c :: gs
    else g :: Group.addChildToIn gs dest c

end

mutual

/-- Remove the first entry (in pre-order) with UUID `u` from the tree; the
model of destroying the `Entry` object found by `findEntryByUuid`. -/
def Group.removeEntryFirst : Group → Nat → Group
  | .node d es gs, u =>
    if es.any (fun e => e.data.uuid == u) then
      .node d (es.eraseP (fun e => e.data.uuid == u)) gs
    else .node d es (Group.removeEntryFirstIn gs u)

/-- Helper of `Group.removeEntryFirst` over sibling lists: only the first
subtree containing the UUID is modified. -/
def Group.removeEntryFirstIn : List Group → Nat → List Group
  | [], _ => []
  | g :: gs, u =>
    if (g.entryUuids).contains u then Group.removeEntryFirst g u :: gs
    else g :: Group.removeEntryFirstIn gs u

end

mutual

/-- Remove the first group (in pre-order) with UUID `u` together with its
whole subtree. The root node itself is never removed (it has no parent). -/
def Group.removeGroupFirst : Group → Nat → Group
  | .node d es gs, u => .node d es (Group.removeGroupFirstIn gs u)

/-- Helper of `Group.removeGroupFirst`: remove the first sibling whose
subtree contains the UUID, or descend into it. -/
def Group.removeGroupFirstIn : List Group → Nat → List Group
  | [], _ => []
  | g :: gs, u =>
    if g.uuid == u then gs
    else if (g.groupUuids).contains u then Group.removeGroupFirst g u :: gs
    else g :: Group.removeGroupFirstIn gs u

end

mutual

/-- Apply `f` to the first entry (in pre-order) with UUID `u`; the model of
an in-place mutation through the pointer found by `findEntryByUuid`. -/
def Group.updateEntry : Group → Nat → (Entry → Entry) → Group
  | .node d es gs, u, f =>
    if es.any (fun e => e.data.uuid == u) then
      .node d (es.map (fun e => if e.data.uuid == u then f e else e)) gs
    else .node d es (Group.updateEntryIn gs u f)

/-- Helper of `Group.updateEntry` over sibling lists. -/
def Group.updateEntryIn : List Group → Nat → (Entry → Entry) → List Group
  | [], _, _ => []
  | g :: gs, u, f =>
    if (g.entryUuids).contains u then Group.updateEntry g u f :: gs
    else g :: Group.updateEntryIn gs u f

end

mutual

/-- Apply `f` to the scalar data of the first group (in pre-order) with UUID
`u`; the model of an in-place mutation through the pointer found by
`findGroupByUuid`. -/
def Group.updateGroupData : Group → Nat → (GroupData → GroupData) → Group
  | .node d es gs, u, f =>
    if d.uuid == u then .node (f d) es gs
    else .node d es (Group.updateGroupDataIn gs u f)

/-- Helper of `Group.updateGroupData` over sibling lists. -/
def Group.updateGroupDataIn : List Group → Nat → (GroupData → GroupData) → List Group
  | [], _, _ => []
  | g :: gs, u, f =>
    if (g.groupUuids).contains u then Group.updateGroupData g u f :: gs
    else g :: Group.updateGroupDataIn gs u f

end

/-! ## Clones and implicit timestamping -/

/-- `Entry::clone(Entry::CloneIncludeHistory)`: a fresh object with the same
UUID, payload and history; a fresh entry starts with implicit timestamping
enabled. -/
def Entry.cloneIncludeHistory (e : Entry) : Entry :=
  { data := e.data, history := e.history, updateTimeinfo := true }

/-- `Entry::clone(Entry::CloneNewUuid | Entry::CloneIncludeHistory)`: as
`cloneIncludeHistory` but with a freshly generated UUID. -/
def Entry.cloneNewUuid (newUuid : Nat) (e : Entry) : Entry :=
  { data := { e.data with uuid := newUuid }, history := e.history, updateTimeinfo := true }

/-- `Group::clone(Entry::CloneNoFlags, Group::CloneNoFlags)`: the structural
shell only — same scalar data (UUID, name, times, merge mode), no entries, no
children; the fresh object starts with implicit timestamping enabled. -/
def Group.cloneShell (g : Group) : Group :=
  .node { g.data with updateTimeinfo := true } [] []

/-- Modelled from the spec: the implicit "touch timestamps on modification"
behavior of `Entry::setGroup` (Entry.cpp is not part of the given sources).
Relocating an entry with `updateTimeinfo` enabled stamps `location_changed`
with the current time; nothing else changes (§3: "`location_changed` is
monotone under relocations: moving an object updates it; nothing else
does."). -/
def Entry.setGroupTouch (now : Nat) (e : Entry) : Entry :=
  if e.updateTimeinfo then
    { e with data := { e.data with timeInfo := { e.data.timeInfo with locationChanged := now } } }
  else e

/-- Modelled from the spec: the implicit timestamping of `Group::setParent`,
analogous to `Entry.setGroupTouch`. -/
def Group.setParentTouch (now : Nat) (g : Group) : Group :=
  if g.data.updateTimeinfo then
    .node { g.data with timeInfo := { g.data.timeInfo with locationChanged := now } }
      g.entries g.children
  else g

/-- Modelled from the spec: a content mutation (such as
`EntryAttributes::set`) on an entry with `updateTimeinfo` enabled bumps
`last_modification` and `last_access` to the current time (§5's
"auto-update timestamp on mutation" behavior). -/
def Entry.touchModified (now : Nat) (e : Entry) : Entry :=
  if e.updateTimeinfo then
    { e with data := { e.data with timeInfo :=
        { e.data.timeInfo with lastModificationTime := now, lastAccessTime := now } } }
  else e

/-- Replace or append a binding in the attribute map (`EntryAttributes::set`). -/
def upsertAttribute (key value : String) : List (String × String) → List (String × String)
  | [] => [(key, value)]
  | (k, v) :: rest =>
    if k == key then (k, value) :: rest else (k, v) :: upsertAttribute key value rest

/-! ## Merger: moves (Merger.cpp 174-230) -/

/-- The body of `Merger::moveEntry` acting on the moved entry (Merger.cpp
189-194): save the `canUpdateTimeinfo` flag, disable it, perform `setGroup`
(whose implicit stamping is thereby suppressed), restore the flag. -/
def Merger.moveEntryBody (now : Nat) (e : Entry) : Entry :=
  let entryUpdateTimeInfo := e.updateTimeinfo
  let e1 := { e with updateTimeinfo := false }
  let e2 := Entry.setGroupTouch now e1
  { e2 with updateTimeinfo := entryUpdateTimeInfo }

/-- `Merger::moveEntry` applied to an entry living in the target tree: if its
current parent already is the destination the function returns without any
change (Merger.cpp 178-180); otherwise the entry is detached, passed through
the suspended `setGroup`, and appended to the destination group. -/
def Merger.moveEntry (now : Nat) (root : Group) (u : Nat) (dest : Nat) : Group :=
  match root.parentOfEntry u with
  | none => root
  | some sourceGroup =>
    if sourceGroup == dest then root
    else
      match root.findEntryByUuid u with
      | none => root
      | some e => (root.removeEntryFirst u).addEntryTo dest (Merger.moveEntryBody now e)

/-- `Merger::moveEntry` applied to a freshly cloned (detached) entry: its
parent is null, so the early return does not fire and the entry is appended
to the destination group. -/
def Merger.moveEntryDetached (now : Nat) (root : Group) (e : Entry) (dest : Nat) : Group :=
  root.addEntryTo dest (Merger.moveEntryBody now e)

/-- The body of `Merger::moveGroup` acting on the moved group (Merger.cpp
218-223), analogous to `Merger.moveEntryBody`. -/
def Merger.moveGroupBody (now : Nat) (g : Group) : Group :=
  let groupUpdateTimeInfo := g.data.updateTimeinfo
  let g1 : Group := .node { g.data with updateTimeinfo := false } g.entries g.children
  let g2 := Group.setParentTouch now g1
  .node { g2.data with updateTimeinfo := groupUpdateTimeInfo } g2.entries g2.children

/-- `Merger::moveGroup` applied to a group living in the target tree. -/
def Merger.moveGroup (now : Nat) (root : Group) (u : Nat) (dest : Nat) : Group :=
  match root.parentOfGroup u with
  | none => root
  | some sourceGroup =>
    if sourceGroup == dest then root
    else
      match root.findGroupByUuid u with
      | none => root
      | some g => (root.removeGroupFirst u).addChildTo dest (Merger.moveGroupBody now g)

/-- `Merger::moveGroup` applied to a freshly cloned (detached) group shell. -/
def Merger.moveGroupDetached (now : Nat) (root : Group) (g : Group) (dest : Nat) : Group :=
  root.addChildTo dest (Merger.moveGroupBody now g)

/-- `Merger::markOlderEntry` (Merger.cpp 167-172): set the `merged` attribute
on the entry. The attribute write goes through the entry's normal mutation
path, so its implicit timestamping applies. -/
def Merger.markOlderEntry (now : Nat) (dbName : String) (e : Entry) : Entry :=
  let value := "older entry merged from database \"" ++ dbName ++ "\""
  let attrs := upsertAttribute "merged" value e.data.attributes
  Entry.touchModified now { e with data := { e.data with attributes := attrs } }

/-! ## Merge modes and the change log -/

mutual

/-- Walk from the root towards the group with UUID `u`, resolving `Inherit`
to the nearest explicitly configured ancestor mode. -/
def Group.effectiveModeAux : MergeMode → Group → Nat → Option MergeMode
  | inherited, .node d _ gs, u =>
    let cur := if d.mergeMode == .Inherit then inherited else d.mergeMode
    if d.uuid == u then some cur else Group.effectiveModeAuxIn cur gs u

/-- Helper of `Group.effectiveModeAux` over sibling lists. -/
def Group.effectiveModeAuxIn : MergeMode → List Group → Nat → Option MergeMode
  | _, [], _ => none
  | inherited, g :: gs, u =>
    match Group.effectiveModeAux inherited g u with
    | some m => some m
    | none => Group.effectiveModeAuxIn inherited gs u

end

/-- Modelled from the spec: `Group::mergeMode` (Group.cpp is not part of the
given sources) resolves `Inherit` through the parent chain (§3); an `Inherit`
at the root resolves to `KeepNewer` (the default strategy observed by
tests/TestMerge.cpp, "default merge strategie is KeepNewer"). -/
def Group.effectiveMergeMode (root : Group) (u : Nat) : MergeMode :=
  (Group.effectiveModeAux .KeepNewer root u).getD .KeepNewer

/-- The change log entries emitted by the merger, keyed by the UUID of the
affected object (the model of the human-readable `ChangeList` strings:
`merge()` only ever queries emptiness). -/
inductive Change where
  | creatingMissing (uuid : Nat)
  | relocating (uuid : Nat)
  | overwriting (uuid : Nat)
  | addingBackup (uuid : Nat)
  | synchronizing (uuid : Nat)
  | deleting (uuid : Nat)
  | changedDeletedObjects
  | addingIcon (uuid : Nat)
deriving Repr, DecidableEq

/-- The state threaded through the structural pass: the evolving target tree,
the accumulated change list, and a counter supplying the fresh UUIDs that
`Uuid::random()` produces for `KeepBoth` clones. -/
structure MergeSt where
  root : Group
  changes : List Change
  freshUuid : Nat

/-! ## Group conflict resolution (Merger.cpp 142-165) -/

/-- `Merger::resolveGroupConflict` on the scalar data of the two groups:
if the source group's `last_modification` (at native precision) is strictly
newer, copy name, notes, icon (numeric-vs-UUID kind preserved) and expiry
time onto the target group. Modelled from the spec: the content setters do
not update the target group's `last_modification` (§9: the source notes this
as intentionally deferred, see the TODO at Merger.cpp:162). Returns whether
the overwrite fired together with the updated data. -/
def Merger.resolveGroupConflictData (sourceChildGroup targetChildGroup : GroupData) :
    Bool × GroupData :=
  let timeExisting := targetChildGroup.timeInfo.lastModificationTime
  let timeOther := sourceChildGroup.timeInfo.lastModificationTime
  if timeExisting < timeOther then
    let icon :=
      if sourceChildGroup.iconNumber == 0 then (0, sourceChildGroup.iconUuid)
      else (sourceChildGroup.iconNumber, 0)
    let ti := { targetChildGroup.timeInfo with expiryTime := sourceChildGroup.timeInfo.expiryTime }
    (true, { targetChildGroup with
              name := sourceChildGroup.name
              notes := sourceChildGroup.notes
              iconNumber := icon.1
              iconUuid := icon.2
              timeInfo := ti })
  else (false, targetChildGroup)

/-! ## Entry conflict resolution (Merger.cpp 266-346) -/

/-- The branch selected by the `switch`/`if` cascade of
`Merger::resolveEntryConflict`, as a function of the effective merge mode and
the two `last_modification` times at serialized precision. -/
inductive EntryDecision where
  | keepBothOlderSource
  | keepBothOlderTarget
  | keepNewerOverwrite
  | synchronizeSourceNewer
  | synchronizeTargetNewer
  | doNothing
deriving Repr, DecidableEq

/-- The dispatch of `Merger::resolveEntryConflict` (Merger.cpp 278-344):
`timeTarget`/`timeSource` are the serialized-precision modification times.
The `default` case of the `switch` (an unresolved mode) does nothing. -/
def Merger.entryDecision (mergeMode : MergeMode) (timeTarget timeSource : Nat) :
    EntryDecision :=
  match mergeMode with
  | .KeepBoth =>
    if timeTarget > timeSource then .keepBothOlderSource
    else if timeTarget < timeSource then .keepBothOlderTarget
    else .doNothing
  | .KeepNewer => if timeTarget < timeSource then .keepNewerOverwrite else .doNothing
  | .KeepExisting => .doNothing
  | .Synchronize =>
    if timeTarget < timeSource then .synchronizeSourceNewer else .synchronizeTargetNewer
  | .Inherit => .doNothing

/-! ## History merge (Merger.cpp 348-418) -/

/-- Insert a binding into a key-sorted association list, overwriting an
existing binding for the key: the model of `QMap<QDateTime, Entry*>`, whose
iteration order is ascending by key. -/
def mapInsert (k : Nat) (v : EntryData) : List (Nat × EntryData) → List (Nat × EntryData)
  | [] => [(k, v)]
  | (k1, v1) :: rest =>
    if k < k1 then (k, v) :: (k1, v1) :: rest
    else if k == k1 then (k, v) :: rest
    else (k1, v1) :: mapInsert k v rest

/-- `QMap::contains`. -/
def mapContains (k : Nat) (m : List (Nat × EntryData)) : Bool :=
  m.any (fun p => p.1 == k)

/-- `QList::value(count - i)` on a history list: `QList::value` returns a
default (null) element when the index is out of range, including the
negative indices that arise for `i > count`. -/
def Merger.histAt (l : List EntryData) (i : Nat) : Option EntryData :=
  if i ≤ l.length then l.get? (l.length - i) else none

/-- Modelled from the spec: `Entry::truncateHistory` applies the
database-configured truncation policy (§4.5): a negative `historyMaxItems`
disables the limit, otherwise only the newest `maxItems` items are kept
(items are stored oldest first). -/
def Entry.truncateHistory (maxItems : Int) (e : Entry) : Entry :=
  if maxItems < 0 then e
  else { e with history := e.history.drop (e.history.length - maxItems.toNat) }

/-- Modelled from the spec: replacing an entry's history list
(`removeHistoryItems` + `addHistoryItem`) is a mutation of the entry, so with
`updateTimeinfo` enabled the implicit bookkeeping would bump
`last_modification`/`last_access` (§4.5 directs the merger to suspend it:
"merging history MUST NOT bump A's modification time"). -/
def Entry.replaceHistoryTouch (now : Nat) (h : List EntryData) (e : Entry) : Entry :=
  Entry.touchModified now { e with history := h }

/-- `Merger::mergeHistory`: fold `sourceEntry`'s history into `targetEntry`.
Returns whether anything changed together with the updated target entry.
The map is keyed by serialized modification time, drawing first from the
target's history, then from the source's (existing keys win); the older of
the two top-level entries is materialized as a history item if missing; the
result replaces the target's history only if the tail-aligned comparison
(up to `historyMaxItems`, ignoring milliseconds) detects a difference, and
the replacement runs under a saved/suspended/restored `updateTimeinfo` flag
(Merger.cpp 403-414). -/
def Merger.mergeHistory (now : Nat) (maxItems : Int) (sourceEntry targetEntry : Entry) :
    Bool × Entry :=
  let targetHistoryItems := targetEntry.history
  let sourceHistoryItems := sourceEntry.history
  let m1 := targetHistoryItems.foldl
    (fun m h => mapInsert (Clock.serialized h.timeInfo.lastModificationTime) h m) []
  let m2 := sourceHistoryItems.foldl
    (fun m h =>
      let k := Clock.serialized h.timeInfo.lastModificationTime
      if mapContains k m then m else mapInsert k h m) m1
  let targetModificationTime := Clock.serialized targetEntry.data.timeInfo.lastModificationTime
  let sourceModificationTime := Clock.serialized sourceEntry.data.timeInfo.lastModificationTime
  let merged :=
    if targetModificationTime < sourceModificationTime &&
        !(mapContains targetModificationTime m2) then
      mapInsert targetModificationTime targetEntry.data m2
    else if targetModificationTime > sourceModificationTime &&
        !(mapContains sourceModificationTime m2) then
      mapInsert sourceModificationTime sourceEntry.data m2
    else m2
  let updatedHistoryItems := merged.map (fun p => p.2)
  let changed := (List.range maxItems.toNat).any (fun i =>
    match Merger.histAt targetHistoryItems i, Merger.histAt updatedHistoryItems i with
    | none, none => false
    | some oldEntry, some newEntry => !(oldEntry.equalsIgnoreMs newEntry)
    | _, _ => true)
  if !changed then (false, targetEntry)
  else
    let updateTimeInfo := targetEntry.updateTimeinfo
    let e1 := { targetEntry with updateTimeinfo := false }
    let e2 := Entry.replaceHistoryTouch now updatedHistoryItems e1
    let e3 := Entry.truncateHistory maxItems e2
    (true, { e3 with updateTimeinfo := updateTimeInfo })

/-! ## Entry conflict resolution, tree level (Merger.cpp 266-346) -/

/-- The environment fixed for a whole merge run: the clock, the forced merge
mode (`m_mode`; `none` is the `ModeDefault` sentinel), and the target
database's metadata name and `historyMaxItems` (consumed by
`markOlderEntry` and `mergeHistory`). -/
structure MergeEnv where
  now : Nat
  forced : Option MergeMode
  targetDbName : String
  historyMaxItems : Int

/-- The effective mode consulted by `Merger::resolveEntryConflict`
(Merger.cpp 276): the forced mode if one was configured on the merger,
otherwise the merge mode of the current target group. -/
def Merger.effectiveEntryMode (env : MergeEnv) (root : Group) (ctxTargetUuid : Nat) :
    MergeMode :=
  match env.forced with
  | none => Group.effectiveMergeMode root ctxTargetUuid
  | some m => m

/-- `Merger::resolveEntryConflict`: `sourceEntry` is the (read-only) source
entry, the target entry is the tree entry sharing its UUID. The serialized
modification times select a branch via `Merger.entryDecision`; the branch
bodies mirror Merger.cpp 278-344. -/
def Merger.resolveEntryConflict (env : MergeEnv) (ctxTargetUuid : Nat)
    (sourceEntry : Entry) (st : MergeSt) : MergeSt :=
  let u := sourceEntry.data.uuid
  match st.root.findEntryByUuid u with
  | none => st
  | some targetEntry =>
    let timeTarget := Clock.serialized targetEntry.data.timeInfo.lastModificationTime
    let timeSource := Clock.serialized sourceEntry.data.timeInfo.lastModificationTime
    let mergeMode := Merger.effectiveEntryMode env st.root ctxTargetUuid
    match Merger.entryDecision mergeMode timeTarget timeSource with
    | .keepBothOlderSource =>
      let clonedEntry := Entry.cloneNewUuid st.freshUuid sourceEntry
      let root1 := Merger.moveEntryDetached env.now st.root clonedEntry ctxTargetUuid
      let root2 := root1.updateEntry clonedEntry.data.uuid
        (Merger.markOlderEntry env.now env.targetDbName)
      { root := root2, changes := st.changes ++ [.addingBackup u],
        freshUuid := st.freshUuid + 1 }
    | .keepBothOlderTarget =>
      let clonedEntry := Entry.cloneNewUuid st.freshUuid sourceEntry
      let root1 := Merger.moveEntryDetached env.now st.root clonedEntry ctxTargetUuid
      let root2 := root1.updateEntry u (Merger.markOlderEntry env.now env.targetDbName)
      { root := root2, changes := st.changes ++ [.addingBackup u],
        freshUuid := st.freshUuid + 1 }
    | .keepNewerOverwrite =>
      match st.root.parentOfEntry u with
      | none => st
      | some currentGroup =>
        let clonedEntry := Entry.cloneIncludeHistory sourceEntry
        let root1 := Merger.moveEntryDetached env.now st.root clonedEntry currentGroup
        let root2 := root1.removeEntryFirst u
        { st with root := root2, changes := st.changes ++ [.overwriting u] }
    | .synchronizeSourceNewer =>
      match st.root.parentOfEntry u with
      | none => st
      | some currentGroup =>
        let clonedEntry := Entry.cloneIncludeHistory sourceEntry
        let mergedClone :=
          (Merger.mergeHistory env.now env.historyMaxItems targetEntry clonedEntry).2
        let root1 := Merger.moveEntryDetached env.now st.root mergedClone currentGroup
        let root2 := root1.removeEntryFirst u
        { st with root := root2, changes := st.changes ++ [.synchronizing u] }
    | .synchronizeTargetNewer =>
      let res := Merger.mergeHistory env.now env.historyMaxItems sourceEntry targetEntry
      let root1 := st.root.updateEntry u (fun _ => res.2)
      let cs := if res.1 then st.changes ++ [.synchronizing u] else st.changes
      { st with root := root1, changes := cs }
    | .doNothing => st

/-! ## Structural pass (Merger.cpp 84-140) -/

/-- The per-source-entry step of `Merger::mergeGroup` (Merger.cpp 89-105):
create a missing counterpart (deep clone including history) under the
current target group, or relocate an existing counterpart whose
`location_changed` is strictly older than the source's and whose parent is
not the current target group, then dispatch to conflict resolution. -/
def Merger.mergeGroupEntry (env : MergeEnv) (sourceEntry : Entry) (ctxTargetUuid : Nat)
    (st : MergeSt) : MergeSt :=
  let u := sourceEntry.data.uuid
  match st.root.findEntryByUuid u with
  | none =>
    let targetEntry := Entry.cloneIncludeHistory sourceEntry
    { st with root := Merger.moveEntryDetached env.now st.root targetEntry ctxTargetUuid,
              changes := st.changes ++ [.creatingMissing u] }
  | some targetEntry =>
    let locationChanged :=
      targetEntry.data.timeInfo.locationChanged < sourceEntry.data.timeInfo.locationChanged
    let st1 :=
      if locationChanged && (st.root.parentOfEntry u != some ctxTargetUuid) then
        { st with root := Merger.moveEntry env.now st.root u ctxTargetUuid,
                  changes := st.changes ++ [.relocating u] }
      else st
    Merger.resolveEntryConflict env ctxTargetUuid sourceEntry st1

/-- The per-source-child-group prelude of `Merger::mergeGroup` (Merger.cpp
110-130), before the recursive descent: create a structural shell for a
missing counterpart (copying `location_changed` afterwards), or relocate an
existing counterpart (updating its `location_changed` to the source's), then
resolve the group conflict. -/
def Merger.mergeGroupChildStep (env : MergeEnv) (sourceChildGroup : Group)
    (ctxTargetUuid : Nat) (st : MergeSt) : MergeSt :=
  let u := sourceChildGroup.uuid
  match st.root.findGroupByUuid u with
  | none =>
    let shell := Group.cloneShell sourceChildGroup
    let root1 := Merger.moveGroupDetached env.now st.root shell ctxTargetUuid
    let root2 := root1.updateGroupData u (fun d =>
      { d with timeInfo :=
          { d.timeInfo with locationChanged := sourceChildGroup.data.timeInfo.locationChanged } })
    { st with root := root2, changes := st.changes ++ [.creatingMissing u] }
  | some targetChildGroup =>
    let locationChanged :=
      targetChildGroup.data.timeInfo.locationChanged <
        sourceChildGroup.data.timeInfo.locationChanged
    let st1 :=
      if locationChanged && (st.root.parentOfGroup u != some ctxTargetUuid) then
        let root1 := Merger.moveGroup env.now st.root u ctxTargetUuid
        let root2 := root1.updateGroupData u (fun d =>
          { d with timeInfo :=
              { d.timeInfo with locationChanged := sourceChildGroup.data.timeInfo.locationChanged } })
        { st with root := root2, changes := st.changes ++ [.relocating u] }
      else st
    match st1.root.findGroupByUuid u with
    | none => st1
    | some tc =>
      let res := Merger.resolveGroupConflictData sourceChildGroup.data tc.data
      if res.1 then
        { st1 with root := st1.root.updateGroupData u (fun _ => res.2),
                   changes := st1.changes ++ [.overwriting u] }
      else st1

mutual

/-- `Merger::mergeGroup`: reconcile all entries of the current source group
(before any recursion), then every source child group followed by the
recursive descent into the pair of children. -/
def Merger.mergeGroup (env : MergeEnv) : Group → Nat → MergeSt → MergeSt
  | .node _ es gs, ctxTargetUuid, st =>
    let st1 := es.foldl (fun s e => Merger.mergeGroupEntry env e ctxTargetUuid s) st
    Merger.mergeGroupChildren env gs ctxTargetUuid st1

/-- The child-group loop of `Merger::mergeGroup`: per child, the
non-recursive prelude, then the recursion with the child pair as the new
current context (the target counterpart shares the source child's UUID). -/
def Merger.mergeGroupChildren (env : MergeEnv) :
    List Group → Nat → MergeSt → MergeSt
  | [], _, st => st
  | g :: gs, ctxTargetUuid, st =>
    let stA := Merger.mergeGroupChildStep env g ctxTargetUuid st
    let stB := Merger.mergeGroup env g g.uuid stA
    Merger.mergeGroupChildren env gs ctxTargetUuid stB

end

/-! ## Deletion pass (Merger.cpp 420-499) -/

/-- `QMap<Uuid, DeletedObject>::contains`. -/
def dmContains (u : Nat) (m : List (Nat × DeletedObject)) : Bool :=
  m.any (fun p => p.1 == u)

/-- `QMap<Uuid, DeletedObject>::operator[]` (lookup; the default value is
never consulted at the merger's call sites). -/
def dmGet (u : Nat) (m : List (Nat × DeletedObject)) : DeletedObject :=
  (((m.find? (fun p => p.1 == u)).map (fun p => p.2)).getD { uuid := u, deletionTime := 0 })

/-- `QMap<Uuid, DeletedObject>::operator[]=`: overwrite the binding. -/
def dmSet (u : Nat) (obj : DeletedObject) (m : List (Nat × DeletedObject)) :
    List (Nat × DeletedObject) :=
  if dmContains u m then m.map (fun p => if p.1 == u then (u, obj) else p)
  else m ++ [(u, obj)]

/-- The accumulator of the tombstone-union loop (Merger.cpp 426-450). -/
structure DelAcc where
  mergedDeletions : List (Nat × DeletedObject)
  entries : List Nat
  groups : List Nat
  deletions : List DeletedObject

/-- The tombstone-union loop of `Merger::mergeDeletions` (Merger.cpp
430-450) over `targetDeletions + sourceDeletions`: on the first occurrence
of a UUID, register it and queue the live entry or group that carries it (or
retain the tombstone directly when no live object exists); on later
occurrences keep the earlier `deletion_time` in the map. -/
def Merger.collectDeletions (root : Group) :
    List DeletedObject → DelAcc → DelAcc
  | [], acc => acc
  | object :: rest, acc =>
    if dmContains object.uuid acc.mergedDeletions then
      let acc1 :=
        if (dmGet object.uuid acc.mergedDeletions).deletionTime > object.deletionTime then
          { acc with mergedDeletions := dmSet object.uuid object acc.mergedDeletions }
        else acc
      Merger.collectDeletions root rest acc1
    else
      let acc1 := { acc with mergedDeletions := dmSet object.uuid object acc.mergedDeletions }
      match root.findEntryByUuid object.uuid with
      | some _ => Merger.collectDeletions root rest
          { acc1 with entries := acc1.entries ++ [object.uuid] }
      | none =>
        match root.findGroupByUuid object.uuid with
        | some _ => Merger.collectDeletions root rest
            { acc1 with groups := acc1.groups ++ [object.uuid] }
        | none => Merger.collectDeletions root rest
            { acc1 with deletions := acc1.deletions ++ [object] }

/-- The live-entry loop of `Merger::mergeDeletions` (Merger.cpp 452-467): an
entry modified (at native precision) after the merged tombstone's deletion
time survives and sheds the tombstone; otherwise the entry is erased and the
tombstone retained. -/
def Merger.deleteEntries (merged : List (Nat × DeletedObject)) :
    List Nat → Group → List DeletedObject → List Change →
    Group × List DeletedObject × List Change
  | [], root, deletions, changes => (root, deletions, changes)
  | u :: rest, root, deletions, changes =>
    match root.findEntryByUuid u with
    | none => Merger.deleteEntries merged rest root deletions changes
    | some entry =>
      let object := dmGet u merged
      if entry.data.timeInfo.lastModificationTime > object.deletionTime then
        Merger.deleteEntries merged rest root deletions changes
      else
        Merger.deleteEntries merged rest (root.removeEntryFirst u)
          (deletions ++ [object]) (changes ++ [.deleting u])

/-- The live-group loop of `Merger::mergeDeletions` (Merger.cpp 469-492),
fuelled: a group with a direct child still in the queue is requeued at the
tail; a group modified after the tombstone survives; a group still holding
any entries or descendant groups survives; otherwise it is erased and the
tombstone retained. `none` means the fuel ran out (the C++ loop terminates
because the queued groups form part of a finite forest). -/
def Merger.deleteGroups (merged : List (Nat × DeletedObject)) :
    Nat → List Nat → Group → List DeletedObject → List Change →
    Option (Group × List DeletedObject × List Change)
  | _, [], root, deletions, changes => some (root, deletions, changes)
  | 0, _ :: _, _, _, _ => none
  | fuel + 1, u :: rest, root, deletions, changes =>
    match root.findGroupByUuid u with
    | none => Merger.deleteGroups merged fuel rest root deletions changes
    | some group =>
      if (group.children.map Group.uuid).any (fun c => rest.contains c) then
        Merger.deleteGroups merged fuel (rest ++ [u]) root deletions changes
      else
        let object := dmGet u merged
        if group.data.timeInfo.lastModificationTime > object.deletionTime then
          Merger.deleteGroups merged fuel rest root deletions changes
        else if !group.entryUuids.isEmpty || !(Group.strictDescendantGroupUuids group).isEmpty then
          Merger.deleteGroups merged fuel rest root deletions changes
        else
          Merger.deleteGroups merged fuel rest (root.removeGroupFirst u)
            (deletions ++ [object]) (changes ++ [.deleting u])

/-- `Merger::mergeDeletions`: union loop, entry loop, group loop; the final
tombstone list replaces the target's, and a change is recorded when it
differs from the target's previous tombstone list. -/
def Merger.mergeDeletions (root : Group)
    (targetDeletions sourceDeletions : List DeletedObject) (changes : List Change) :
    Option (Group × List DeletedObject × List Change) :=
  let acc := Merger.collectDeletions root (targetDeletions ++ sourceDeletions)
    { mergedDeletions := [], entries := [], groups := [], deletions := [] }
  let r1 := Merger.deleteEntries acc.mergedDeletions acc.entries root acc.deletions changes
  match Merger.deleteGroups acc.mergedDeletions
      ((acc.groups.length + 1) * (acc.groups.length + 1)) acc.groups r1.1 r1.2.1 r1.2.2 with
  | none => none
  | some (root2, deletions2, changes2) =>
    let changes3 :=
      if deletions2 == targetDeletions then changes2
      else changes2 ++ [.changedDeletedObjects]
    some (root2, deletions2, changes3)

/-! ## Metadata pass (Merger.cpp 501-521) -/

/-- `Merger::mergeMetadata`: copy every custom icon present in the source but
absent from the target into the target's icon table. -/
def Merger.mergeMetadata (sourceMetadata targetMetadata : Metadata) (changes : List Change) :
    Metadata × List Change :=
  sourceMetadata.customIcons.foldl
    (fun acc p =>
      if acc.1.customIcons.any (fun q => q.1 == p.1) then acc
      else ({ acc.1 with customIcons := acc.1.customIcons ++ [p] },
            acc.2 ++ [.addingIcon p.1]))
    (targetMetadata, changes)

/-! ## The Merger object (Merger.cpp 27-82) -/

/-- `MergeContext`: both databases, both root scopes, and the current pair of
groups being reconciled (the target side by UUID into the target tree). -/
structure MergeContext where
  sourceDb : Database
  targetDb : Database
  sourceRootGroup : Group
  targetRootGroup : Group
  sourceGroup : Group
  targetGroupUuid : Nat

/-- The `Merger`: the forced mode `m_mode` (`none` models the `ModeDefault`
sentinel) and the context, which stays unpopulated when a constructor
argument is null. -/
structure Merger where
  mode : Option MergeMode
  context : Option MergeContext

/-- `Merger::Merger(const Database*, Database*)`: with a null argument the
constructor asserts and returns without populating the context. -/
def Merger.make (sourceDb targetDb : Option Database) : Merger :=
  match sourceDb, targetDb with
  | some s, some t =>
    { mode := none,
      context := some
        { sourceDb := s, targetDb := t, sourceRootGroup := s.rootGroup,
          targetRootGroup := t.rootGroup, sourceGroup := s.rootGroup,
          targetGroupUuid := t.rootGroup.uuid } }
  | _, _ => { mode := none, context := none }

/-- `Merger::Merger(const Group*, Group*)`: group-scoped construction; the
groups' databases are passed alongside (the model of `group->database()`).
With a null group the context stays unpopulated. -/
def Merger.makeGroups (sourceGroup : Option Group) (sourceDb : Database)
    (targetGroup : Option Group) (targetDb : Database) : Merger :=
  match sourceGroup, targetGroup with
  | some s, some t =>
    { mode := none,
      context := some
        { sourceDb := sourceDb, targetDb := targetDb,
          sourceRootGroup := sourceDb.rootGroup, targetRootGroup := targetDb.rootGroup,
          sourceGroup := s, targetGroupUuid := t.uuid } }
  | _, _ => { mode := none, context := none }

/-- `Merger::setForcedMergeMode`. -/
def Merger.setForcedMergeMode (mode : MergeMode) (m : Merger) : Merger :=
  { m with mode := some mode }

/-- `Merger::resetForcedMergeMode`. -/
def Merger.resetForcedMergeMode (m : Merger) : Merger :=
  { m with mode := none }

/-- `Merger::merge` (Merger.cpp 65-82): the three passes in order; the target
is marked modified and `true` returned iff the change list is non-empty.
With an unpopulated context the C++ `mergeGroup(m_context)` dereferences a
null pointer — modelled as `none` (no result); `none` also covers fuel
exhaustion of the group-deletion loop, which cannot happen on well-formed
finite inputs. `now` is the current clock; `freshSeed` models the stream of
random UUIDs consumed by `KeepBoth` clones. -/
def Merger.merge (now freshSeed : Nat) (m : Merger) : Option (Bool × Database) :=
  match m.context with
  | none => none
  | some context =>
    let env : MergeEnv :=
      { now := now, forced := m.mode,
        targetDbName := context.targetDb.metadata.name,
        historyMaxItems := context.targetDb.metadata.historyMaxItems }
    let st0 : MergeSt := { root := context.targetRootGroup, changes := [], freshUuid := freshSeed }
    let st1 := Merger.mergeGroup env context.sourceGroup context.targetGroupUuid st0
    match Merger.mergeDeletions st1.root context.targetDb.deletedObjects
        context.sourceDb.deletedObjects st1.changes with
    | none => none
    | some (root2, deletions2, changes2) =>
      let metaRes := Merger.mergeMetadata context.sourceDb.metadata
        context.targetDb.metadata changes2
      let targetDb1 : Database :=
        { rootGroup := root2, deletedObjects := deletions2, metadata := metaRes.1 }
      some (!metaRes.2.isEmpty, targetDb1)

/-! ## Derived notions used in the statements -/

/-- The deletion time that the tombstone-union loop associates with a UUID:
the earliest `deletion_time` among all tombstones for it in the concatenated
list (seeded by the first occurrence). -/
def Merger.minDeletionTime (u : Nat) (objects : List DeletedObject) : Nat :=
  match objects.filter (fun o => o.uuid == u) with
  | [] => 0
  | o :: os => os.foldl (fun t p => min t p.deletionTime) o.deletionTime

/-- The accumulator produced by the tombstone-union loop started from the
empty state, exactly as `Merger::mergeDeletions` starts it. -/
def Merger.unionAcc (root : Group) (tDels sDels : List DeletedObject) : DelAcc :=
  Merger.collectDeletions root (tDels ++ sDels)
    { mergedDeletions := [], entries := [], groups := [], deletions := [] }

/-- The state after the live-entry loop of `Merger::mergeDeletions`. -/
def Merger.entriesStage (root : Group) (tDels sDels : List DeletedObject)
    (cs : List Change) : Group × List DeletedObject × List Change :=
  Merger.deleteEntries (Merger.unionAcc root tDels sDels).mergedDeletions
    (Merger.unionAcc root tDels sDels).entries root
    (Merger.unionAcc root tDels sDels).deletions cs

/-! ## Concrete fixtures

Small literal databases used to instantiate theorems with hypotheses and to
exhibit counterexamples. -/

/-- A `TimeInfo` with the given modification and location-change times. -/
def fixTime (lastMod locChanged : Nat) : TimeInfo :=
  { creationTime := 0, lastModificationTime := lastMod, lastAccessTime := 0,
    expiryTime := 0, locationChanged := locChanged, expires := false, usageCount := 0 }

/-- An entry fixture. -/
def fixEntry (u : Nat) (title : String) (lastMod locChanged : Nat) : Entry :=
  { data := { uuid := u, title := title, attributes := [], timeInfo := fixTime lastMod locChanged },
    history := [], updateTimeinfo := true }

/-- A group-data fixture. -/
def fixGroupData (u : Nat) (name : String) (lastMod locChanged : Nat) : GroupData :=
  { uuid := u, name := name, notes := "", iconNumber := 1, iconUuid := 0,
    timeInfo := fixTime lastMod locChanged, mergeMode := .Inherit, updateTimeinfo := true }

/-- A metadata fixture. -/
def fixMeta : Metadata := { name := "db", historyMaxItems := 10, customIcons := [] }

/-- A database fixture around a root group and a tombstone list. -/
def fixDb (root : Group) (deletions : List DeletedObject) : Database :=
  { rootGroup := root, deletedObjects := deletions, metadata := fixMeta }

/-- A target database whose child group 10 carries `last_modification`
1000 ms and the name `oldname`. -/
def tgtGroupConflict : Database :=
  fixDb (.node (fixGroupData 2 "Root" 0 0) [] [.node (fixGroupData 10 "oldname" 1000 0) [] []])
    []

/-- A source database whose child group 10 carries `last_modification`
2000 ms and the name `newname`. -/
def srcGroupConflict : Database :=
  fixDb (.node (fixGroupData 1 "Root" 0 0) [] [.node (fixGroupData 10 "newname" 2000 0) [] []])
    []

/-- As `srcGroupConflict` but with `last_modification` 1500 ms — the same
second as 1000 ms, differing only in the millisecond component. -/
def srcGroupConflictMs : Database :=
  fixDb (.node (fixGroupData 1 "Root" 0 0) [] [.node (fixGroupData 10 "newname" 1500 0) [] []])
    []

/-- As `srcGroupConflict` but with `last_modification` 1000 ms. -/
def srcGroupConflictSameSec : Database :=
  fixDb (.node (fixGroupData 1 "Root" 0 0) [] [.node (fixGroupData 10 "newname" 1000 0) [] []])
    []

/-- The name of the group found at a UUID, used to observe merge outcomes. -/
def groupNameIn (db : Database) (u : Nat) : Option String :=
  (db.rootGroup.findGroupByUuid u).map (fun g => g.data.name)

/-- A target database with entry 100 under group 10; the entry was last
modified at 500 ms and last relocated at 1000 ms. -/
def tgtRelocate : Database :=
  fixDb (.node (fixGroupData 2 "Root" 0 0) []
    [ .node (fixGroupData 10 "g1" 0 0) [fixEntry 100 "e1" 500 1000] [],
      .node (fixGroupData 11 "g2" 0 0) [] [] ]) []

/-- A source database in which the same entry 100 lives under group 11 with
`location_changed` 3000 ms (newer than the target's 1000 ms). -/
def srcRelocate : Database :=
  fixDb (.node (fixGroupData 1 "Root" 0 0) []
    [ .node (fixGroupData 10 "g1" 0 0) [] [],
      .node (fixGroupData 11 "g2" 0 0) [fixEntry 100 "e1" 500 3000] [] ]) []

/-- An empty database fixture. -/
def emptyDb : Database := fixDb (.node (fixGroupData 3 "Root" 0 0) [] []) []

/-! ## List-level helper lemmas -/

/-- Removing the first element satisfying `p` does not disturb a search for a
predicate disjoint from `p`. -/
theorem find?_eraseP_disjoint {α : Type} {p q : α → Bool}
    (hpq : ∀ a, q a = true → p a = false) :
    ∀ (l : List α), (l.eraseP p).find? q = l.find? q
  | [] => rfl
  | a :: l => by
    cases hp : p a with
    | true =>
      rw [List.eraseP_cons_of_pos hp]
      cases hq : q a with
      | true => exact absurd (hpq a hq) (by simp [hp])
      | false => rw [List.find?_cons_of_neg _ (by simp [hq])]
    | false =>
      rw [List.eraseP_cons_of_neg (by simp [hp])]
      cases hq : q a with
      | true => rw [List.find?_cons_of_pos _ hq, List.find?_cons_of_pos _ hq]
      | false =>
        rw [List.find?_cons_of_neg _ (by simp [hq]), List.find?_cons_of_neg _ (by simp [hq])]
        exact find?_eraseP_disjoint hpq l

/-- `any` for a predicate disjoint from `p` is unaffected by `eraseP p`. -/
theorem any_eraseP_disjoint {α : Type} {p q : α → Bool}
    (hpq : ∀ a, q a = true → p a = false) :
    ∀ (l : List α), (l.eraseP p).any q = l.any q
  | [] => rfl
  | a :: l => by
    cases hp : p a with
    | true =>
      rw [List.eraseP_cons_of_pos hp]
      cases hq : q a with
      | true => exact absurd (hpq a hq) (by simp [hp])
      | false => simp [hq]
    | false =>
      rw [List.eraseP_cons_of_neg (by simp [hp])]
      simp only [List.any_cons]
      rw [any_eraseP_disjoint hpq l]

/-! ## Bridge lemmas: searches versus UUID lists -/

mutual

/-- An entry search succeeds exactly when the UUID occurs in the pre-order
entry UUID list. -/
theorem Group.findEntry_isSome_iff :
    ∀ (g : Group) (u : Nat), (g.findEntryByUuid u).isSome = true ↔ u ∈ g.entryUuids
  | .node d es gs, u => by
    rw [Group.findEntryByUuid, Group.entryUuids]
    cases h : es.find? (fun e => e.data.uuid == u) with
    | some e =>
      have heq := List.find?_some h
      have hmem := List.mem_of_find?_eq_some h
      simp only [beq_iff_eq] at heq
      exact iff_of_true (by simp) (List.mem_append.mpr (Or.inl (List.mem_map.mpr ⟨e, hmem, heq⟩)))
    | none =>
      have hnm : u ∉ es.map (fun e => e.data.uuid) := by
        intro hm
        obtain ⟨e, he, hee⟩ := List.mem_map.mp hm
        have := List.find?_eq_none.mp h e he
        simp [hee] at this
      simp only [List.mem_append, hnm, false_or]
      exact Group.findEntryIn_isSome_iff gs u

/-- Sibling-list version of `Group.findEntry_isSome_iff`. -/
theorem Group.findEntryIn_isSome_iff :
    ∀ (gs : List Group) (u : Nat),
      (Group.findEntryByUuidIn gs u).isSome = true ↔ u ∈ Group.entryUuidsIn gs
  | [], u => by simp [Group.findEntryByUuidIn, Group.entryUuidsIn]
  | g :: gs, u => by
    rw [Group.findEntryByUuidIn, Group.entryUuidsIn]
    cases h : g.findEntryByUuid u with
    | some e =>
      have : u ∈ g.entryUuids := (Group.findEntry_isSome_iff g u).mp (by simp [h])
      simp [this]
    | none =>
      have : u ∉ g.entryUuids := fun hm => by
        have := (Group.findEntry_isSome_iff g u).mpr hm
        simp [h] at this
      simp only [List.mem_append, this, false_or]
      exact Group.findEntryIn_isSome_iff gs u

end

mutual

/-- A group search succeeds exactly when the UUID occurs in the pre-order
group UUID list. -/
theorem Group.findGroup_isSome_iff :
    ∀ (g : Group) (u : Nat), (g.findGroupByUuid u).isSome = true ↔ u ∈ g.groupUuids
  | .node d es gs, u => by
    rw [Group.findGroupByUuid, Group.groupUuids]
    by_cases h : d.uuid = u
    · simp [h]
    · simp only [beq_iff_eq, h, if_false, List.mem_cons]
      rw [Group.findGroupIn_isSome_iff gs u]
      constructor
      · exact Or.inr
      · rintro (rfl | hm)
        · exact absurd rfl h
        · exact hm

/-- Sibling-list version of `Group.findGroup_isSome_iff`. -/
theorem Group.findGroupIn_isSome_iff :
    ∀ (gs : List Group) (u : Nat),
      (Group.findGroupByUuidIn gs u).isSome = true ↔ u ∈ Group.groupUuidsIn gs
  | [], u => by simp [Group.findGroupByUuidIn, Group.groupUuidsIn]
  | g :: gs, u => by
    rw [Group.findGroupByUuidIn, Group.groupUuidsIn]
    cases h : g.findGroupByUuid u with
    | some s =>
      have : u ∈ g.groupUuids := (Group.findGroup_isSome_iff g u).mp (by simp [h])
      simp [this]
    | none =>
      have : u ∉ g.groupUuids := fun hm => by
        have := (Group.findGroup_isSome_iff g u).mpr hm
        simp [h] at this
      simp only [List.mem_append, this, false_or]
      exact Group.findGroupIn_isSome_iff gs u

end

mutual

/-- The parent lookup succeeds exactly when the entry UUID occurs in the
subtree. -/
theorem Group.parentOfEntry_isSome_iff :
    ∀ (g : Group) (u : Nat), (g.parentOfEntry u).isSome = true ↔ u ∈ g.entryUuids
  | .node d es gs, u => by
    rw [Group.parentOfEntry, Group.entryUuids]
    by_cases h : es.any (fun e => e.data.uuid == u)
    · have : u ∈ es.map (fun e => e.data.uuid) := by
        obtain ⟨e, he, hee⟩ := List.any_eq_true.mp h
        simp only [beq_iff_eq] at hee
        exact hee ▸ List.mem_map_of_mem _ he
      simp [h, this]
    · have hnm : u ∉ es.map (fun e => e.data.uuid) := by
        intro hm
        obtain ⟨e, he, hee⟩ := List.mem_map.mp hm
        exact h (List.any_eq_true.mpr ⟨e, he, by simp [hee]⟩)
      simp only [h, if_false, List.mem_append, hnm, false_or]
      exact Group.parentOfEntryIn_isSome_iff gs u

/-- Sibling-list version of `Group.parentOfEntry_isSome_iff`. -/
theorem Group.parentOfEntryIn_isSome_iff :
    ∀ (gs : List Group) (u : Nat),
      (Group.parentOfEntryIn gs u).isSome = true ↔ u ∈ Group.entryUuidsIn gs
  | [], u => by simp [Group.parentOfEntryIn, Group.entryUuidsIn]
  | g :: gs, u => by
    rw [Group.parentOfEntryIn, Group.entryUuidsIn]
    cases h : g.parentOfEntry u with
    | some p =>
      have : u ∈ g.entryUuids := (Group.parentOfEntry_isSome_iff g u).mp (by simp [h])
      simp [this]
    | none =>
      have : u ∉ g.entryUuids := fun hm => by
        have := (Group.parentOfEntry_isSome_iff g u).mpr hm
        simp [h] at this
      simp only [List.mem_append, this, false_or]
      exact Group.parentOfEntryIn_isSome_iff gs u

end

/-! ## A found entry carries the searched UUID -/

mutual

/-- A successful entry search returns an entry carrying the searched UUID. -/
theorem Group.uuid_of_findEntry :
    ∀ (g : Group) (u : Nat) (e : Entry), g.findEntryByUuid u = some e → e.data.uuid = u
  | .node d es gs, u, e => by
    rw [Group.findEntryByUuid]
    cases h : es.find? (fun x => x.data.uuid == u) with
    | some e1 =>
      intro he
      obtain rfl : e1 = e := Option.some.inj he
      simpa using List.find?_some h
    | none => exact Group.uuid_of_findEntryIn gs u e

/-- Sibling-list version of `Group.uuid_of_findEntry`. -/
theorem Group.uuid_of_findEntryIn :
    ∀ (gs : List Group) (u : Nat) (e : Entry),
      Group.findEntryByUuidIn gs u = some e → e.data.uuid = u
  | [], u, e => by intro h; simp [Group.findEntryByUuidIn] at h
  | g :: gs, u, e => by
    rw [Group.findEntryByUuidIn]
    cases h : g.findEntryByUuid u with
    | some e1 =>
      intro he
      obtain rfl : e1 = e := Option.some.inj he
      exact Group.uuid_of_findEntry g u e1 h
    | none => exact Group.uuid_of_findEntryIn gs u e

end

/-! ## Effect of removing an entry -/

/-- Erasing the first entry with UUID `u` from a plain entry list erases `u`
from the projected UUID list. -/
theorem map_uuid_eraseP (es : List Entry) (u : Nat) :
    (es.eraseP (fun e => e.data.uuid == u)).map (fun e => e.data.uuid) =
      (es.map (fun e => e.data.uuid)).erase u := by
  rw [List.erase_eq_eraseP', List.eraseP_map]
  rfl

mutual

/-- `removeEntryFirst` erases exactly the first occurrence of the UUID from
the pre-order entry UUID list. -/
theorem Group.entryUuids_removeEntryFirst :
    ∀ (g : Group) (u : Nat), (g.removeEntryFirst u).entryUuids = g.entryUuids.erase u
  | .node d es gs, u => by
    rw [Group.removeEntryFirst]
    by_cases h : (es.any (fun e => e.data.uuid == u)) = true
    · have hmem : u ∈ es.map (fun e => e.data.uuid) := by
        obtain ⟨e, he, hee⟩ := List.any_eq_true.mp h
        simp only [beq_iff_eq] at hee
        exact List.mem_map.mpr ⟨e, he, hee⟩
      rw [if_pos h, Group.entryUuids, Group.entryUuids]
      rw [map_uuid_eraseP, List.erase_append_left _ hmem]
    · have hnm : u ∉ es.map (fun e => e.data.uuid) := by
        intro hm
        obtain ⟨e, he, hee⟩ := List.mem_map.mp hm
        exact h (List.any_eq_true.mpr ⟨e, he, by simp [hee]⟩)
      rw [if_neg h, Group.entryUuids, Group.entryUuids]
      rw [List.erase_append_right _ hnm, Group.entryUuidsIn_removeEntryFirstIn gs u]

/-- Sibling-list version of `Group.entryUuids_removeEntryFirst`. -/
theorem Group.entryUuidsIn_removeEntryFirstIn :
    ∀ (gs : List Group) (u : Nat),
      Group.entryUuidsIn (Group.removeEntryFirstIn gs u) = (Group.entryUuidsIn gs).erase u
  | [], u => by simp [Group.removeEntryFirstIn, Group.entryUuidsIn]
  | g :: gs, u => by
    rw [Group.removeEntryFirstIn]
    by_cases h : u ∈ g.entryUuids
    · rw [if_pos (by simpa using h), Group.entryUuidsIn, Group.entryUuidsIn]
      rw [Group.entryUuids_removeEntryFirst g u, List.erase_append_left _ h]
    · rw [if_neg (by simpa using h), Group.entryUuidsIn, Group.entryUuidsIn]
      rw [List.erase_append_right _ h, Group.entryUuidsIn_removeEntryFirstIn gs u]

end

mutual

/-- `removeEntryFirst` does not change the group UUID list. -/
theorem Group.groupUuids_removeEntryFirst :
    ∀ (g : Group) (u : Nat), (g.removeEntryFirst u).groupUuids = g.groupUuids
  | .node d es gs, u => by
    rw [Group.removeEntryFirst]
    by_cases h : (es.any (fun e => e.data.uuid == u)) = true
    · rw [if_pos h, Group.groupUuids, Group.groupUuids]
    · rw [if_neg h, Group.groupUuids, Group.groupUuids,
        Group.groupUuidsIn_removeEntryFirstIn gs u]

/-- Sibling-list version of `Group.groupUuids_removeEntryFirst`. -/
theorem Group.groupUuidsIn_removeEntryFirstIn :
    ∀ (gs : List Group) (u : Nat),
      Group.groupUuidsIn (Group.removeEntryFirstIn gs u) = Group.groupUuidsIn gs
  | [], u => by rfl
  | g :: gs, u => by
    rw [Group.removeEntryFirstIn]
    by_cases h : u ∈ g.entryUuids
    · rw [if_pos (by simpa using h), Group.groupUuidsIn, Group.groupUuidsIn,
        Group.groupUuids_removeEntryFirst g u]
    · rw [if_neg (by simpa using h), Group.groupUuidsIn, Group.groupUuidsIn,
        Group.groupUuidsIn_removeEntryFirstIn gs u]

end

mutual

/-- Removing the entry with UUID `v` leaves the search for a different UUID
`u` untouched. -/
theorem Group.findEntry_removeEntryFirst_ne :
    ∀ (g : Group) (u v : Nat), u ≠ v →
      (g.removeEntryFirst v).findEntryByUuid u = g.findEntryByUuid u
  | .node d es gs, u, v, huv => by
    rw [Group.removeEntryFirst]
    by_cases h : (es.any (fun e => e.data.uuid == v)) = true
    · rw [if_pos h, Group.findEntryByUuid, Group.findEntryByUuid]
      rw [find?_eraseP_disjoint (fun e he => by
        simp only [beq_iff_eq] at he ⊢
        simp [he, huv]) es]
    · rw [if_neg h, Group.findEntryByUuid, Group.findEntryByUuid]
      cases es.find? (fun e => e.data.uuid == u) with
      | some e => rfl
      | none => exact Group.findEntryIn_removeEntryFirstIn_ne gs u v huv

/-- Sibling-list version of `Group.findEntry_removeEntryFirst_ne`. -/
theorem Group.findEntryIn_removeEntryFirstIn_ne :
    ∀ (gs : List Group) (u v : Nat), u ≠ v →
      Group.findEntryByUuidIn (Group.removeEntryFirstIn gs v) u = Group.findEntryByUuidIn gs u
  | [], u, v, _ => rfl
  | g :: gs, u, v, huv => by
    rw [Group.removeEntryFirstIn]
    by_cases h : v ∈ g.entryUuids
    · rw [if_pos (by simpa using h), Group.findEntryByUuidIn, Group.findEntryByUuidIn,
        Group.findEntry_removeEntryFirst_ne g u v huv]
    · rw [if_neg (by simpa using h), Group.findEntryByUuidIn, Group.findEntryByUuidIn]
      cases g.findEntryByUuid u with
      | some e => rfl
      | none => exact Group.findEntryIn_removeEntryFirstIn_ne gs u v huv

end

mutual

/-- Removing the entry with UUID `v` leaves the parent lookup of a different
UUID `u` untouched. -/
theorem Group.parentOfEntry_removeEntryFirst_ne :
    ∀ (g : Group) (u v : Nat), u ≠ v →
      (g.removeEntryFirst v).parentOfEntry u = g.parentOfEntry u
  | .node d es gs, u, v, huv => by
    rw [Group.removeEntryFirst]
    by_cases h : (es.any (fun e => e.data.uuid == v)) = true
    · rw [if_pos h, Group.parentOfEntry, Group.parentOfEntry]
      rw [any_eraseP_disjoint (fun e he => by
        simp only [beq_iff_eq] at he ⊢
        simp [he, huv]) es]
    · rw [if_neg h, Group.parentOfEntry, Group.parentOfEntry]
      by_cases h2 : (es.any (fun e => e.data.uuid == u)) = true
      · rw [if_pos h2, if_pos h2]
      · rw [if_neg h2, if_neg h2]
        exact Group.parentOfEntryIn_removeEntryFirstIn_ne gs u v huv

/-- Sibling-list version of `Group.parentOfEntry_removeEntryFirst_ne`. -/
theorem Group.parentOfEntryIn_removeEntryFirstIn_ne :
    ∀ (gs : List Group) (u v : Nat), u ≠ v →
      Group.parentOfEntryIn (Group.removeEntryFirstIn gs v) u = Group.parentOfEntryIn gs u
  | [], u, v, _ => rfl
  | g :: gs, u, v, huv => by
    rw [Group.removeEntryFirstIn]
    by_cases h : v ∈ g.entryUuids
    · rw [if_pos (by simpa using h), Group.parentOfEntryIn, Group.parentOfEntryIn,
        Group.parentOfEntry_removeEntryFirst_ne g u v huv]
    · rw [if_neg (by simpa using h), Group.parentOfEntryIn, Group.parentOfEntryIn]
      cases g.parentOfEntry u with
      | some p => rfl
      | none => exact Group.parentOfEntryIn_removeEntryFirstIn_ne gs u v huv

end

/-! ## Facts about group searches -/

mutual

/-- A successful group search returns a node carrying the searched UUID. -/
theorem Group.uuid_of_findGroup :
    ∀ (g : Group) (v : Nat) (t : Group), g.findGroupByUuid v = some t → t.data.uuid = v
  | .node d es gs, v, t => by
    rw [Group.findGroupByUuid]
    by_cases h : (d.uuid == v) = true
    · rw [if_pos h]
      intro ht
      obtain rfl : Group.node d es gs = t := by simpa using ht
      simpa using h
    · rw [if_neg h]
      intro ht
      exact Group.uuid_of_findGroupIn gs v t ht

/-- Sibling-list version of `Group.uuid_of_findGroup`. -/
theorem Group.uuid_of_findGroupIn :
    ∀ (gs : List Group) (v : Nat) (t : Group),
      Group.findGroupByUuidIn gs v = some t → t.data.uuid = v
  | [], v, t => by intro h; simp [Group.findGroupByUuidIn] at h
  | g :: gs, v, t => by
    rw [Group.findGroupByUuidIn]
    cases h : g.findGroupByUuid v with
    | some s =>
      intro ht
      obtain rfl : s = t := by simpa using ht
      exact Group.uuid_of_findGroup g v s h
    | none => exact Group.uuid_of_findGroupIn gs v t

end

mutual

/-- The UUID lists of a found subtree are contained in those of the tree. -/
theorem Group.uuids_subset_of_findGroup :
    ∀ (g : Group) (v : Nat) (t : Group), g.findGroupByUuid v = some t →
      (∀ x ∈ t.groupUuids, x ∈ g.groupUuids) ∧ (∀ x ∈ t.entryUuids, x ∈ g.entryUuids)
  | .node d es gs, v, t => by
    rw [Group.findGroupByUuid]
    by_cases h : (d.uuid == v) = true
    · rw [if_pos h]
      intro ht
      obtain rfl : Group.node d es gs = t := by simpa using ht
      exact ⟨fun x hx => hx, fun x hx => hx⟩
    · rw [if_neg h]
      intro ht
      obtain ⟨hg, he⟩ := Group.uuids_subset_of_findGroupIn gs v t ht
      refine ⟨fun x hx => ?_, fun x hx => ?_⟩
      · rw [Group.groupUuids]
        exact List.mem_cons_of_mem _ (hg x hx)
      · rw [Group.entryUuids]
        exact List.mem_append_right _ (he x hx)

/-- Sibling-list version of `Group.uuids_subset_of_findGroup`. -/
theorem Group.uuids_subset_of_findGroupIn :
    ∀ (gs : List Group) (v : Nat) (t : Group), Group.findGroupByUuidIn gs v = some t →
      (∀ x ∈ t.groupUuids, x ∈ Group.groupUuidsIn gs) ∧
      (∀ x ∈ t.entryUuids, x ∈ Group.entryUuidsIn gs)
  | [], v, t => by intro h; simp [Group.findGroupByUuidIn] at h
  | g :: gs, v, t => by
    rw [Group.findGroupByUuidIn]
    cases h : g.findGroupByUuid v with
    | some s =>
      intro ht
      obtain rfl : s = t := by simpa using ht
      obtain ⟨hg, he⟩ := Group.uuids_subset_of_findGroup g v s h
      refine ⟨fun x hx => ?_, fun x hx => ?_⟩
      · rw [Group.groupUuidsIn]; exact List.mem_append_left _ (hg x hx)
      · rw [Group.entryUuidsIn]; exact List.mem_append_left _ (he x hx)
    | none =>
      intro ht
      obtain ⟨hg, he⟩ := Group.uuids_subset_of_findGroupIn gs v t ht
      refine ⟨fun x hx => ?_, fun x hx => ?_⟩
      · rw [Group.groupUuidsIn]; exact List.mem_append_right _ (hg x hx)
      · rw [Group.entryUuidsIn]; exact List.mem_append_right _ (he x hx)

end

/-- Removing a group UUID that occurs nowhere below the root is a no-op. -/
theorem Group.removeGroupFirstIn_of_not_mem :
    ∀ (gs : List Group) (v : Nat), v ∉ Group.groupUuidsIn gs →
      Group.removeGroupFirstIn gs v = gs
  | [], v, _ => rfl
  | g :: gs, v, h => by
    rw [Group.groupUuidsIn] at h
    have h1 : v ∉ g.groupUuids := fun hm => h (List.mem_append_left _ hm)
    have h2 : v ∉ Group.groupUuidsIn gs := fun hm => h (List.mem_append_right _ hm)
    have h3 : ¬(g.uuid == v) = true := by
      intro hb
      apply h1
      have : g.uuid = v := by simpa using hb
      cases g with
      | node d es cs =>
        rw [Group.groupUuids]
        exact this ▸ List.mem_cons_self _ _
    rw [Group.removeGroupFirstIn, if_neg h3, if_neg (by simpa using h1),
      Group.removeGroupFirstIn_of_not_mem gs v h2]

/-! ## Effect of removing a leaf group

The group-deletion loop only ever erases groups that have no entries and no
child groups left; these lemmas describe exactly that situation. -/

mutual

/-- Removing a group found to be a leaf: entry searches are untouched, the
entry UUID list is untouched, and (away from the root, which `removeGroupFirst`
never removes) the group UUID list loses exactly that UUID. -/
theorem Group.removeGroupLeaf_spec :
    ∀ (g : Group) (v : Nat) (dv : GroupData),
      g.findGroupByUuid v = some (.node dv [] []) →
      (∀ u, (g.removeGroupFirst v).findEntryByUuid u = g.findEntryByUuid u) ∧
      (g.removeGroupFirst v).entryUuids = g.entryUuids ∧
      (v ≠ g.data.uuid → (g.removeGroupFirst v).groupUuids = g.groupUuids.erase v)
  | .node d es gs, v, dv, hf => by
    rw [Group.findGroupByUuid] at hf
    by_cases h : (d.uuid == v) = true
    · rw [if_pos h] at hf
      have hinj := Option.some.inj hf
      injection hinj with hd hes hgs
      subst hes; subst hgs
      rw [Group.removeGroupFirst, Group.removeGroupFirstIn]
      refine ⟨fun u => rfl, rfl, fun hne => absurd ?_ hne⟩
      have : d.uuid = v := by simpa using h
      simpa [Group.data] using this.symm
    · rw [if_neg h] at hf
      obtain ⟨hfind, hent, hgrp⟩ := Group.removeGroupLeafIn_spec gs v dv hf
      rw [Group.removeGroupFirst]
      refine ⟨fun u => ?_, ?_, fun _ => ?_⟩
      · rw [Group.findEntryByUuid, Group.findEntryByUuid]
        cases es.find? (fun e => e.data.uuid == u) with
        | some e => rfl
        | none => exact hfind u
      · rw [Group.entryUuids, Group.entryUuids, hent]
      · rw [Group.groupUuids, Group.groupUuids, hgrp]
        have hdv : ¬(d.uuid == v) = true := h
        rw [List.erase_cons_tail (by simpa using fun hh : d.uuid = v => hdv (by simp [hh]))]

/-- Sibling-list version of `Group.removeGroupLeaf_spec`. -/
theorem Group.removeGroupLeafIn_spec :
    ∀ (gs : List Group) (v : Nat) (dv : GroupData),
      Group.findGroupByUuidIn gs v = some (.node dv [] []) →
      (∀ u, Group.findEntryByUuidIn (Group.removeGroupFirstIn gs v) u =
        Group.findEntryByUuidIn gs u) ∧
      Group.entryUuidsIn (Group.removeGroupFirstIn gs v) = Group.entryUuidsIn gs ∧
      Group.groupUuidsIn (Group.removeGroupFirstIn gs v) = (Group.groupUuidsIn gs).erase v
  | [], v, dv, hf => by simp [Group.findGroupByUuidIn] at hf
  | g :: gs, v, dv, hf => by
    rw [Group.findGroupByUuidIn] at hf
    rw [Group.removeGroupFirstIn]
    by_cases h1 : (g.uuid == v) = true
    · rw [if_pos h1]
      have hgv : g.findGroupByUuid v = some g := by
        cases g with
        | node dg esg gsg =>
          rw [Group.findGroupByUuid, if_pos (by simpa [Group.uuid, Group.data] using h1)]
      rw [hgv] at hf
      have hleaf : g = Group.node dv [] [] := Option.some.inj hf
      subst hleaf
      refine ⟨fun u => ?_, ?_, ?_⟩
      · rw [Group.findEntryByUuidIn, Group.findEntryByUuid]
        simp [Group.findEntryByUuidIn]
      · rw [Group.entryUuidsIn, Group.entryUuids, Group.entryUuidsIn]
        rfl
      · rw [Group.groupUuidsIn, Group.groupUuids, Group.groupUuidsIn]
        have : dv.uuid = v := by simpa [Group.uuid, Group.data] using h1
        simp [this]
    · rw [if_neg h1]
      cases hgf : g.findGroupByUuid v with
      | some s =>
        rw [hgf] at hf
        have hs : s = Group.node dv [] [] := Option.some.inj hf
        subst hs
        have hmem : v ∈ g.groupUuids :=
          (Group.findGroup_isSome_iff g v).mp (by simp [hgf])
        rw [if_pos (by simpa using hmem)]
        obtain ⟨hfind, hent, hgrp⟩ := Group.removeGroupLeaf_spec g v dv hgf
        have hne : v ≠ g.data.uuid := by
          intro hv
          exact h1 (by simp [Group.uuid, hv])
        refine ⟨fun u => ?_, ?_, ?_⟩
        · rw [Group.findEntryByUuidIn, Group.findEntryByUuidIn, hfind u]
        · rw [Group.entryUuidsIn, Group.entryUuidsIn, hent]
        · rw [Group.groupUuidsIn, Group.groupUuidsIn, hgrp hne,
            List.erase_append_left _ hmem]
      | none =>
        rw [hgf] at hf
        have hnm : v ∉ g.groupUuids := fun hm => by
          have := (Group.findGroup_isSome_iff g v).mpr hm
          simp [hgf] at this
        rw [if_neg (by simpa using hnm)]
        obtain ⟨hfind, hent, hgrp⟩ := Group.removeGroupLeafIn_spec gs v dv hf
        refine ⟨fun u => ?_, ?_, ?_⟩
        · rw [Group.findEntryByUuidIn, Group.findEntryByUuidIn]
          cases g.findEntryByUuid u with
          | some e => rfl
          | none => exact hfind u
        · rw [Group.entryUuidsIn, Group.entryUuidsIn, hent]
        · rw [Group.groupUuidsIn, Group.groupUuidsIn, hgrp,
            List.erase_append_right _ hnm]

end

/-! ## Subtree projections under removals

For the deletion-pass invariants we track, for every group UUID `w`, the
scalar data, entry UUID list and group UUID list of the subtree found at `w`
across the two kinds of removal the pass performs. -/

mutual

/-- Removing the (unique) entry `x` turns the subtree found at any `w` into
the same subtree with `x` erased from its entry UUID list. -/
theorem Group.findGroup_removeEntryFirst_proj :
    ∀ (g : Group) (x : Nat), g.entryUuids.Nodup →
      ∀ w, ((g.removeEntryFirst x).findGroupByUuid w).map
          (fun t => (t.data, t.entryUuids, t.groupUuids)) =
        (g.findGroupByUuid w).map (fun t => (t.data, t.entryUuids.erase x, t.groupUuids))
  | .node d es gs, x, hnd, w => by
    rw [Group.entryUuids] at hnd
    rw [Group.removeEntryFirst]
    by_cases h : (es.any (fun e => e.data.uuid == x)) = true
    · have hx : x ∈ es.map (fun e => e.data.uuid) := by
        obtain ⟨e, he, hee⟩ := List.any_eq_true.mp h
        simp only [beq_iff_eq] at hee
        exact List.mem_map.mpr ⟨e, he, hee⟩
      have hnx : x ∉ Group.entryUuidsIn gs :=
        fun hm => (List.disjoint_of_nodup_append hnd) hx hm
      rw [if_pos h, Group.findGroupByUuid, Group.findGroupByUuid]
      by_cases hw : (d.uuid == w) = true
      · rw [if_pos hw, if_pos hw]
        simp only [Option.map_some']
        refine congrArg some (Prod.ext rfl (Prod.ext ?_ rfl))
        show (Group.node d (es.eraseP (fun e => e.data.uuid == x)) gs).entryUuids =
          ((Group.node d es gs).entryUuids).erase x
        rw [Group.entryUuids, Group.entryUuids, map_uuid_eraseP,
          List.erase_append_left _ hx]
      · rw [if_neg hw, if_neg hw]
        cases hfi : Group.findGroupByUuidIn gs w with
        | none => rfl
        | some t =>
          have hsub := (Group.uuids_subset_of_findGroupIn gs w t hfi).2
          have hxt : x ∉ t.entryUuids := fun hm => hnx (hsub x hm)
          simp [List.erase_of_not_mem hxt]
    · have hnx : x ∉ es.map (fun e => e.data.uuid) := by
        intro hm
        obtain ⟨e, he, hee⟩ := List.mem_map.mp hm
        exact h (List.any_eq_true.mpr ⟨e, he, by simp [hee]⟩)
      rw [if_neg h, Group.findGroupByUuid, Group.findGroupByUuid]
      by_cases hw : (d.uuid == w) = true
      · rw [if_pos hw, if_pos hw]
        simp only [Option.map_some']
        refine congrArg some (Prod.ext rfl (Prod.ext ?_ ?_))
        · show (Group.node d es (Group.removeEntryFirstIn gs x)).entryUuids =
            ((Group.node d es gs).entryUuids).erase x
          rw [Group.entryUuids, Group.entryUuids,
            Group.entryUuidsIn_removeEntryFirstIn gs x, List.erase_append_right _ hnx]
        · show (Group.node d es (Group.removeEntryFirstIn gs x)).groupUuids =
            (Group.node d es gs).groupUuids
          rw [Group.groupUuids, Group.groupUuids, Group.groupUuidsIn_removeEntryFirstIn gs x]
      · rw [if_neg hw, if_neg hw]
        exact Group.findGroupIn_removeEntryFirstIn_proj gs x (List.nodup_append.mp hnd).2.1 w

/-- Sibling-list version of `Group.findGroup_removeEntryFirst_proj`. -/
theorem Group.findGroupIn_removeEntryFirstIn_proj :
    ∀ (gs : List Group) (x : Nat), (Group.entryUuidsIn gs).Nodup →
      ∀ w, (Group.findGroupByUuidIn (Group.removeEntryFirstIn gs x) w).map
          (fun t => (t.data, t.entryUuids, t.groupUuids)) =
        (Group.findGroupByUuidIn gs w).map
          (fun t => (t.data, t.entryUuids.erase x, t.groupUuids))
  | [], x, _, w => rfl
  | g :: gs, x, hnd, w => by
    rw [Group.entryUuidsIn] at hnd
    rw [Group.removeEntryFirstIn]
    by_cases hx : x ∈ g.entryUuids
    · rw [if_pos (by simpa using hx)]
      rw [Group.findGroupByUuidIn, Group.findGroupByUuidIn]
      have hIH := Group.findGroup_removeEntryFirst_proj g x (List.nodup_append.mp hnd).1 w
      cases hfg : g.findGroupByUuid w with
      | some t =>
        rw [hfg] at hIH
        cases hfr : (g.removeEntryFirst x).findGroupByUuid w with
        | some t1 =>
          rw [hfr] at hIH
          simpa using hIH
        | none => rw [hfr] at hIH; simp at hIH
      | none =>
        rw [hfg] at hIH
        cases hfr : (g.removeEntryFirst x).findGroupByUuid w with
        | some t1 => rw [hfr] at hIH; simp at hIH
        | none =>
          have hnx : x ∉ Group.entryUuidsIn gs :=
            fun hm => (List.disjoint_of_nodup_append hnd) hx hm
          cases hfi : Group.findGroupByUuidIn gs w with
          | none => rfl
          | some t =>
            have hsub := (Group.uuids_subset_of_findGroupIn gs w t hfi).2
            have hxt : x ∉ t.entryUuids := fun hm => hnx (hsub x hm)
            simp [List.erase_of_not_mem hxt]
    · rw [if_neg (by simpa using hx)]
      rw [Group.findGroupByUuidIn, Group.findGroupByUuidIn]
      cases hfg : g.findGroupByUuid w with
      | some t =>
        have hsub := (Group.uuids_subset_of_findGroup g w t hfg).2
        have hxt : x ∉ t.entryUuids := fun hm => hx (hsub x hm)
        simp [List.erase_of_not_mem hxt]
      | none =>
        exact Group.findGroupIn_removeEntryFirstIn_proj gs x (List.nodup_append.mp hnd).2.1 w

end

mutual

/-- Removing a leaf group `v` turns the subtree found at any other `w` into
the same subtree with `v` erased from its group UUID list; entries and data
are untouched. -/
theorem Group.findGroup_removeGroupLeaf_proj :
    ∀ (g : Group) (v : Nat) (dv : GroupData), g.groupUuids.Nodup →
      g.findGroupByUuid v = some (.node dv [] []) →
      ∀ w, w ≠ v →
        ((g.removeGroupFirst v).findGroupByUuid w).map
          (fun t => (t.data, t.entryUuids, t.groupUuids)) =
        (g.findGroupByUuid w).map (fun t => (t.data, t.entryUuids, t.groupUuids.erase v))
  | .node d es gs, v, dv, hnd, hf, w, hwv => by
    rw [Group.findGroupByUuid] at hf
    rw [Group.groupUuids] at hnd
    by_cases hdv : (d.uuid == v) = true
    · rw [if_pos hdv] at hf
      injection Option.some.inj hf with hd hes hgs
      subst hes; subst hgs
      have hv : d.uuid = v := by simpa using hdv
      have hdw : ¬(d.uuid == w) = true := by
        intro hh
        exact hwv ((by simpa using hh : d.uuid = w) ▸ hv)
      simp only [Group.removeGroupFirst, Group.removeGroupFirstIn]
      rw [Group.findGroupByUuid, if_neg hdw]
      rfl
    · rw [if_neg hdv] at hf
      obtain ⟨hfind, hent, hgrp⟩ := Group.removeGroupLeafIn_spec gs v dv hf
      rw [Group.removeGroupFirst, Group.findGroupByUuid, Group.findGroupByUuid]
      by_cases hw : (d.uuid == w) = true
      · rw [if_pos hw, if_pos hw]
        simp only [Option.map_some']
        refine congrArg some (Prod.ext rfl (Prod.ext ?_ ?_))
        · show (Group.node d es (Group.removeGroupFirstIn gs v)).entryUuids =
            (Group.node d es gs).entryUuids
          rw [Group.entryUuids, Group.entryUuids, hent]
        · show (Group.node d es (Group.removeGroupFirstIn gs v)).groupUuids =
            ((Group.node d es gs).groupUuids).erase v
          rw [Group.groupUuids, Group.groupUuids, hgrp,
            List.erase_cons_tail (by simpa using fun hh : d.uuid = v => hdv (by simp [hh]))]
      · rw [if_neg hw, if_neg hw]
        exact Group.findGroupIn_removeGroupLeafIn_proj gs v dv (List.Nodup.of_cons hnd)
          hf w hwv

/-- Sibling-list version of `Group.findGroup_removeGroupLeaf_proj`. -/
theorem Group.findGroupIn_removeGroupLeafIn_proj :
    ∀ (gs : List Group) (v : Nat) (dv : GroupData), (Group.groupUuidsIn gs).Nodup →
      Group.findGroupByUuidIn gs v = some (.node dv [] []) →
      ∀ w, w ≠ v →
        (Group.findGroupByUuidIn (Group.removeGroupFirstIn gs v) w).map
          (fun t => (t.data, t.entryUuids, t.groupUuids)) =
        (Group.findGroupByUuidIn gs w).map
          (fun t => (t.data, t.entryUuids, t.groupUuids.erase v))
  | [], v, dv, _, hf, w, _ => by simp [Group.findGroupByUuidIn] at hf
  | g :: gs, v, dv, hnd, hf, w, hwv => by
    rw [Group.findGroupByUuidIn] at hf
    rw [Group.groupUuidsIn] at hnd
    rw [Group.removeGroupFirstIn]
    by_cases h1 : (g.uuid == v) = true
    · rw [if_pos h1]
      have hgv : g.findGroupByUuid v = some g := by
        cases g with
        | node dg esg gsg =>
          rw [Group.findGroupByUuid, if_pos (by simpa [Group.uuid, Group.data] using h1)]
      rw [hgv] at hf
      have hleaf : g = Group.node dv [] [] := Option.some.inj hf
      have hnv : v ∉ Group.groupUuidsIn gs := by
        intro hm
        have hvg : v ∈ g.groupUuids := by
          rw [hleaf, Group.groupUuids]
          have : dv.uuid = v := by
            rw [hleaf] at h1
            simpa [Group.uuid, Group.data] using h1
          simp [this]
        exact (List.disjoint_of_nodup_append hnd) hvg hm
      have hgw : g.findGroupByUuid w = none := by
        rw [hleaf, Group.findGroupByUuid]
        have : dv.uuid = v := by
          rw [hleaf] at h1
          simpa [Group.uuid, Group.data] using h1
        rw [if_neg (by simpa using fun hh : dv.uuid = w => hwv (hh ▸ this)),
          Group.findGroupByUuidIn]
      rw [Group.findGroupByUuidIn, hgw]
      cases hfi : Group.findGroupByUuidIn gs w with
      | none => rfl
      | some t =>
        have hsub := (Group.uuids_subset_of_findGroupIn gs w t hfi).1
        have hvt : v ∉ t.groupUuids := fun hm => hnv (hsub v hm)
        simp [List.erase_of_not_mem hvt]
    · rw [if_neg h1]
      cases hgf : g.findGroupByUuid v with
      | some s =>
        rw [hgf] at hf
        have hs : s = Group.node dv [] [] := Option.some.inj hf
        subst hs
        have hmem : v ∈ g.groupUuids :=
          (Group.findGroup_isSome_iff g v).mp (by simp [hgf])
        rw [if_pos (by simpa using hmem)]
        have hIH := Group.findGroup_removeGroupLeaf_proj g v dv
          (List.nodup_append.mp hnd).1 hgf w hwv
        rw [Group.findGroupByUuidIn, Group.findGroupByUuidIn]
        cases hfg : g.findGroupByUuid w with
        | some t =>
          rw [hfg] at hIH
          cases hfr : (g.removeGroupFirst v).findGroupByUuid w with
          | some t1 =>
            rw [hfr] at hIH
            simpa using hIH
          | none => rw [hfr] at hIH; simp at hIH
        | none =>
          rw [hfg] at hIH
          cases hfr : (g.removeGroupFirst v).findGroupByUuid w with
          | some t1 => rw [hfr] at hIH; simp at hIH
          | none =>
            have hnv : v ∉ Group.groupUuidsIn gs :=
              fun hm => (List.disjoint_of_nodup_append hnd) hmem hm
            cases hfi : Group.findGroupByUuidIn gs w with
            | none => rfl
            | some t =>
              have hsub := (Group.uuids_subset_of_findGroupIn gs w t hfi).1
              have hvt : v ∉ t.groupUuids := fun hm => hnv (hsub v hm)
              simp [List.erase_of_not_mem hvt]
      | none =>
        rw [hgf] at hf
        have hnmem : v ∉ g.groupUuids := fun hm => by
          have := (Group.findGroup_isSome_iff g v).mpr hm
          simp [hgf] at this
        rw [if_neg (by simpa using hnmem)]
        rw [Group.findGroupByUuidIn, Group.findGroupByUuidIn]
        cases hfg : g.findGroupByUuid w with
        | some t =>
          have hsub := (Group.uuids_subset_of_findGroup g w t hfg).1
          have hvt : v ∉ t.groupUuids := fun hm => hnmem (hsub v hm)
          simp [List.erase_of_not_mem hvt]
        | none =>
          exact Group.findGroupIn_removeGroupLeafIn_proj gs v dv
            (List.nodup_append.mp hnd).2.1 hf w hwv

end

/-! ## Parent lookups land on group UUIDs -/

mutual

/-- A successful parent lookup returns the UUID of a group in the tree. -/
theorem Group.parentOfEntry_mem_groupUuids :
    ∀ (g : Group) (u p : Nat), g.parentOfEntry u = some p → p ∈ g.groupUuids
  | .node d es gs, u, p => by
    rw [Group.parentOfEntry, Group.groupUuids]
    by_cases h : (es.any (fun e => e.data.uuid == u)) = true
    · rw [if_pos h]
      intro hp
      obtain rfl : d.uuid = p := Option.some.inj hp
      exact List.mem_cons_self _ _
    · rw [if_neg h]
      intro hp
      exact List.mem_cons_of_mem _ (Group.parentOfEntryIn_mem_groupUuidsIn gs u p hp)

/-- Sibling-list version of `Group.parentOfEntry_mem_groupUuids`. -/
theorem Group.parentOfEntryIn_mem_groupUuidsIn :
    ∀ (gs : List Group) (u p : Nat),
      Group.parentOfEntryIn gs u = some p → p ∈ Group.groupUuidsIn gs
  | [], u, p => by intro h; simp [Group.parentOfEntryIn] at h
  | g :: gs, u, p => by
    rw [Group.parentOfEntryIn, Group.groupUuidsIn]
    cases h : g.parentOfEntry u with
    | some q =>
      intro hp
      obtain rfl : q = p := Option.some.inj hp
      exact List.mem_append_left _ (Group.parentOfEntry_mem_groupUuids g u q h)
    | none =>
      intro hp
      exact List.mem_append_right _ (Group.parentOfEntryIn_mem_groupUuidsIn gs u p hp)

end

/-! ## Appending a fresh entry -/

mutual

/-- Membership in the entry UUID list survives `addEntryTo`. -/
theorem Group.mem_entryUuids_addEntryTo :
    ∀ (g : Group) (d : Nat) (c : Entry) (x : Nat),
      x ∈ g.entryUuids → x ∈ (g.addEntryTo d c).entryUuids
  | .node dd es gs, d, c, x, hx => by
    rw [Group.entryUuids] at hx
    rw [Group.addEntryTo]
    by_cases h : (dd.uuid == d) = true
    · rw [if_pos h, Group.entryUuids]
      rcases List.mem_append.mp hx with h1 | h2
      · refine List.mem_append_left _ ?_
        rw [List.map_append]
        exact List.mem_append_left _ h1
      · exact List.mem_append_right _ h2
    · rw [if_neg h, Group.entryUuids]
      rcases List.mem_append.mp hx with h1 | h2
      · exact List.mem_append_left _ h1
      · exact List.mem_append_right _ (Group.mem_entryUuidsIn_addEntryToIn gs d c x h2)

/-- Sibling-list version of `Group.mem_entryUuids_addEntryTo`. -/
theorem Group.mem_entryUuidsIn_addEntryToIn :
    ∀ (gs : List Group) (d : Nat) (c : Entry) (x : Nat),
      x ∈ Group.entryUuidsIn gs → x ∈ Group.entryUuidsIn (Group.addEntryToIn gs d c)
  | [], d, c, x, hx => hx
  | g :: gs, d, c, x, hx => by
    rw [Group.entryUuidsIn] at hx
    rw [Group.addEntryToIn]
    by_cases h : ((g.groupUuids).contains d) = true
    · rw [if_pos h, Group.entryUuidsIn]
      rcases List.mem_append.mp hx with h1 | h2
      · exact List.mem_append_left _ (Group.mem_entryUuids_addEntryTo g d c x h1)
      · exact List.mem_append_right _ h2
    · rw [if_neg h, Group.entryUuidsIn]
      rcases List.mem_append.mp hx with h1 | h2
      · exact List.mem_append_left _ h1
      · exact List.mem_append_right _ (Group.mem_entryUuidsIn_addEntryToIn gs d c x h2)

end

mutual

/-- `addEntryTo` does not change the group UUID list. -/
theorem Group.groupUuids_addEntryTo :
    ∀ (g : Group) (d : Nat) (c : Entry), (g.addEntryTo d c).groupUuids = g.groupUuids
  | .node dd es gs, d, c => by
    rw [Group.addEntryTo]
    by_cases h : (dd.uuid == d) = true
    · rw [if_pos h, Group.groupUuids, Group.groupUuids]
    · rw [if_neg h, Group.groupUuids, Group.groupUuids,
        Group.groupUuidsIn_addEntryToIn gs d c]

/-- Sibling-list version of `Group.groupUuids_addEntryTo`. -/
theorem Group.groupUuidsIn_addEntryToIn :
    ∀ (gs : List Group) (d : Nat) (c : Entry),
      Group.groupUuidsIn (Group.addEntryToIn gs d c) = Group.groupUuidsIn gs
  | [], d, c => rfl
  | g :: gs, d, c => by
    rw [Group.addEntryToIn]
    by_cases h : ((g.groupUuids).contains d) = true
    · rw [if_pos h, Group.groupUuidsIn, Group.groupUuidsIn, Group.groupUuids_addEntryTo g d c]
    · rw [if_neg h, Group.groupUuidsIn, Group.groupUuidsIn,
        Group.groupUuidsIn_addEntryToIn gs d c]

end

mutual

/-- Appending an entry whose UUID is absent from the tree into an existing
group: the entry becomes findable and its parent is the destination. -/
theorem Group.findEntry_addEntryTo_fresh :
    ∀ (g : Group) (d : Nat) (c : Entry), c.data.uuid ∉ g.entryUuids →
      d ∈ g.groupUuids →
      ((g.addEntryTo d c).findEntryByUuid c.data.uuid = some c) ∧
      ((g.addEntryTo d c).parentOfEntry c.data.uuid = some d)
  | .node dd es gs, d, c, hfresh, hd => by
    rw [Group.entryUuids] at hfresh
    have hes : es.find? (fun e => e.data.uuid == c.data.uuid) = none := by
      rw [List.find?_eq_none]
      intro e he hbe
      exact hfresh (List.mem_append_left _
        (List.mem_map.mpr ⟨e, he, by simpa using hbe⟩))
    have hesany : ¬(es.any (fun e => e.data.uuid == c.data.uuid)) = true := by
      intro hany
      obtain ⟨e, he, hbe⟩ := List.any_eq_true.mp hany
      exact hfresh (List.mem_append_left _
        (List.mem_map.mpr ⟨e, he, by simpa using hbe⟩))
    rw [Group.addEntryTo]
    by_cases h : (dd.uuid == d) = true
    · rw [if_pos h, Group.findEntryByUuid, Group.parentOfEntry]
      constructor
      · rw [List.find?_append, hes]
        simp
      · rw [if_pos (by simp [List.any_append])]
        simpa using h
    · rw [if_neg h]
      have hdIn : d ∈ Group.groupUuidsIn gs := by
        rw [Group.groupUuids] at hd
        rcases List.mem_cons.mp hd with h1 | h2
        · exact absurd (by simp [h1]) h
        · exact h2
      have hfreshIn : c.data.uuid ∉ Group.entryUuidsIn gs :=
        fun hm => hfresh (List.mem_append_right _ hm)
      obtain ⟨hfind, hpar⟩ := Group.findEntryIn_addEntryToIn_fresh gs d c hfreshIn hdIn
      constructor
      · rw [Group.findEntryByUuid, hes, hfind]
      · rw [Group.parentOfEntry, if_neg hesany, hpar]

/-- Sibling-list version of `Group.findEntry_addEntryTo_fresh`. -/
theorem Group.findEntryIn_addEntryToIn_fresh :
    ∀ (gs : List Group) (d : Nat) (c : Entry), c.data.uuid ∉ Group.entryUuidsIn gs →
      d ∈ Group.groupUuidsIn gs →
      (Group.findEntryByUuidIn (Group.addEntryToIn gs d c) c.data.uuid = some c) ∧
      (Group.parentOfEntryIn (Group.addEntryToIn gs d c) c.data.uuid = some d)
  | [], d, c, _, hd => by simp [Group.groupUuidsIn] at hd
  | g :: gs, d, c, hfresh, hd => by
    rw [Group.entryUuidsIn] at hfresh
    have hfg : c.data.uuid ∉ g.entryUuids := fun hm => hfresh (List.mem_append_left _ hm)
    rw [Group.addEntryToIn]
    by_cases h : ((g.groupUuids).contains d) = true
    · rw [if_pos h]
      obtain ⟨hfind, hpar⟩ := Group.findEntry_addEntryTo_fresh g d c hfg (by simpa using h)
      constructor
      · rw [Group.findEntryByUuidIn, hfind]
      · rw [Group.parentOfEntryIn, hpar]
    · rw [if_neg h]
      have hdIn : d ∈ Group.groupUuidsIn gs := by
        rw [Group.groupUuidsIn] at hd
        rcases List.mem_append.mp hd with h1 | h2
        · exact absurd (by simpa using h1) h
        · exact h2
      have hfreshIn : c.data.uuid ∉ Group.entryUuidsIn gs :=
        fun hm => hfresh (List.mem_append_right _ hm)
      obtain ⟨hfind, hpar⟩ := Group.findEntryIn_addEntryToIn_fresh gs d c hfreshIn hdIn
      constructor
      · rw [Group.findEntryByUuidIn, hfind]
        have : g.findEntryByUuid c.data.uuid = none := by
          cases hf : g.findEntryByUuid c.data.uuid with
          | none => rfl
          | some e =>
            exact absurd ((Group.findEntry_isSome_iff g c.data.uuid).mp (by simp [hf])) hfg
        rw [this]
      · rw [Group.parentOfEntryIn, hpar]
        have : g.parentOfEntry c.data.uuid = none := by
          cases hf : g.parentOfEntry c.data.uuid with
          | none => rfl
          | some q =>
            exact absurd ((Group.parentOfEntry_isSome_iff g c.data.uuid).mp (by simp [hf])) hfg
        rw [this]

end

/-! ## Replacing an entry: append a clone, then erase the original -/

mutual

/-- Appending a clone to the original's parent group and then erasing the
first entry with that UUID is the same as erasing first and appending after
(the clone is appended behind the original inside the same group, so the
erase hits the original). -/
theorem Group.addEntryTo_removeEntryFirst_commute :
    ∀ (g : Group) (u p : Nat) (c : Entry), c.data.uuid = u →
      g.groupUuids.Nodup → g.parentOfEntry u = some p →
      (g.addEntryTo p c).removeEntryFirst u = (g.removeEntryFirst u).addEntryTo p c
  | .node dd es gs, u, p, c, hc, hndG, hp => by
    rw [Group.parentOfEntry] at hp
    rw [Group.groupUuids] at hndG
    by_cases hany : (es.any (fun e => e.data.uuid == u)) = true
    · rw [if_pos hany] at hp
      obtain rfl : dd.uuid = p := Option.some.inj hp
      obtain ⟨e, he, hbe⟩ := List.any_eq_true.mp hany
      have herase : (es ++ [c]).eraseP (fun e => e.data.uuid == u) =
          es.eraseP (fun e => e.data.uuid == u) ++ [c] :=
        @List.eraseP_append_left _ (fun e => e.data.uuid == u) e hbe es [c] he
      rw [Group.addEntryTo, if_pos (by simp), Group.removeEntryFirst,
        if_pos (by rw [List.any_append]; simp [hany]),
        Group.removeEntryFirst, if_pos hany, Group.addEntryTo, if_pos (by simp),
        herase]
    · rw [if_neg hany] at hp
      have hpIn : p ∈ Group.groupUuidsIn gs := Group.parentOfEntryIn_mem_groupUuidsIn gs u p hp
      have hdp : ¬(dd.uuid == p) = true := by
        intro hb
        exact (List.nodup_cons.mp hndG).1 ((by simpa using hb : dd.uuid = p) ▸ hpIn)
      rw [Group.addEntryTo, if_neg hdp, Group.removeEntryFirst, if_neg hany,
        Group.removeEntryFirst, if_neg hany, Group.addEntryTo, if_neg hdp,
        Group.addEntryToIn_removeEntryFirstIn_commute gs u p c hc
          (List.nodup_cons.mp hndG).2 hp]

/-- Sibling-list version of `Group.addEntryTo_removeEntryFirst_commute`. -/
theorem Group.addEntryToIn_removeEntryFirstIn_commute :
    ∀ (gs : List Group) (u p : Nat) (c : Entry), c.data.uuid = u →
      (Group.groupUuidsIn gs).Nodup → Group.parentOfEntryIn gs u = some p →
      Group.removeEntryFirstIn (Group.addEntryToIn gs p c) u =
        Group.addEntryToIn (Group.removeEntryFirstIn gs u) p c
  | [], u, p, c, _, _, hp => by simp [Group.parentOfEntryIn] at hp
  | g :: gs, u, p, c, hc, hndG, hp => by
    rw [Group.parentOfEntryIn] at hp
    rw [Group.groupUuidsIn] at hndG
    cases hpe : g.parentOfEntry u with
    | some q =>
      rw [hpe] at hp
      obtain rfl : q = p := Option.some.inj hp
      have hu : u ∈ g.entryUuids :=
        (Group.parentOfEntry_isSome_iff g u).mp (by simp [hpe])
      have hpg : q ∈ g.groupUuids := Group.parentOfEntry_mem_groupUuids g u q hpe
      rw [Group.addEntryToIn, if_pos (by simpa using hpg),
        Group.removeEntryFirstIn,
        if_pos (by simpa using Group.mem_entryUuids_addEntryTo g q c u hu),
        Group.removeEntryFirstIn, if_pos (by simpa using hu),
        Group.addEntryToIn,
        if_pos (by rw [Group.groupUuids_removeEntryFirst g u]; simpa using hpg),
        Group.addEntryTo_removeEntryFirst_commute g u q c hc
          (List.nodup_append.mp hndG).1 hpe]
    | none =>
      rw [hpe] at hp
      have hnu : u ∉ g.entryUuids := fun hm => by
        have := (Group.parentOfEntry_isSome_iff g u).mpr hm
        simp [hpe] at this
      have hpIn : p ∈ Group.groupUuidsIn gs := Group.parentOfEntryIn_mem_groupUuidsIn gs u p hp
      have hpg : p ∉ g.groupUuids :=
        fun hm => (List.disjoint_of_nodup_append hndG) hm hpIn
      rw [Group.addEntryToIn, if_neg (by simpa using hpg),
        Group.removeEntryFirstIn, if_neg (by simpa using hnu),
        Group.removeEntryFirstIn, if_neg (by simpa using hnu),
        Group.addEntryToIn, if_neg (by simpa using hpg),
        Group.addEntryToIn_removeEntryFirstIn_commute gs u p c hc
          (List.nodup_append.mp hndG).2.1 hp]

end

/-- Erasing the unique entry with UUID `u` makes it unfindable. -/
theorem Group.findEntry_removeEntryFirst_self (g : Group) (u : Nat)
    (hnd : g.entryUuids.Nodup) : (g.removeEntryFirst u).findEntryByUuid u = none := by
  cases hf : (g.removeEntryFirst u).findEntryByUuid u with
  | none => rfl
  | some e =>
    have := (Group.findEntry_isSome_iff (g.removeEntryFirst u) u).mp (by simp [hf])
    rw [Group.entryUuids_removeEntryFirst] at this
    exact absurd this (List.Nodup.not_mem_erase hnd)

/-- Replacing an entry under its parent: append the clone to the parent
group, then erase the original; afterwards the clone is the entry found at
the UUID and its parent is unchanged. -/
theorem Group.replaceEntry_spec (root : Group) (u p : Nat) (c : Entry)
    (hc : c.data.uuid = u) (hwfE : root.entryUuids.Nodup)
    (hwfG : root.groupUuids.Nodup) (hp : root.parentOfEntry u = some p) :
    ((root.addEntryTo p c).removeEntryFirst u).findEntryByUuid u = some c ∧
    ((root.addEntryTo p c).removeEntryFirst u).parentOfEntry u = some p := by
  subst hc
  rw [Group.addEntryTo_removeEntryFirst_commute root c.data.uuid p c rfl hwfG hp]
  have h1 : c.data.uuid ∉ (root.removeEntryFirst c.data.uuid).entryUuids := by
    rw [Group.entryUuids_removeEntryFirst]
    exact List.Nodup.not_mem_erase hwfE
  have h2 : p ∈ (root.removeEntryFirst c.data.uuid).groupUuids := by
    rw [Group.groupUuids_removeEntryFirst]
    exact Group.parentOfEntry_mem_groupUuids root c.data.uuid p hp
  exact Group.findEntry_addEntryTo_fresh (root.removeEntryFirst c.data.uuid) p c h1 h2

/-- Relocating an entry: erase it, then append the (unchanged) entry to a
different existing group; afterwards it is found unchanged under the new
parent. -/
theorem Group.relocateEntry_spec (root : Group) (u d : Nat) (e : Entry)
    (hc : e.data.uuid = u) (hwfE : root.entryUuids.Nodup)
    (hd : d ∈ root.groupUuids) :
    (((root.removeEntryFirst u).addEntryTo d e).findEntryByUuid u = some e) ∧
    (((root.removeEntryFirst u).addEntryTo d e).parentOfEntry u = some d) := by
  subst hc
  have h1 : e.data.uuid ∉ (root.removeEntryFirst e.data.uuid).entryUuids := by
    rw [Group.entryUuids_removeEntryFirst]
    exact List.Nodup.not_mem_erase hwfE
  have h2 : d ∈ (root.removeEntryFirst e.data.uuid).groupUuids := by
    rw [Group.groupUuids_removeEntryFirst]
    exact hd
  exact Group.findEntry_addEntryTo_fresh (root.removeEntryFirst e.data.uuid) d e h1 h2

/-! ## Claim C7: history merge never touches the kept entry's TimeInfo -/

/-- C7: folding one entry's history into another (`Merger::mergeHistory`)
never changes the kept entry's payload — in particular its `TimeInfo`
(creation, last_modification, last_access, expiry, location_changed, the
`expires` flag and the usage count) — nor its `canUpdateTimeinfo` flag; only
the history list may differ. -/
theorem Merger.mergeHistory_frames_timeInfo (now : Nat) (maxItems : Int)
    (sourceEntry targetEntry : Entry) :
    ((Merger.mergeHistory now maxItems sourceEntry targetEntry).2).data.timeInfo =
        targetEntry.data.timeInfo ∧
    ((Merger.mergeHistory now maxItems sourceEntry targetEntry).2).data =
        targetEntry.data ∧
    ((Merger.mergeHistory now maxItems sourceEntry targetEntry).2).updateTimeinfo =
        targetEntry.updateTimeinfo := by
  have h : ((Merger.mergeHistory now maxItems sourceEntry targetEntry).2).data =
        targetEntry.data ∧
      ((Merger.mergeHistory now maxItems sourceEntry targetEntry).2).updateTimeinfo =
        targetEntry.updateTimeinfo := by
    rw [Merger.mergeHistory]
    simp only [Entry.replaceHistoryTouch, Entry.touchModified, Entry.truncateHistory]
    repeat' split
    all_goals first
      | exact ⟨rfl, rfl⟩
      | simp_all
  exact ⟨by rw [h.1], h.1, h.2⟩

/-! ## Claim C10: moves to the current parent are no-ops -/

/-- C10: `Merger::moveEntry` and `Merger::moveGroup` return without touching
the tree at all — no reparenting, no `TimeInfo` change, no change to any
`updateTimeinfo` flag — when the object already resides under the requested
destination. -/
theorem Merger.move_already_under_destination_noop (now : Nat) (root : Group)
    (u d v c : Nat) (he : root.parentOfEntry u = some d)
    (hg : root.parentOfGroup v = some c) :
    Merger.moveEntry now root u d = root ∧ Merger.moveGroup now root v c = root := by
  constructor
  · simp [Merger.moveEntry, he]
  · simp [Merger.moveGroup, hg]

/-- Witness for C10 at a concrete tree: entry 100 already lives under group
10, group 11 already lives under the root group 2. -/
theorem Merger.move_already_under_destination_noop_witness :
    tgtRelocate.rootGroup.parentOfEntry 100 = some 10 ∧
    tgtRelocate.rootGroup.parentOfGroup 11 = some 2 ∧
    Merger.moveEntry 7 tgtRelocate.rootGroup 100 10 = tgtRelocate.rootGroup ∧
    Merger.moveGroup 7 tgtRelocate.rootGroup 11 2 = tgtRelocate.rootGroup := by
  refine ⟨rfl, rfl, ?_, ?_⟩
  · exact (Merger.move_already_under_destination_noop 7 tgtRelocate.rootGroup
      100 10 11 2 rfl rfl).1
  · exact (Merger.move_already_under_destination_noop 7 tgtRelocate.rootGroup
      100 10 11 2 rfl rfl).2

/-! ## Claim C9: null construction -/

/-- C9 counterexample: with a null source database the context indeed stays
unpopulated, but the subsequent `merge()` does not return `false` leaving the
target unchanged — it produces no result at all (the model value of the null
dereference in `mergeGroup(m_context)`, which `merge()` reaches unguarded). -/
theorem Merger.null_construction_counterexample :
    (Merger.make none (some emptyDb)).context = none ∧
    Merger.merge 0 0 (Merger.make none (some emptyDb)) = none ∧
    Merger.merge 0 0 (Merger.make none (some emptyDb)) ≠ some (false, emptyDb) := by
  refine ⟨rfl, rfl, ?_⟩
  intro h
  exact Option.noConfusion h

/-- C9 amended: constructing a `Merger` with a null source or target
(database or group) populates no context, and a subsequent `merge()` does not
return normally (the unguarded null dereference is modelled as `none`); in
particular it does not return `false`, though it also applies no change to
the target. -/
theorem Merger.null_construction_faults (sourceDb targetDb : Option Database)
    (sourceGroup targetGroup : Option Group) (sdb tdb : Database) (now seed : Nat)
    (hdb : sourceDb = none ∨ targetDb = none)
    (hgr : sourceGroup = none ∨ targetGroup = none) :
    ((Merger.make sourceDb targetDb).context = none ∧
      Merger.merge now seed (Merger.make sourceDb targetDb) = none) ∧
    ((Merger.makeGroups sourceGroup sdb targetGroup tdb).context = none ∧
      Merger.merge now seed (Merger.makeGroups sourceGroup sdb targetGroup tdb) = none) := by
  constructor
  · have hctx : (Merger.make sourceDb targetDb).context = none := by
      rcases hdb with rfl | rfl
      · rfl
      · cases sourceDb <;> rfl
    exact ⟨hctx, by rw [Merger.merge, hctx]⟩
  · have hctx : (Merger.makeGroups sourceGroup sdb targetGroup tdb).context = none := by
      rcases hgr with rfl | rfl
      · rfl
      · cases sourceGroup <;> rfl
    exact ⟨hctx, by rw [Merger.merge, hctx]⟩

/-- Witness for C9 amended at concrete null arguments. -/
theorem Merger.null_construction_faults_witness :
    ((none : Option Database) = none ∨ (some emptyDb : Option Database) = none) ∧
    (Merger.make none (some emptyDb)).context = none ∧
    Merger.merge 3 4 (Merger.make none (some emptyDb)) = none ∧
    (Merger.makeGroups none emptyDb none emptyDb).context = none ∧
    Merger.merge 3 4 (Merger.makeGroups none emptyDb none emptyDb) = none := by
  have h := Merger.null_construction_faults none (some emptyDb) none none emptyDb emptyDb
    3 4 (Or.inl rfl) (Or.inl rfl)
  exact ⟨Or.inl rfl, h.1.1, h.1.2, h.2.1, h.2.2⟩

/-! ## Claim C4: a second merge is not a no-op -/

/-- C4 counterexample: a source and target sharing group 10, the source's
copy modified later. The first `merge()` applies the group overwrite and
returns true; an immediate second `merge()` with no intervening edits again
returns true (the claim demands false): the overwrite left the target
group's `last_modification` at its old value, so the conflict re-fires. -/
theorem Merger.second_merge_not_noop_counterexample :
    (Merger.merge 5000 900 (Merger.make (some srcGroupConflict) (some tgtGroupConflict))).map
        Prod.fst = some true ∧
    ((Merger.merge 5000 900 (Merger.make (some srcGroupConflict) (some tgtGroupConflict))).bind
        (fun r => Merger.merge 6000 901 (Merger.make (some srcGroupConflict) (some r.2)))).map
        Prod.fst = some true := ⟨rfl, rfl⟩

/-- C4 amended: the second run leaves the state it re-touches unchanged, but
it is not a no-op in the claim's sense: whenever a source group's
`last_modification` is newer than the target counterpart's, the group
overwrite fires, does not update the target's `last_modification`, and hence
fires again on the next run — re-reporting a change, so `merge()` returns
true instead of false. Re-applying the overwrite leaves the group data
fixed. -/
theorem Merger.group_overwrite_refires_state_idempotent
    (sourceChildGroup targetChildGroup : GroupData)
    (h : targetChildGroup.timeInfo.lastModificationTime <
      sourceChildGroup.timeInfo.lastModificationTime) :
    (Merger.resolveGroupConflictData sourceChildGroup targetChildGroup).1 = true ∧
    Merger.resolveGroupConflictData sourceChildGroup
        (Merger.resolveGroupConflictData sourceChildGroup targetChildGroup).2 =
      (true, (Merger.resolveGroupConflictData sourceChildGroup targetChildGroup).2) := by
  simp only [Merger.resolveGroupConflictData, if_pos h]
  exact ⟨trivial, trivial⟩

/-- Witness for C4 amended at concrete group data. -/
theorem Merger.group_overwrite_refires_witness :
    (fixGroupData 10 "oldname" 1000 0).timeInfo.lastModificationTime <
      (fixGroupData 10 "newname" 2000 0).timeInfo.lastModificationTime ∧
    (Merger.resolveGroupConflictData (fixGroupData 10 "newname" 2000 0)
        (fixGroupData 10 "oldname" 1000 0)).1 = true ∧
    Merger.resolveGroupConflictData (fixGroupData 10 "newname" 2000 0)
        (Merger.resolveGroupConflictData (fixGroupData 10 "newname" 2000 0)
          (fixGroupData 10 "oldname" 1000 0)).2 =
      (true, (Merger.resolveGroupConflictData (fixGroupData 10 "newname" 2000 0)
        (fixGroupData 10 "oldname" 1000 0)).2) := by
  have h := Merger.group_overwrite_refires_state_idempotent
    (fixGroupData 10 "newname" 2000 0) (fixGroupData 10 "oldname" 1000 0) (by decide)
  exact ⟨by decide, h.1, h.2⟩

/-! ## Claim C3: serialized-precision comparisons -/

/-- C3 counterexample: two merge runs whose inputs differ only in the
sub-second component of the source group's `last_modification` (1500 ms
versus 1000 ms — the same serialized second) take different decisions:
`resolveGroupConflict` compares at native precision, so one run overwrites
the target group's name and the other does not. -/
theorem Merger.millisecond_sensitivity_counterexample :
    Clock.serialized 1500 = Clock.serialized 1000 ∧
    ((Merger.merge 5000 900 (Merger.make (some srcGroupConflictMs) (some tgtGroupConflict))).bind
        (fun r => groupNameIn r.2 10)) = some "newname" ∧
    ((Merger.merge 5000 900 (Merger.make (some srcGroupConflictSameSec)
        (some tgtGroupConflict))).bind
        (fun r => groupNameIn r.2 10)) = some "oldname" := ⟨rfl, rfl, rfl⟩

/-- C3 amended: only the entry conflict dispatch (and the history keying,
which uses `Clock.serialized` likewise) compares timestamps truncated to
second precision; its branch choice is invariant under sub-second
perturbation of either entry's `last_modification`. Group conflict
resolution, relocation decisions and deletion-versus-edit decisions compare
at native precision and are millisecond-sensitive. -/
theorem Merger.entry_dispatch_serialized_invariance (mode : MergeMode)
    (sourceEntry1 sourceEntry2 targetEntry1 targetEntry2 : Entry)
    (hs : Clock.serialized sourceEntry1.data.timeInfo.lastModificationTime =
      Clock.serialized sourceEntry2.data.timeInfo.lastModificationTime)
    (ht : Clock.serialized targetEntry1.data.timeInfo.lastModificationTime =
      Clock.serialized targetEntry2.data.timeInfo.lastModificationTime) :
    Merger.entryDecision mode
        (Clock.serialized targetEntry1.data.timeInfo.lastModificationTime)
        (Clock.serialized sourceEntry1.data.timeInfo.lastModificationTime) =
      Merger.entryDecision mode
        (Clock.serialized targetEntry2.data.timeInfo.lastModificationTime)
        (Clock.serialized sourceEntry2.data.timeInfo.lastModificationTime) := by
  rw [hs, ht]

/-- Witness for C3 amended: entries whose modification times differ by 500 ms
within the same second. -/
theorem Merger.entry_dispatch_serialized_invariance_witness :
    Clock.serialized (fixEntry 100 "a" 1500 0).data.timeInfo.lastModificationTime =
      Clock.serialized (fixEntry 100 "a" 1000 0).data.timeInfo.lastModificationTime ∧
    Merger.entryDecision .Synchronize
        (Clock.serialized (fixEntry 101 "b" 2700 0).data.timeInfo.lastModificationTime)
        (Clock.serialized (fixEntry 100 "a" 1500 0).data.timeInfo.lastModificationTime) =
      Merger.entryDecision .Synchronize
        (Clock.serialized (fixEntry 101 "b" 2200 0).data.timeInfo.lastModificationTime)
        (Clock.serialized (fixEntry 100 "a" 1000 0).data.timeInfo.lastModificationTime) := by
  refine ⟨by decide, ?_⟩
  exact Merger.entry_dispatch_serialized_invariance .Synchronize
    (fixEntry 100 "a" 1500 0) (fixEntry 100 "a" 1000 0)
    (fixEntry 101 "b" 2700 0) (fixEntry 101 "b" 2200 0) (by decide) (by decide)

/-! ## Claim C8 counterexample: entry relocation leaves location_changed -/

/-- C8 counterexample: the source entry 100 has `location_changed` 3000 ms,
newer than the target counterpart's 1000 ms, and sits under group 11 while
the counterpart sits under group 10. The merge relocates the counterpart
under group 11 as claimed, but leaves its `location_changed` at 1000 ms —
it is not updated to the source's 3000 ms (only group relocations update
`location_changed`, Merger.cpp 125-127 versus 98-103). -/
theorem Merger.entry_relocation_locationChanged_counterexample :
    ((Merger.merge 5000 900 (Merger.make (some srcRelocate) (some tgtRelocate))).bind
        (fun r => r.2.rootGroup.parentOfEntry 100)) = some 11 ∧
    ((Merger.merge 5000 900 (Merger.make (some srcRelocate) (some tgtRelocate))).bind
        (fun r => (r.2.rootGroup.findEntryByUuid 100).map
          (fun e => e.data.timeInfo.locationChanged))) = some 1000 ∧
    (srcRelocate.rootGroup.findEntryByUuid 100).map
        (fun e => e.data.timeInfo.locationChanged) = some 3000 ∧
    (1000 : Nat) ≠ 3000 := ⟨rfl, rfl, rfl, by decide⟩

/-! ## Claim C5: KeepNewer semantics -/

/-- `moveEntry`'s save/disable/mutate/restore protocol leaves the moved entry
itself unchanged: the suspended `setGroup` cannot stamp it. -/
theorem Merger.moveEntryBody_eq (now : Nat) (e : Entry) :
    Merger.moveEntryBody now e = e := by
  simp [Merger.moveEntryBody, Entry.setGroupTouch]

/-- Under a forced `KeepExisting` mode, entry conflict resolution does
nothing. -/
theorem Merger.resolveEntryConflict_keepExisting (env : MergeEnv)
    (hmode : env.forced = some .KeepExisting) (ctxTargetUuid : Nat)
    (sourceEntry : Entry) (st : MergeSt) :
    Merger.resolveEntryConflict env ctxTargetUuid sourceEntry st = st := by
  rw [Merger.resolveEntryConflict]
  cases h : st.root.findEntryByUuid sourceEntry.data.uuid with
  | none => rfl
  | some targetEntry =>
    simp [Merger.effectiveEntryMode, hmode, Merger.entryDecision]

/-- C5: under effective mode `KeepNewer`, when the target entry's
`last_modification` at serialized precision is strictly less than the
source's, the target entry is replaced by a deep clone of the source entry
including its history, attached under the target entry's current parent
group, with the original erased (the entry found at the UUID afterwards is
exactly the clone, still under the same parent); otherwise nothing changes
at all. -/
theorem Merger.keepNewer_replaces_with_clone (env : MergeEnv) (ctxTargetUuid : Nat)
    (sourceEntry : Entry) (st : MergeSt) (targetEntry : Entry) (p : Nat)
    (hwfE : st.root.entryUuids.Nodup) (hwfG : st.root.groupUuids.Nodup)
    (hfind : st.root.findEntryByUuid sourceEntry.data.uuid = some targetEntry)
    (hpar : st.root.parentOfEntry sourceEntry.data.uuid = some p)
    (hmode : Merger.effectiveEntryMode env st.root ctxTargetUuid = .KeepNewer) :
    (Clock.serialized targetEntry.data.timeInfo.lastModificationTime <
        Clock.serialized sourceEntry.data.timeInfo.lastModificationTime →
      ((Merger.resolveEntryConflict env ctxTargetUuid sourceEntry st).root.findEntryByUuid
          sourceEntry.data.uuid = some (Entry.cloneIncludeHistory sourceEntry)) ∧
      ((Merger.resolveEntryConflict env ctxTargetUuid sourceEntry st).root.parentOfEntry
          sourceEntry.data.uuid = some p) ∧
      (Merger.resolveEntryConflict env ctxTargetUuid sourceEntry st).changes =
        st.changes ++ [.overwriting sourceEntry.data.uuid]) ∧
    (¬(Clock.serialized targetEntry.data.timeInfo.lastModificationTime <
        Clock.serialized sourceEntry.data.timeInfo.lastModificationTime) →
      Merger.resolveEntryConflict env ctxTargetUuid sourceEntry st = st) := by
  constructor
  · intro hlt
    have hspec := Group.replaceEntry_spec st.root sourceEntry.data.uuid p
      (Entry.cloneIncludeHistory sourceEntry) rfl hwfE hwfG hpar
    rw [Merger.resolveEntryConflict]
    simp only [hfind, hmode, Merger.entryDecision, if_pos hlt]
    simp only [hpar, Merger.moveEntryDetached, Merger.moveEntryBody_eq]
    exact ⟨hspec.1, hspec.2, trivial⟩
  · intro hge
    rw [Merger.resolveEntryConflict]
    simp only [hfind, hmode, Merger.entryDecision, if_neg hge]

/-- Witness for C5 on a concrete state: target entry 100 (modified at 500 ms,
serialized second 0) against a source copy modified at 2000 ms. -/
theorem Merger.keepNewer_replaces_with_clone_witness :
    (tgtRelocate.rootGroup.findEntryByUuid 100 = some (fixEntry 100 "e1" 500 1000)) ∧
    (tgtRelocate.rootGroup.parentOfEntry 100 = some 10) ∧
    Clock.serialized (fixEntry 100 "e1" 500 1000).data.timeInfo.lastModificationTime <
      Clock.serialized (fixEntry 100 "e1" 2000 0).data.timeInfo.lastModificationTime ∧
    ((Merger.resolveEntryConflict
        { now := 5000, forced := some .KeepNewer, targetDbName := "db", historyMaxItems := 10 }
        2 (fixEntry 100 "e1" 2000 0)
        { root := tgtRelocate.rootGroup, changes := [], freshUuid := 0 }).root.findEntryByUuid
        100 = some (Entry.cloneIncludeHistory (fixEntry 100 "e1" 2000 0))) ∧
    ((Merger.resolveEntryConflict
        { now := 5000, forced := some .KeepNewer, targetDbName := "db", historyMaxItems := 10 }
        2 (fixEntry 100 "e1" 2000 0)
        { root := tgtRelocate.rootGroup, changes := [], freshUuid := 0 }).root.parentOfEntry
        100 = some 10) := by
  have h := Merger.keepNewer_replaces_with_clone
    { now := 5000, forced := some .KeepNewer, targetDbName := "db", historyMaxItems := 10 }
    2 (fixEntry 100 "e1" 2000 0)
    { root := tgtRelocate.rootGroup, changes := [], freshUuid := 0 }
    (fixEntry 100 "e1" 500 1000) 10 (by decide) (by decide) rfl rfl rfl
  exact ⟨rfl, rfl, by decide, (h.1 (by decide)).1, (h.1 (by decide)).2.1⟩

/-! ## Claim C8 amended: relocation moves but does not restamp -/

/-- C8 amended: in the structural pass's per-entry step, when the source's
`location_changed` is strictly newer and the counterpart's parent is not the
current target group, the counterpart is moved under the current target
group, but it is left byte-for-byte unchanged — in particular its
`location_changed` (and whole `TimeInfo`) keeps its old value rather than
being updated to the source's. (Stated under a forced `KeepExisting` mode so
that the subsequent conflict dispatch is inert and the relocation effect is
isolated.) -/
theorem Merger.entry_relocation_preserves_timeInfo (env : MergeEnv)
    (ctxTargetUuid : Nat) (sourceEntry : Entry) (st : MergeSt)
    (targetEntry : Entry) (p : Nat)
    (hwfE : st.root.entryUuids.Nodup)
    (hfind : st.root.findEntryByUuid sourceEntry.data.uuid = some targetEntry)
    (hpar : st.root.parentOfEntry sourceEntry.data.uuid = some p)
    (hloc : targetEntry.data.timeInfo.locationChanged <
      sourceEntry.data.timeInfo.locationChanged)
    (hne : p ≠ ctxTargetUuid)
    (hctx : ctxTargetUuid ∈ st.root.groupUuids)
    (hmode : env.forced = some .KeepExisting) :
    ((Merger.mergeGroupEntry env sourceEntry ctxTargetUuid st).root.parentOfEntry
        sourceEntry.data.uuid = some ctxTargetUuid) ∧
    ((Merger.mergeGroupEntry env sourceEntry ctxTargetUuid st).root.findEntryByUuid
        sourceEntry.data.uuid = some targetEntry) ∧
    (Merger.mergeGroupEntry env sourceEntry ctxTargetUuid st).changes =
      st.changes ++ [.relocating sourceEntry.data.uuid] := by
  have huuid : targetEntry.data.uuid = sourceEntry.data.uuid :=
    Group.uuid_of_findEntry st.root sourceEntry.data.uuid targetEntry hfind
  have hspec := Group.relocateEntry_spec st.root sourceEntry.data.uuid ctxTargetUuid
    targetEntry huuid hwfE hctx
  have hcond : (decide (targetEntry.data.timeInfo.locationChanged <
      sourceEntry.data.timeInfo.locationChanged) &&
      (st.root.parentOfEntry sourceEntry.data.uuid != some ctxTargetUuid)) = true := by
    rw [hpar]
    simp [hloc, hne]
  have hmove : Merger.moveEntry env.now st.root sourceEntry.data.uuid ctxTargetUuid =
      (st.root.removeEntryFirst sourceEntry.data.uuid).addEntryTo ctxTargetUuid
        targetEntry := by
    simp [Merger.moveEntry, hpar, hne, hfind, Merger.moveEntryBody_eq]
  rw [Merger.mergeGroupEntry]
  simp only [hfind, hcond, if_pos, Merger.resolveEntryConflict_keepExisting env hmode]
  rw [hmove]
  exact ⟨hspec.2, hspec.1, trivial⟩
/-- Witness for C8 amended: the concrete relocation scenario — entry 100
under group 10 with `location_changed` 1000 ms, source copy under group 11
with 3000 ms; after the step the entry sits under group 11 completely
unchanged. -/
theorem Merger.entry_relocation_preserves_timeInfo_witness :
    (tgtRelocate.rootGroup.findEntryByUuid 100 = some (fixEntry 100 "e1" 500 1000)) ∧
    ((fixEntry 100 "e1" 500 1000).data.timeInfo.locationChanged <
      (fixEntry 100 "e1" 500 3000).data.timeInfo.locationChanged) ∧
    ((Merger.mergeGroupEntry
        { now := 5000, forced := some .KeepExisting, targetDbName := "db", historyMaxItems := 10 }
        (fixEntry 100 "e1" 500 3000) 11
        { root := tgtRelocate.rootGroup, changes := [], freshUuid := 0 }).root.parentOfEntry
        100 = some 11) ∧
    ((Merger.mergeGroupEntry
        { now := 5000, forced := some .KeepExisting, targetDbName := "db", historyMaxItems := 10 }
        (fixEntry 100 "e1" 500 3000) 11
        { root := tgtRelocate.rootGroup, changes := [], freshUuid := 0 }).root.findEntryByUuid
        100 = some (fixEntry 100 "e1" 500 1000)) := by
  have h := Merger.entry_relocation_preserves_timeInfo
    { now := 5000, forced := some .KeepExisting, targetDbName := "db", historyMaxItems := 10 }
    11 (fixEntry 100 "e1" 500 3000)
    { root := tgtRelocate.rootGroup, changes := [], freshUuid := 0 }
    (fixEntry 100 "e1" 500 1000) 10 (by decide) rfl rfl (by decide) (by decide)
    (by decide) rfl
  exact ⟨rfl, by decide, h.1, h.2.1⟩


/-! ## Deletion pass, part 1: the tombstone map

Lemmas about `dmContains`, `dmGet` and `dmSet` (the model of the
`QMap<Uuid, DeletedObject>` used by `Merger::mergeDeletions`). -/

/-- Replacing the binding of `u` does not change which keys are present. -/
theorem any_key_set_map (x u : Nat) (obj : DeletedObject) :
    ∀ (m : List (Nat × DeletedObject)),
      (m.map (fun p => if p.1 == u then (u, obj) else p)).any (fun p => p.1 == x) =
        m.any (fun p => p.1 == x)
  | [] => rfl
  | p :: m => by
    rw [List.map_cons, List.any_cons, List.any_cons, any_key_set_map x u obj m]
    by_cases hp : (p.1 == u) = true
    · have hp1 : p.1 = u := by simpa using hp
      rw [if_pos hp]
      simp [hp1]
    · rw [if_neg hp]

/-- Replacing the binding of `u` does not disturb the lookup of `x ≠ u`. -/
theorem find_key_set_map_ne (x u : Nat) (obj : DeletedObject) (hxu : x ≠ u) :
    ∀ (m : List (Nat × DeletedObject)),
      (m.map (fun p => if p.1 == u then (u, obj) else p)).find? (fun p => p.1 == x) =
        m.find? (fun p => p.1 == x)
  | [] => rfl
  | p :: m => by
    rw [List.map_cons]
    by_cases hp : (p.1 == u) = true
    · have hp1 : p.1 = u := by simpa using hp
      rw [if_pos hp]
      rw [List.find?_cons_of_neg _ (by simpa using Ne.symm hxu),
        List.find?_cons_of_neg _ (by simp [hp1, Ne.symm hxu]),
        find_key_set_map_ne x u obj hxu m]
    · rw [if_neg hp]
      by_cases hx : (p.1 == x) = true
      · rw [List.find?_cons_of_pos (p := fun q : Nat × DeletedObject => q.1 == x) _ hx]
        rw [List.find?_cons_of_pos (p := fun q : Nat × DeletedObject => q.1 == x) _ hx]
      · rw [List.find?_cons_of_neg (p := fun q : Nat × DeletedObject => q.1 == x) _ hx]
        rw [List.find?_cons_of_neg (p := fun q : Nat × DeletedObject => q.1 == x) _ hx]
        rw [find_key_set_map_ne x u obj hxu m]

/-- After replacing the binding of a present key `u`, the lookup of `u`
returns the new pair. -/
theorem find_key_set_map_self (u : Nat) (obj : DeletedObject) :
    ∀ (m : List (Nat × DeletedObject)), m.any (fun p => p.1 == u) = true →
      (m.map (fun p => if p.1 == u then (u, obj) else p)).find? (fun p => p.1 == u) =
        some (u, obj)
  | [], h => by simp at h
  | p :: m, h => by
    rw [List.map_cons]
    by_cases hp : (p.1 == u) = true
    · rw [if_pos hp]
      exact List.find?_cons_of_pos _ (by simp)
    · rw [if_neg hp, List.find?_cons_of_neg (p := fun q : Nat × DeletedObject => q.1 == u) _ hp]
      refine find_key_set_map_self u obj m ?_
      rw [List.any_cons] at h
      rcases Bool.or_eq_true_iff.mp h with h1 | h2
      · exact absurd h1 hp
      · exact h2

/-- `find?` skips a prefix in which it fails. -/
theorem find_append_of_none {α : Type} (p : α → Bool) :
    ∀ (l1 l2 : List α), l1.find? p = none → (l1 ++ l2).find? p = l2.find? p
  | [], _, _ => rfl
  | a :: l1, l2, h => by
    cases hp : p a with
    | true => rw [List.find?_cons_of_pos _ hp] at h; exact absurd h (by simp)
    | false =>
      rw [List.find?_cons_of_neg _ (by simp [hp])] at h
      rw [List.cons_append, List.find?_cons_of_neg _ (by simp [hp])]
      exact find_append_of_none p l1 l2 h

/-- `find?` commits to a hit in the prefix. -/
theorem find_append_of_some {α : Type} (p : α → Bool) :
    ∀ (l1 l2 : List α) (a : α), l1.find? p = some a → (l1 ++ l2).find? p = some a
  | [], _, a, h => by simp at h
  | b :: l1, l2, a, h => by
    cases hp : p b with
    | true =>
      rw [List.find?_cons_of_pos _ hp] at h
      rw [List.cons_append, List.find?_cons_of_pos _ hp]
      exact h
    | false =>
      rw [List.find?_cons_of_neg _ (by simp [hp])] at h
      rw [List.cons_append, List.find?_cons_of_neg _ (by simp [hp])]
      exact find_append_of_some p l1 l2 a h

/-- Key membership after `dmSet`: the old keys plus `u`. -/
theorem dmContains_dmSet (x u : Nat) (obj : DeletedObject)
    (m : List (Nat × DeletedObject)) :
    dmContains x (dmSet u obj m) = true ↔ dmContains x m = true ∨ x = u := by
  rw [dmSet]
  by_cases hc : dmContains u m = true
  · rw [if_pos hc, dmContains, any_key_set_map]
    rw [dmContains] at hc ⊢
    constructor
    · exact Or.inl
    · rintro (h | rfl)
      · exact h
      · exact hc
  · rw [if_neg hc, dmContains, dmContains, List.any_append]
    simp only [List.any_cons, List.any_nil, Bool.or_false, Bool.or_eq_true, beq_iff_eq]
    constructor
    · rintro (h | h)
      · exact Or.inl h
      · exact Or.inr h.symm
    · rintro (h | h)
      · exact Or.inl h
      · exact Or.inr h.symm

/-- `dmSet` at `u` makes the lookup at `u` return the stored tombstone. -/
theorem dmGet_dmSet_self (u : Nat) (obj : DeletedObject)
    (m : List (Nat × DeletedObject)) : dmGet u (dmSet u obj m) = obj := by
  rw [dmSet]
  by_cases hc : dmContains u m = true
  · rw [if_pos hc, dmGet]
    rw [dmContains] at hc
    rw [find_key_set_map_self u obj m hc]
    rfl
  · rw [if_neg hc, dmGet]
    have hfn : m.find? (fun p => p.1 == u) = none := by
      cases hf : m.find? (fun p => p.1 == u) with
      | none => rfl
      | some p =>
        have h1 := List.find?_some hf
        have h2 := List.mem_of_find?_eq_some hf
        have hcc : dmContains u m = true := by
          rw [dmContains]
          exact List.any_eq_true.mpr ⟨p, h2, h1⟩
        exact absurd hcc hc
    rw [find_append_of_none _ _ _ hfn]
    simp

/-- `dmSet` at `u` does not disturb the lookup of `x ≠ u`. -/
theorem dmGet_dmSet_ne (x u : Nat) (obj : DeletedObject)
    (m : List (Nat × DeletedObject)) (hxu : x ≠ u) :
    dmGet x (dmSet u obj m) = dmGet x m := by
  rw [dmSet]
  by_cases hc : dmContains u m = true
  · rw [if_pos hc, dmGet, dmGet, find_key_set_map_ne x u obj hxu m]
  · rw [if_neg hc, dmGet, dmGet]
    cases hf : m.find? (fun p => p.1 == x) with
    | some p => rw [find_append_of_some _ _ _ _ hf]
    | none =>
      rw [find_append_of_none _ _ _ hf]
      rw [List.find?_cons_of_neg _ (by simpa using Ne.symm hxu), List.find?_nil]

/-- When every binding carries its own key as UUID, a lookup returns a
tombstone whose UUID is the key looked up. -/
theorem dmGet_uuid (v : Nat) (m : List (Nat × DeletedObject))
    (hm : ∀ p ∈ m, (Prod.snd p).uuid = p.1) : (dmGet v m).uuid = v := by
  rw [dmGet]
  cases hf : m.find? (fun p => p.1 == v) with
  | none => rfl
  | some p =>
    have h1 := List.find?_some hf
    have h2 := hm p (List.mem_of_find?_eq_some hf)
    rw [Option.map_some', Option.getD_some, h2]
    simpa using h1

/-- `dmSet` with a matching UUID preserves the key-carrying invariant. -/
theorem dmSet_uuidInv (u : Nat) (obj : DeletedObject) (hobj : obj.uuid = u)
    (m : List (Nat × DeletedObject)) (hm : ∀ p ∈ m, (Prod.snd p).uuid = p.1) :
    ∀ p ∈ dmSet u obj m, (Prod.snd p).uuid = p.1 := by
  rw [dmSet]
  by_cases hc : dmContains u m = true
  · rw [if_pos hc]
    intro p hp
    obtain ⟨q, hq, hqe⟩ := List.mem_map.mp hp
    by_cases hqu : (q.1 == u) = true
    · rw [if_pos hqu] at hqe
      subst hqe
      exact hobj
    · rw [if_neg hqu] at hqe
      subst hqe
      exact hm q hq
  · rw [if_neg hc]
    intro p hp
    rcases List.mem_append.mp hp with h1 | h2
    · exact hm p h1
    · obtain rfl : p = (u, obj) := by simpa using h2
      exact hobj

/-- Tombstone membership in a list as non-emptiness of the UUID filter. -/
theorem mem_map_uuid_iff_filter_ne_nil (u : Nat) (l : List DeletedObject) :
    u ∈ l.map (fun o => o.uuid) ↔ l.filter (fun o => o.uuid == u) ≠ [] := by
  constructor
  · intro h
    obtain ⟨o, ho, hoe⟩ := List.mem_map.mp h
    intro hnil
    have hmem : o ∈ l.filter (fun o => o.uuid == u) :=
      List.mem_filter.mpr ⟨ho, by simp [hoe]⟩
    rw [hnil] at hmem
    exact absurd hmem (List.not_mem_nil o)
  · intro h
    cases hf : l.filter (fun o => o.uuid == u) with
    | nil => exact absurd hf h
    | cons o os =>
      have ho : o ∈ l.filter (fun o => o.uuid == u) := hf ▸ List.mem_cons_self o os
      have hmf := List.mem_filter.mp ho
      exact List.mem_map.mpr ⟨o, hmf.1, by simpa using hmf.2⟩


/-! ## Deletion pass, part 2: invariants of the tombstone-union loop -/

/-- The union loop keeps every map binding keyed by its tombstone's UUID. -/
theorem Merger.collectDeletions_uuidInv (root : Group) :
    ∀ (L : List DeletedObject) (acc : DelAcc),
      (∀ p ∈ acc.mergedDeletions, (Prod.snd p).uuid = p.1) →
      ∀ p ∈ (Merger.collectDeletions root L acc).mergedDeletions, (Prod.snd p).uuid = p.1
  | [], acc, h => by
    rw [Merger.collectDeletions]
    exact h
  | object :: rest, acc, h => by
    rw [Merger.collectDeletions]
    dsimp only
    by_cases h1 : dmContains object.uuid acc.mergedDeletions = true
    · rw [if_pos h1]
      by_cases h2 : (dmGet object.uuid acc.mergedDeletions).deletionTime > object.deletionTime
      · rw [if_pos h2]
        exact Merger.collectDeletions_uuidInv root rest _
          (dmSet_uuidInv object.uuid object rfl acc.mergedDeletions h)
      · rw [if_neg h2]
        exact Merger.collectDeletions_uuidInv root rest acc h
    · rw [if_neg h1]
      cases hfe : root.findEntryByUuid object.uuid with
      | some e1 =>
        simp only [hfe]
        exact Merger.collectDeletions_uuidInv root rest _
          (dmSet_uuidInv object.uuid object rfl acc.mergedDeletions h)
      | none =>
        simp only [hfe]
        cases hfg : root.findGroupByUuid object.uuid with
        | some g1 =>
          simp only [hfg]
          exact Merger.collectDeletions_uuidInv root rest _
            (dmSet_uuidInv object.uuid object rfl acc.mergedDeletions h)
        | none =>
          simp only [hfg]
          exact Merger.collectDeletions_uuidInv root rest _
            (dmSet_uuidInv object.uuid object rfl acc.mergedDeletions h)

/-- The union loop only appends to the entry and group queues. -/
theorem Merger.collectDeletions_mono (root : Group) :
    ∀ (L : List DeletedObject) (acc : DelAcc),
      (∀ x ∈ acc.entries, x ∈ (Merger.collectDeletions root L acc).entries) ∧
      (∀ x ∈ acc.groups, x ∈ (Merger.collectDeletions root L acc).groups)
  | [], acc => by
    rw [Merger.collectDeletions]
    exact ⟨fun x hx => hx, fun x hx => hx⟩
  | object :: rest, acc => by
    rw [Merger.collectDeletions]
    dsimp only
    by_cases h1 : dmContains object.uuid acc.mergedDeletions = true
    · rw [if_pos h1]
      by_cases h2 : (dmGet object.uuid acc.mergedDeletions).deletionTime > object.deletionTime
      · rw [if_pos h2]
        exact Merger.collectDeletions_mono root rest
          { mergedDeletions := dmSet object.uuid object acc.mergedDeletions,
            entries := acc.entries, groups := acc.groups, deletions := acc.deletions }
      · rw [if_neg h2]
        exact Merger.collectDeletions_mono root rest acc
    · rw [if_neg h1]
      cases hfe : root.findEntryByUuid object.uuid with
      | some e1 =>
        simp only [hfe]
        refine ⟨fun x hx => ?_, fun x hx => ?_⟩
        · exact (Merger.collectDeletions_mono root rest _).1 x (List.mem_append_left _ hx)
        · exact (Merger.collectDeletions_mono root rest _).2 x hx
      | none =>
        simp only [hfe]
        cases hfg : root.findGroupByUuid object.uuid with
        | some g1 =>
          simp only [hfg]
          refine ⟨fun x hx => ?_, fun x hx => ?_⟩
          · exact (Merger.collectDeletions_mono root rest _).1 x hx
          · exact (Merger.collectDeletions_mono root rest _).2 x (List.mem_append_left _ hx)
        | none =>
          simp only [hfg]
          refine ⟨fun x hx => ?_, fun x hx => ?_⟩
          · exact (Merger.collectDeletions_mono root rest _).1 x hx
          · exact (Merger.collectDeletions_mono root rest _).2 x hx

/-- Once a UUID is registered in the map it stays registered, is never queued
again, and no further tombstone for it is retained directly. -/
theorem Merger.collectDeletions_seen (root : Group) (u : Nat) :
    ∀ (L : List DeletedObject) (acc : DelAcc),
      dmContains u acc.mergedDeletions = true →
      dmContains u (Merger.collectDeletions root L acc).mergedDeletions = true ∧
      (u ∉ acc.entries → u ∉ (Merger.collectDeletions root L acc).entries) ∧
      (u ∉ acc.groups → u ∉ (Merger.collectDeletions root L acc).groups) ∧
      (Merger.collectDeletions root L acc).deletions.filter (fun o => o.uuid == u) =
        acc.deletions.filter (fun o => o.uuid == u)
  | [], acc, hc => by
    rw [Merger.collectDeletions]
    exact ⟨hc, fun h => h, fun h => h, rfl⟩
  | object :: rest, acc, hc => by
    rw [Merger.collectDeletions]
    dsimp only
    by_cases h1 : dmContains object.uuid acc.mergedDeletions = true
    · rw [if_pos h1]
      by_cases h2 : (dmGet object.uuid acc.mergedDeletions).deletionTime > object.deletionTime
      · rw [if_pos h2]
        exact Merger.collectDeletions_seen root u rest _
          ((dmContains_dmSet u object.uuid object acc.mergedDeletions).mpr (Or.inl hc))
      · rw [if_neg h2]
        exact Merger.collectDeletions_seen root u rest acc hc
    · rw [if_neg h1]
      have hne : u ≠ object.uuid := by
        rintro rfl
        exact h1 hc
      have hc1 : dmContains u (dmSet object.uuid object acc.mergedDeletions) = true :=
        (dmContains_dmSet u object.uuid object acc.mergedDeletions).mpr (Or.inl hc)
      cases hfe : root.findEntryByUuid object.uuid with
      | some e1 =>
        simp only [hfe]
        obtain ⟨ha, hb, hg, hd⟩ := Merger.collectDeletions_seen root u rest
          { mergedDeletions := dmSet object.uuid object acc.mergedDeletions,
            entries := acc.entries ++ [object.uuid], groups := acc.groups,
            deletions := acc.deletions } hc1
        refine ⟨ha, fun hu => hb ?_, hg, hd⟩
        intro hm
        rcases List.mem_append.mp hm with hm1 | hm2
        · exact hu hm1
        · exact hne (List.mem_singleton.mp hm2)
      | none =>
        simp only [hfe]
        cases hfg : root.findGroupByUuid object.uuid with
        | some g1 =>
          simp only [hfg]
          obtain ⟨ha, hb, hg, hd⟩ := Merger.collectDeletions_seen root u rest
            { mergedDeletions := dmSet object.uuid object acc.mergedDeletions,
              entries := acc.entries, groups := acc.groups ++ [object.uuid],
              deletions := acc.deletions } hc1
          refine ⟨ha, hb, fun hu => hg ?_, hd⟩
          intro hm
          rcases List.mem_append.mp hm with hm1 | hm2
          · exact hu hm1
          · exact hne (List.mem_singleton.mp hm2)
        | none =>
          simp only [hfg]
          obtain ⟨ha, hb, hg, hd⟩ := Merger.collectDeletions_seen root u rest
            { mergedDeletions := dmSet object.uuid object acc.mergedDeletions,
              entries := acc.entries, groups := acc.groups,
              deletions := acc.deletions ++ [object] } hc1
          refine ⟨ha, hb, hg, ?_⟩
          rw [hd]
          show (acc.deletions ++ [object]).filter (fun o => o.uuid == u) =
            acc.deletions.filter (fun o => o.uuid == u)
          rw [List.filter_append]
          have hne2 : ¬ object.uuid = u := fun h => hne h.symm
          have hnil : [object].filter (fun o => o.uuid == u) = [] := by
            simp [hne2]
          rw [hnil, List.append_nil]

/-- Once registered, the binding of `u` accumulates the minimum of the
remaining deletion times for `u` (the running minimum of Merger.cpp 447-449). -/
theorem Merger.collectDeletions_time (root : Group) (u : Nat) :
    ∀ (L : List DeletedObject) (acc : DelAcc) (t0 : Nat),
      dmContains u acc.mergedDeletions = true →
      dmGet u acc.mergedDeletions = { uuid := u, deletionTime := t0 } →
      dmGet u (Merger.collectDeletions root L acc).mergedDeletions =
        { uuid := u,
          deletionTime := (L.filter (fun o => o.uuid == u)).foldl
            (fun t p => min t p.deletionTime) t0 }
  | [], acc, t0, _, hget => by
    rw [Merger.collectDeletions]
    simpa using hget
  | object :: rest, acc, t0, hc, hget => by
    rw [Merger.collectDeletions]
    dsimp only
    by_cases hou : object.uuid = u
    · have h1 : dmContains object.uuid acc.mergedDeletions = true := by rw [hou]; exact hc
      rw [if_pos h1]
      have hgo : dmGet object.uuid acc.mergedDeletions =
          { uuid := u, deletionTime := t0 } := by rw [hou]; exact hget
      rw [List.filter_cons_of_pos (by simp [hou]), List.foldl_cons]
      by_cases h2 : (dmGet object.uuid acc.mergedDeletions).deletionTime > object.deletionTime
      · rw [if_pos h2]
        rw [hgo] at h2
        have hmin : min t0 object.deletionTime = object.deletionTime :=
          Nat.min_eq_right (Nat.le_of_lt h2)
        rw [hmin]
        refine Merger.collectDeletions_time root u rest _ object.deletionTime ?_ ?_
        · show dmContains u (dmSet object.uuid object acc.mergedDeletions) = true
          exact (dmContains_dmSet u object.uuid object acc.mergedDeletions).mpr
            (Or.inr hou.symm)
        · show dmGet u (dmSet object.uuid object acc.mergedDeletions) =
            { uuid := u, deletionTime := object.deletionTime }
          rw [hou, dmGet_dmSet_self]
          cases object with
          | mk ou ot => simpa using hou
      · rw [if_neg h2]
        rw [hgo] at h2
        have hmin : min t0 object.deletionTime = t0 :=
          Nat.min_eq_left (Nat.le_of_not_lt h2)
        rw [hmin]
        exact Merger.collectDeletions_time root u rest acc t0 hc hget
    · rw [List.filter_cons_of_neg (by simp [hou])]
      have hget1 : dmGet u (dmSet object.uuid object acc.mergedDeletions) =
          { uuid := u, deletionTime := t0 } := by
        rw [dmGet_dmSet_ne u object.uuid object acc.mergedDeletions
          (fun h => hou h.symm)]
        exact hget
      have hc1 : dmContains u (dmSet object.uuid object acc.mergedDeletions) = true :=
        (dmContains_dmSet u object.uuid object acc.mergedDeletions).mpr (Or.inl hc)
      by_cases h1 : dmContains object.uuid acc.mergedDeletions = true
      · rw [if_pos h1]
        by_cases h2 : (dmGet object.uuid acc.mergedDeletions).deletionTime > object.deletionTime
        · rw [if_pos h2]
          exact Merger.collectDeletions_time root u rest _ t0 hc1 hget1
        · rw [if_neg h2]
          exact Merger.collectDeletions_time root u rest acc t0 hc hget
      · rw [if_neg h1]
        cases hfe : root.findEntryByUuid object.uuid with
        | some e1 =>
          simp only [hfe]
          exact Merger.collectDeletions_time root u rest _ t0 hc1 hget1
        | none =>
          simp only [hfe]
          cases hfg : root.findGroupByUuid object.uuid with
          | some g1 =>
            simp only [hfg]
            exact Merger.collectDeletions_time root u rest _ t0 hc1 hget1
          | none =>
            simp only [hfg]
            exact Merger.collectDeletions_time root u rest _ t0 hc1 hget1

/-- The queues assembled by the union loop are duplicate-free: a UUID is
queued only on its first occurrence, and every queued UUID is registered. -/
theorem Merger.collectDeletions_nodup (root : Group) :
    ∀ (L : List DeletedObject) (acc : DelAcc),
      acc.entries.Nodup → (∀ v ∈ acc.entries, dmContains v acc.mergedDeletions = true) →
      acc.groups.Nodup → (∀ v ∈ acc.groups, dmContains v acc.mergedDeletions = true) →
      (Merger.collectDeletions root L acc).entries.Nodup ∧
      (Merger.collectDeletions root L acc).groups.Nodup
  | [], acc, he, _, hg, _ => by
    rw [Merger.collectDeletions]
    exact ⟨he, hg⟩
  | object :: rest, acc, he, hec, hg, hgc => by
    rw [Merger.collectDeletions]
    dsimp only
    by_cases h1 : dmContains object.uuid acc.mergedDeletions = true
    · rw [if_pos h1]
      by_cases h2 : (dmGet object.uuid acc.mergedDeletions).deletionTime > object.deletionTime
      · rw [if_pos h2]
        refine Merger.collectDeletions_nodup root rest _ he ?_ hg ?_
        · exact fun v hv =>
            (dmContains_dmSet v object.uuid object acc.mergedDeletions).mpr
              (Or.inl (hec v hv))
        · exact fun v hv =>
            (dmContains_dmSet v object.uuid object acc.mergedDeletions).mpr
              (Or.inl (hgc v hv))
      · rw [if_neg h2]
        exact Merger.collectDeletions_nodup root rest acc he hec hg hgc
    · rw [if_neg h1]
      have hset : ∀ v, dmContains v acc.mergedDeletions = true →
          dmContains v (dmSet object.uuid object acc.mergedDeletions) = true :=
        fun v hv =>
          (dmContains_dmSet v object.uuid object acc.mergedDeletions).mpr (Or.inl hv)
      have hself : dmContains object.uuid
          (dmSet object.uuid object acc.mergedDeletions) = true :=
        (dmContains_dmSet object.uuid object.uuid object acc.mergedDeletions).mpr
          (Or.inr rfl)
      cases hfe : root.findEntryByUuid object.uuid with
      | some e1 =>
        simp only [hfe]
        refine Merger.collectDeletions_nodup root rest _ ?_ ?_ hg
          (fun v hv => hset v (hgc v hv))
        · refine List.nodup_append.mpr ⟨he, List.nodup_singleton _, ?_⟩
          intro v hv hm
          have hvo : v = object.uuid := List.mem_singleton.mp hm
          exact h1 (hvo ▸ hec v hv)
        · intro v hv
          rcases List.mem_append.mp hv with hm1 | hm2
          · exact hset v (hec v hm1)
          · obtain rfl : v = object.uuid := List.mem_singleton.mp hm2
            exact hself
      | none =>
        simp only [hfe]
        cases hfg : root.findGroupByUuid object.uuid with
        | some g1 =>
          simp only [hfg]
          refine Merger.collectDeletions_nodup root rest _ he
            (fun v hv => hset v (hec v hv)) ?_ ?_
          · refine List.nodup_append.mpr ⟨hg, List.nodup_singleton _, ?_⟩
            intro v hv hm
            have hvo : v = object.uuid := List.mem_singleton.mp hm
            exact h1 (hvo ▸ hgc v hv)
          · intro v hv
            rcases List.mem_append.mp hv with hm1 | hm2
            · exact hset v (hgc v hm1)
            · obtain rfl : v = object.uuid := List.mem_singleton.mp hm2
              exact hself
        | none =>
          simp only [hfg]
          exact Merger.collectDeletions_nodup root rest _ he
            (fun v hv => hset v (hec v hv)) hg (fun v hv => hset v (hgc v hv))


/-- First-occurrence form of `Merger.minDeletionTime`. -/
theorem Merger.minDeletionTime_cons_self (u : Nat) (o : DeletedObject)
    (rest : List DeletedObject) (hou : o.uuid = u) :
    Merger.minDeletionTime u (o :: rest) =
      (rest.filter (fun x => x.uuid == u)).foldl
        (fun t p => min t p.deletionTime) o.deletionTime := by
  rw [Merger.minDeletionTime, List.filter_cons_of_pos (by simp [hou])]

/-- Skipping form of `Merger.minDeletionTime`. -/
theorem Merger.minDeletionTime_cons_skip (u : Nat) (o : DeletedObject)
    (rest : List DeletedObject) (hou : ¬ o.uuid = u) :
    Merger.minDeletionTime u (o :: rest) = Merger.minDeletionTime u rest := by
  rw [Merger.minDeletionTime, Merger.minDeletionTime,
    List.filter_cons_of_neg (by simp [hou])]

/-- A tombstoned UUID carried by a live target entry is queued in the entry
queue at its first occurrence; its binding ends at the minimum deletion time,
it never reaches the group queue, and no tombstone for it is retained
directly by the union loop. -/
theorem Merger.collectDeletions_liveEntry (root : Group) (u : Nat)
    (hlive : (root.findEntryByUuid u).isSome = true) :
    ∀ (L : List DeletedObject) (acc : DelAcc),
      dmContains u acc.mergedDeletions = false →
      u ∈ L.map (fun o => o.uuid) →
      u ∉ acc.groups →
      u ∈ (Merger.collectDeletions root L acc).entries ∧
      u ∉ (Merger.collectDeletions root L acc).groups ∧
      (Merger.collectDeletions root L acc).deletions.filter (fun o => o.uuid == u) =
        acc.deletions.filter (fun o => o.uuid == u) ∧
      dmGet u (Merger.collectDeletions root L acc).mergedDeletions =
        { uuid := u, deletionTime := Merger.minDeletionTime u L }
  | [], _, _, hmem, _ => by simp at hmem
  | object :: rest, acc, hc, hmem, hng => by
    rw [Merger.collectDeletions]
    dsimp only
    by_cases hou : object.uuid = u
    · have h1 : ¬ dmContains object.uuid acc.mergedDeletions = true := by
        rw [hou]
        simp [hc]
      rw [if_neg h1]
      obtain ⟨e, he⟩ := Option.isSome_iff_exists.mp hlive
      have hfe : root.findEntryByUuid object.uuid = some e := by rw [hou]; exact he
      simp only [hfe]
      have hc1 : dmContains u (dmSet object.uuid object acc.mergedDeletions) = true :=
        (dmContains_dmSet u object.uuid object acc.mergedDeletions).mpr (Or.inr hou.symm)
      have hget1 : dmGet u (dmSet object.uuid object acc.mergedDeletions) =
          { uuid := u, deletionTime := object.deletionTime } := by
        rw [hou, dmGet_dmSet_self]
        cases object with
        | mk ou ot => simpa using hou
      obtain ⟨ha, hb, hg, hd⟩ := Merger.collectDeletions_seen root u rest
        { mergedDeletions := dmSet object.uuid object acc.mergedDeletions,
          entries := acc.entries ++ [object.uuid], groups := acc.groups,
          deletions := acc.deletions } hc1
      refine ⟨(Merger.collectDeletions_mono root rest
          { mergedDeletions := dmSet object.uuid object acc.mergedDeletions,
            entries := acc.entries ++ [object.uuid], groups := acc.groups,
            deletions := acc.deletions }).1 u
          (List.mem_append_right _ (by simp [hou])), hg hng, hd, ?_⟩
      have ht := Merger.collectDeletions_time root u rest
        { mergedDeletions := dmSet object.uuid object acc.mergedDeletions,
          entries := acc.entries ++ [object.uuid], groups := acc.groups,
          deletions := acc.deletions } object.deletionTime hc1 hget1
      rw [ht, Merger.minDeletionTime_cons_self u object rest hou]
    · have hmem2 : u ∈ rest.map (fun o => o.uuid) := by
        rcases List.mem_map.mp hmem with ⟨o, ho, hoe⟩
        rcases List.mem_cons.mp ho with rfl | ho2
        · exact absurd hoe hou
        · exact List.mem_map.mpr ⟨o, ho2, hoe⟩
      have hc1 : dmContains u (dmSet object.uuid object acc.mergedDeletions) = false := by
        cases hcb : dmContains u (dmSet object.uuid object acc.mergedDeletions) with
        | false => rfl
        | true =>
          rcases (dmContains_dmSet u object.uuid object acc.mergedDeletions).mp hcb with
            h | h
          · exact absurd h (by simp [hc])
          · exact absurd h.symm hou
      rw [Merger.minDeletionTime_cons_skip u object rest hou]
      by_cases h1 : dmContains object.uuid acc.mergedDeletions = true
      · rw [if_pos h1]
        by_cases h2 : (dmGet object.uuid acc.mergedDeletions).deletionTime >
            object.deletionTime
        · rw [if_pos h2]
          exact Merger.collectDeletions_liveEntry root u hlive rest
            { mergedDeletions := dmSet object.uuid object acc.mergedDeletions,
              entries := acc.entries, groups := acc.groups, deletions := acc.deletions }
            hc1 hmem2 hng
        · rw [if_neg h2]
          exact Merger.collectDeletions_liveEntry root u hlive rest acc hc hmem2 hng
      · rw [if_neg h1]
        cases hfe : root.findEntryByUuid object.uuid with
        | some e1 =>
          simp only [hfe]
          exact Merger.collectDeletions_liveEntry root u hlive rest
            { mergedDeletions := dmSet object.uuid object acc.mergedDeletions,
              entries := acc.entries ++ [object.uuid], groups := acc.groups,
              deletions := acc.deletions } hc1 hmem2 hng
        | none =>
          simp only [hfe]
          cases hfg : root.findGroupByUuid object.uuid with
          | some g1 =>
            simp only [hfg]
            refine Merger.collectDeletions_liveEntry root u hlive rest
              { mergedDeletions := dmSet object.uuid object acc.mergedDeletions,
                entries := acc.entries, groups := acc.groups ++ [object.uuid],
                deletions := acc.deletions } hc1 hmem2 ?_
            intro hm
            rcases List.mem_append.mp hm with hm1 | hm2
            · exact hng hm1
            · exact hou (List.mem_singleton.mp hm2).symm
          | none =>
            simp only [hfg]
            obtain ⟨ha, hb, hd, hm⟩ := Merger.collectDeletions_liveEntry root u hlive rest
              { mergedDeletions := dmSet object.uuid object acc.mergedDeletions,
                entries := acc.entries, groups := acc.groups,
                deletions := acc.deletions ++ [object] } hc1 hmem2 hng
            refine ⟨ha, hb, ?_, hm⟩
            rw [hd]
            show (acc.deletions ++ [object]).filter (fun o => o.uuid == u) =
              acc.deletions.filter (fun o => o.uuid == u)
            rw [List.filter_append]
            have hnil : [object].filter (fun o => o.uuid == u) = [] := by simp [hou]
            rw [hnil, List.append_nil]

/-- A tombstoned UUID carried by a live target group (and no live entry) is
queued in the group queue at its first occurrence; its binding ends at the
minimum deletion time and no tombstone for it is retained directly. -/
theorem Merger.collectDeletions_liveGroup (root : Group) (u : Nat)
    (hde : root.findEntryByUuid u = none)
    (hlive : (root.findGroupByUuid u).isSome = true) :
    ∀ (L : List DeletedObject) (acc : DelAcc),
      dmContains u acc.mergedDeletions = false →
      u ∈ L.map (fun o => o.uuid) →
      u ∈ (Merger.collectDeletions root L acc).groups ∧
      (Merger.collectDeletions root L acc).deletions.filter (fun o => o.uuid == u) =
        acc.deletions.filter (fun o => o.uuid == u) ∧
      dmGet u (Merger.collectDeletions root L acc).mergedDeletions =
        { uuid := u, deletionTime := Merger.minDeletionTime u L }
  | [], _, _, hmem => by simp at hmem
  | object :: rest, acc, hc, hmem => by
    rw [Merger.collectDeletions]
    dsimp only
    by_cases hou : object.uuid = u
    · have h1 : ¬ dmContains object.uuid acc.mergedDeletions = true := by
        rw [hou]
        simp [hc]
      rw [if_neg h1]
      have hfe : root.findEntryByUuid object.uuid = none := by rw [hou]; exact hde
      simp only [hfe]
      obtain ⟨g, hgs⟩ := Option.isSome_iff_exists.mp hlive
      have hfg : root.findGroupByUuid object.uuid = some g := by rw [hou]; exact hgs
      simp only [hfg]
      have hc1 : dmContains u (dmSet object.uuid object acc.mergedDeletions) = true :=
        (dmContains_dmSet u object.uuid object acc.mergedDeletions).mpr (Or.inr hou.symm)
      have hget1 : dmGet u (dmSet object.uuid object acc.mergedDeletions) =
          { uuid := u, deletionTime := object.deletionTime } := by
        rw [hou, dmGet_dmSet_self]
        cases object with
        | mk ou ot => simpa using hou
      obtain ⟨ha, hb, hg, hd⟩ := Merger.collectDeletions_seen root u rest
        { mergedDeletions := dmSet object.uuid object acc.mergedDeletions,
          entries := acc.entries, groups := acc.groups ++ [object.uuid],
          deletions := acc.deletions } hc1
      refine ⟨(Merger.collectDeletions_mono root rest
          { mergedDeletions := dmSet object.uuid object acc.mergedDeletions,
            entries := acc.entries, groups := acc.groups ++ [object.uuid],
            deletions := acc.deletions }).2 u
          (List.mem_append_right _ (by simp [hou])), hd, ?_⟩
      have ht := Merger.collectDeletions_time root u rest
        { mergedDeletions := dmSet object.uuid object acc.mergedDeletions,
          entries := acc.entries, groups := acc.groups ++ [object.uuid],
          deletions := acc.deletions } object.deletionTime hc1 hget1
      rw [ht, Merger.minDeletionTime_cons_self u object rest hou]
    · have hmem2 : u ∈ rest.map (fun o => o.uuid) := by
        rcases List.mem_map.mp hmem with ⟨o, ho, hoe⟩
        rcases List.mem_cons.mp ho with rfl | ho2
        · exact absurd hoe hou
        · exact List.mem_map.mpr ⟨o, ho2, hoe⟩
      have hc1 : dmContains u (dmSet object.uuid object acc.mergedDeletions) = false := by
        cases hcb : dmContains u (dmSet object.uuid object acc.mergedDeletions) with
        | false => rfl
        | true =>
          rcases (dmContains_dmSet u object.uuid object acc.mergedDeletions).mp hcb with
            h | h
          · exact absurd h (by simp [hc])
          · exact absurd h.symm hou
      rw [Merger.minDeletionTime_cons_skip u object rest hou]
      by_cases h1 : dmContains object.uuid acc.mergedDeletions = true
      · rw [if_pos h1]
        by_cases h2 : (dmGet object.uuid acc.mergedDeletions).deletionTime >
            object.deletionTime
        · rw [if_pos h2]
          exact Merger.collectDeletions_liveGroup root u hde hlive rest
            { mergedDeletions := dmSet object.uuid object acc.mergedDeletions,
              entries := acc.entries, groups := acc.groups, deletions := acc.deletions }
            hc1 hmem2
        · rw [if_neg h2]
          exact Merger.collectDeletions_liveGroup root u hde hlive rest acc hc hmem2
      · rw [if_neg h1]
        cases hfe : root.findEntryByUuid object.uuid with
        | some e1 =>
          simp only [hfe]
          exact Merger.collectDeletions_liveGroup root u hde hlive rest
            { mergedDeletions := dmSet object.uuid object acc.mergedDeletions,
              entries := acc.entries ++ [object.uuid], groups := acc.groups,
              deletions := acc.deletions } hc1 hmem2
        | none =>
          simp only [hfe]
          cases hfg : root.findGroupByUuid object.uuid with
          | some g1 =>
            simp only [hfg]
            exact Merger.collectDeletions_liveGroup root u hde hlive rest
              { mergedDeletions := dmSet object.uuid object acc.mergedDeletions,
                entries := acc.entries, groups := acc.groups ++ [object.uuid],
                deletions := acc.deletions } hc1 hmem2
          | none =>
            simp only [hfg]
            obtain ⟨ha, hd, hm⟩ := Merger.collectDeletions_liveGroup root u hde hlive rest
              { mergedDeletions := dmSet object.uuid object acc.mergedDeletions,
                entries := acc.entries, groups := acc.groups,
                deletions := acc.deletions ++ [object] } hc1 hmem2
            refine ⟨ha, ?_, hm⟩
            rw [hd]
            show (acc.deletions ++ [object]).filter (fun o => o.uuid == u) =
              acc.deletions.filter (fun o => o.uuid == u)
            rw [List.filter_append]
            have hnil : [object].filter (fun o => o.uuid == u) = [] := by simp [hou]
            rw [hnil, List.append_nil]

/-- A tombstoned UUID with no live object in the target is retained directly
at its FIRST occurrence (the target side precedes the source side), and only
that first-seen tombstone is retained for it; it is never queued. -/
theorem Merger.collectDeletions_dead (root : Group) (u : Nat)
    (hde : root.findEntryByUuid u = none) (hdg : root.findGroupByUuid u = none) :
    ∀ (L : List DeletedObject) (acc : DelAcc),
      dmContains u acc.mergedDeletions = false →
      u ∉ acc.entries → u ∉ acc.groups →
      (Merger.collectDeletions root L acc).deletions.filter (fun o => o.uuid == u) =
        acc.deletions.filter (fun o => o.uuid == u) ++
          (L.filter (fun o => o.uuid == u)).take 1 ∧
      u ∉ (Merger.collectDeletions root L acc).entries ∧
      u ∉ (Merger.collectDeletions root L acc).groups
  | [], acc, _, hne, hng => by
    rw [Merger.collectDeletions]
    exact ⟨by simp, hne, hng⟩
  | object :: rest, acc, hc, hne, hng => by
    rw [Merger.collectDeletions]
    dsimp only
    by_cases hou : object.uuid = u
    · have h1 : ¬ dmContains object.uuid acc.mergedDeletions = true := by
        rw [hou]
        simp [hc]
      rw [if_neg h1]
      have hfe : root.findEntryByUuid object.uuid = none := by rw [hou]; exact hde
      simp only [hfe]
      have hfg : root.findGroupByUuid object.uuid = none := by rw [hou]; exact hdg
      simp only [hfg]
      have hc1 : dmContains u (dmSet object.uuid object acc.mergedDeletions) = true :=
        (dmContains_dmSet u object.uuid object acc.mergedDeletions).mpr (Or.inr hou.symm)
      obtain ⟨ha, hb, hg, hd⟩ := Merger.collectDeletions_seen root u rest
        { mergedDeletions := dmSet object.uuid object acc.mergedDeletions,
          entries := acc.entries, groups := acc.groups,
          deletions := acc.deletions ++ [object] } hc1
      refine ⟨?_, hb hne, hg hng⟩
      rw [hd]
      show (acc.deletions ++ [object]).filter (fun o => o.uuid == u) =
        acc.deletions.filter (fun o => o.uuid == u) ++
          ((object :: rest).filter (fun o => o.uuid == u)).take 1
      rw [List.filter_append]
      have hrhs : ((object :: rest).filter (fun o => o.uuid == u)).take 1 = [object] := by
        rw [List.filter_cons_of_pos (by simp [hou])]
        rfl
      rw [hrhs]
      have hone : [object].filter (fun o => o.uuid == u) = [object] := by simp [hou]
      rw [hone]
    · have hc1 : dmContains u (dmSet object.uuid object acc.mergedDeletions) = false := by
        cases hcb : dmContains u (dmSet object.uuid object acc.mergedDeletions) with
        | false => rfl
        | true =>
          rcases (dmContains_dmSet u object.uuid object acc.mergedDeletions).mp hcb with
            h | h
          · exact absurd h (by simp [hc])
          · exact absurd h.symm hou
      have hskip : ((object :: rest).filter (fun o => o.uuid == u)).take 1 =
          (rest.filter (fun o => o.uuid == u)).take 1 := by
        rw [List.filter_cons_of_neg (by simp [hou])]
      rw [hskip]
      by_cases h1 : dmContains object.uuid acc.mergedDeletions = true
      · rw [if_pos h1]
        by_cases h2 : (dmGet object.uuid acc.mergedDeletions).deletionTime >
            object.deletionTime
        · rw [if_pos h2]
          exact Merger.collectDeletions_dead root u hde hdg rest
            { mergedDeletions := dmSet object.uuid object acc.mergedDeletions,
              entries := acc.entries, groups := acc.groups, deletions := acc.deletions }
            hc1 hne hng
        · rw [if_neg h2]
          exact Merger.collectDeletions_dead root u hde hdg rest acc hc hne hng
      · rw [if_neg h1]
        cases hfe : root.findEntryByUuid object.uuid with
        | some e1 =>
          simp only [hfe]
          refine Merger.collectDeletions_dead root u hde hdg rest
            { mergedDeletions := dmSet object.uuid object acc.mergedDeletions,
              entries := acc.entries ++ [object.uuid], groups := acc.groups,
              deletions := acc.deletions } hc1 ?_ hng
          intro hm
          rcases List.mem_append.mp hm with hm1 | hm2
          · exact hne hm1
          · exact hou (List.mem_singleton.mp hm2).symm
        | none =>
          simp only [hfe]
          cases hfg : root.findGroupByUuid object.uuid with
          | some g1 =>
            simp only [hfg]
            refine Merger.collectDeletions_dead root u hde hdg rest
              { mergedDeletions := dmSet object.uuid object acc.mergedDeletions,
                entries := acc.entries, groups := acc.groups ++ [object.uuid],
                deletions := acc.deletions } hc1 hne ?_
            intro hm
            rcases List.mem_append.mp hm with hm1 | hm2
            · exact hng hm1
            · exact hou (List.mem_singleton.mp hm2).symm
          | none =>
            simp only [hfg]
            obtain ⟨hd, hb, hg⟩ := Merger.collectDeletions_dead root u hde hdg rest
              { mergedDeletions := dmSet object.uuid object acc.mergedDeletions,
                entries := acc.entries, groups := acc.groups,
                deletions := acc.deletions ++ [object] } hc1 hne hng
            refine ⟨?_, hb, hg⟩
            rw [hd]
            show (acc.deletions ++ [object]).filter (fun o => o.uuid == u) ++
                (rest.filter (fun o => o.uuid == u)).take 1 =
              acc.deletions.filter (fun o => o.uuid == u) ++
                (rest.filter (fun o => o.uuid == u)).take 1
            rw [List.filter_append]
            have hnil : [object].filter (fun o => o.uuid == u) = [] := by simp [hou]
            rw [hnil, List.append_nil]


/-! ## Deletion pass, part 3: the live-entry loop -/

/-- An absent entry UUID stays absent after removing any entry. -/
theorem Group.findEntry_removeEntryFirst_none (g : Group) (x w : Nat)
    (h : g.findEntryByUuid x = none) :
    (g.removeEntryFirst w).findEntryByUuid x = none := by
  cases hf : (g.removeEntryFirst w).findEntryByUuid x with
  | none => rfl
  | some e =>
    have hmem := (Group.findEntry_isSome_iff (g.removeEntryFirst w) x).mp (by simp [hf])
    rw [Group.entryUuids_removeEntryFirst] at hmem
    have hmem2 : x ∈ g.entryUuids := List.mem_of_mem_erase hmem
    have := (Group.findEntry_isSome_iff g x).mpr hmem2
    simp [h] at this

/-- Entries not in the queue are untouched by the live-entry loop, and no
tombstone for them is appended. -/
theorem Merger.deleteEntries_frame (merged : List (Nat × DeletedObject))
    (hm : ∀ p ∈ merged, (Prod.snd p).uuid = p.1) (u : Nat) :
    ∀ (E : List Nat) (root : Group) (dels : List DeletedObject) (cs : List Change),
      u ∉ E →
      (Merger.deleteEntries merged E root dels cs).1.findEntryByUuid u =
        root.findEntryByUuid u ∧
      (Merger.deleteEntries merged E root dels cs).2.1.filter (fun o => o.uuid == u) =
        dels.filter (fun o => o.uuid == u)
  | [], root, dels, cs, _ => ⟨rfl, rfl⟩
  | v :: E, root, dels, cs, hu => by
    have hvu : u ≠ v := fun h => hu (h ▸ List.mem_cons_self v E)
    have huE : u ∉ E := fun h => hu (List.mem_cons_of_mem v h)
    rw [Merger.deleteEntries]
    cases hf : root.findEntryByUuid v with
    | none =>
      simp only [hf]
      exact Merger.deleteEntries_frame merged hm u E root dels cs huE
    | some entry =>
      simp only [hf]
      by_cases ht : entry.data.timeInfo.lastModificationTime > (dmGet v merged).deletionTime
      · rw [if_pos ht]
        exact Merger.deleteEntries_frame merged hm u E root dels cs huE
      · rw [if_neg ht]
        obtain ⟨h1, h2⟩ := Merger.deleteEntries_frame merged hm u E (root.removeEntryFirst v)
          (dels ++ [dmGet v merged]) (cs ++ [Change.deleting v]) huE
        refine ⟨?_, ?_⟩
        · rw [h1, Group.findEntry_removeEntryFirst_ne root u v hvu]
        · rw [h2, List.filter_append]
          have hnil : [dmGet v merged].filter (fun o => o.uuid == u) = [] := by
            have hvne : (dmGet v merged).uuid = v := dmGet_uuid v merged hm
            simp [hvne, Ne.symm hvu]
          rw [hnil, List.append_nil]

/-- An absent entry UUID stays absent through the live-entry loop. -/
theorem Merger.deleteEntries_none (merged : List (Nat × DeletedObject)) (x : Nat) :
    ∀ (E : List Nat) (root : Group) (dels : List DeletedObject) (cs : List Change),
      root.findEntryByUuid x = none →
      (Merger.deleteEntries merged E root dels cs).1.findEntryByUuid x = none
  | [], _, _, _, h => h
  | v :: E, root, dels, cs, h => by
    rw [Merger.deleteEntries]
    cases hf : root.findEntryByUuid v with
    | none =>
      simp only [hf]
      exact Merger.deleteEntries_none merged x E root dels cs h
    | some entry =>
      simp only [hf]
      by_cases ht : entry.data.timeInfo.lastModificationTime > (dmGet v merged).deletionTime
      · rw [if_pos ht]
        exact Merger.deleteEntries_none merged x E root dels cs h
      · rw [if_neg ht]
        exact Merger.deleteEntries_none merged x E (root.removeEntryFirst v)
          (dels ++ [dmGet v merged]) (cs ++ [Change.deleting v])
          (Group.findEntry_removeEntryFirst_none root x v h)

/-- The live-entry loop keeps entry UUIDs duplicate-free and never touches
the group structure. -/
theorem Merger.deleteEntries_wf (merged : List (Nat × DeletedObject)) :
    ∀ (E : List Nat) (root : Group) (dels : List DeletedObject) (cs : List Change),
      root.entryUuids.Nodup →
      (Merger.deleteEntries merged E root dels cs).1.entryUuids.Nodup ∧
      (Merger.deleteEntries merged E root dels cs).1.groupUuids = root.groupUuids
  | [], _, _, _, h => ⟨h, rfl⟩
  | v :: E, root, dels, cs, h => by
    rw [Merger.deleteEntries]
    cases hf : root.findEntryByUuid v with
    | none =>
      simp only [hf]
      exact Merger.deleteEntries_wf merged E root dels cs h
    | some entry =>
      simp only [hf]
      by_cases ht : entry.data.timeInfo.lastModificationTime > (dmGet v merged).deletionTime
      · rw [if_pos ht]
        exact Merger.deleteEntries_wf merged E root dels cs h
      · rw [if_neg ht]
        have h2 : (root.removeEntryFirst v).entryUuids.Nodup := by
          rw [Group.entryUuids_removeEntryFirst]
          exact h.erase v
        obtain ⟨ha, hb⟩ := Merger.deleteEntries_wf merged E (root.removeEntryFirst v)
          (dels ++ [dmGet v merged]) (cs ++ [Change.deleting v]) h2
        exact ⟨ha, hb.trans (Group.groupUuids_removeEntryFirst root v)⟩

/-- The live-entry loop decides each queued entry exactly once: an entry
modified (at native precision) after the merged deletion time is kept and no
tombstone for it is appended; an older entry is erased and the merged
tombstone is appended. -/
theorem Merger.deleteEntries_spec (merged : List (Nat × DeletedObject))
    (hm : ∀ p ∈ merged, (Prod.snd p).uuid = p.1) (u : Nat) (e : Entry) :
    ∀ (E : List Nat) (root : Group) (dels : List DeletedObject) (cs : List Change),
      E.Nodup → u ∈ E → root.entryUuids.Nodup →
      root.findEntryByUuid u = some e →
      (e.data.timeInfo.lastModificationTime > (dmGet u merged).deletionTime →
        (Merger.deleteEntries merged E root dels cs).1.findEntryByUuid u = some e ∧
        (Merger.deleteEntries merged E root dels cs).2.1.filter (fun o => o.uuid == u) =
          dels.filter (fun o => o.uuid == u)) ∧
      (¬ e.data.timeInfo.lastModificationTime > (dmGet u merged).deletionTime →
        (Merger.deleteEntries merged E root dels cs).1.findEntryByUuid u = none ∧
        (Merger.deleteEntries merged E root dels cs).2.1.filter (fun o => o.uuid == u) =
          dels.filter (fun o => o.uuid == u) ++ [dmGet u merged])
  | [], _, _, _, _, hmem, _, _ => absurd hmem (List.not_mem_nil u)
  | v :: E, root, dels, cs, hnd, hmem, hwfE, hfind => by
    rw [Merger.deleteEntries]
    by_cases hvu : v = u
    · subst hvu
      simp only [hfind]
      have hvE : v ∉ E := (List.nodup_cons.mp hnd).1
      by_cases ht : e.data.timeInfo.lastModificationTime > (dmGet v merged).deletionTime
      · rw [if_pos ht]
        obtain ⟨h1, h2⟩ := Merger.deleteEntries_frame merged hm v E root dels cs hvE
        exact ⟨fun _ => ⟨h1.trans hfind, h2⟩, fun hcon => absurd ht hcon⟩
      · rw [if_neg ht]
        obtain ⟨h1, h2⟩ := Merger.deleteEntries_frame merged hm v E (root.removeEntryFirst v)
          (dels ++ [dmGet v merged]) (cs ++ [Change.deleting v]) hvE
        refine ⟨fun hcon => absurd hcon ht, fun _ => ⟨?_, ?_⟩⟩
        · rw [h1, Group.findEntry_removeEntryFirst_self root v hwfE]
        · rw [h2, List.filter_append]
          have hkeep : [dmGet v merged].filter (fun o => o.uuid == v) =
              [dmGet v merged] := by
            simp [dmGet_uuid v merged hm]
          rw [hkeep]
    · have hmem2 : u ∈ E := by
        rcases List.mem_cons.mp hmem with h | h
        · exact absurd h.symm hvu
        · exact h
      have hnd2 : E.Nodup := (List.nodup_cons.mp hnd).2
      cases hf : root.findEntryByUuid v with
      | none =>
        simp only [hf]
        exact Merger.deleteEntries_spec merged hm u e E root dels cs hnd2 hmem2 hwfE hfind
      | some entry =>
        simp only [hf]
        by_cases ht : entry.data.timeInfo.lastModificationTime > (dmGet v merged).deletionTime
        · rw [if_pos ht]
          exact Merger.deleteEntries_spec merged hm u e E root dels cs hnd2 hmem2 hwfE hfind
        · rw [if_neg ht]
          have hwfE2 : (root.removeEntryFirst v).entryUuids.Nodup := by
            rw [Group.entryUuids_removeEntryFirst]
            exact hwfE.erase v
          have hfind2 : (root.removeEntryFirst v).findEntryByUuid u = some e := by
            rw [Group.findEntry_removeEntryFirst_ne root u v (fun h => hvu h.symm)]
            exact hfind
          obtain ⟨hk, hd⟩ := Merger.deleteEntries_spec merged hm u e E
            (root.removeEntryFirst v) (dels ++ [dmGet v merged])
            (cs ++ [Change.deleting v]) hnd2 hmem2 hwfE2 hfind2
          have hfa : (dels ++ [dmGet v merged]).filter (fun o => o.uuid == u) =
              dels.filter (fun o => o.uuid == u) := by
            rw [List.filter_append]
            have hnil : [dmGet v merged].filter (fun o => o.uuid == u) = [] := by
              have hvne : (dmGet v merged).uuid = v := dmGet_uuid v merged hm
              simp [hvne, fun h : v = u => hvu h]
            rw [hnil, List.append_nil]
          constructor
          · intro hh
            obtain ⟨ha, hb⟩ := hk hh
            exact ⟨ha, by rw [hb, hfa]⟩
          · intro hh
            obtain ⟨ha, hb⟩ := hd hh
            exact ⟨ha, by rw [hb, hfa]⟩

/-- Through the live-entry loop, the subtree found at a fixed group UUID
keeps its data and group structure, and each of its entries either survives
inside it or is gone from the whole tree. -/
theorem Merger.deleteEntries_groupProj (merged : List (Nat × DeletedObject)) (w : Nat) :
    ∀ (E : List Nat) (root : Group) (dels : List DeletedObject) (cs : List Change)
      (t : Group),
      root.entryUuids.Nodup → root.findGroupByUuid w = some t →
      ∃ t1, (Merger.deleteEntries merged E root dels cs).1.findGroupByUuid w = some t1 ∧
        t1.data = t.data ∧ t1.groupUuids = t.groupUuids ∧
        ∀ x ∈ t.entryUuids, x ∈ t1.entryUuids ∨
          (Merger.deleteEntries merged E root dels cs).1.findEntryByUuid x = none
  | [], _, _, _, t, _, hfg => ⟨t, hfg, rfl, rfl, fun x hx => Or.inl hx⟩
  | v :: E, root, dels, cs, t, hwfE, hfg => by
    rw [Merger.deleteEntries]
    cases hf : root.findEntryByUuid v with
    | none =>
      simp only [hf]
      exact Merger.deleteEntries_groupProj merged w E root dels cs t hwfE hfg
    | some entry =>
      simp only [hf]
      by_cases ht : entry.data.timeInfo.lastModificationTime > (dmGet v merged).deletionTime
      · rw [if_pos ht]
        exact Merger.deleteEntries_groupProj merged w E root dels cs t hwfE hfg
      · rw [if_neg ht]
        have hproj := Group.findGroup_removeEntryFirst_proj root v hwfE w
        rw [hfg, Option.map_some'] at hproj
        cases hfr : (root.removeEntryFirst v).findGroupByUuid w with
        | none =>
          rw [hfr] at hproj
          exact absurd hproj (by simp)
        | some t2 =>
          rw [hfr, Option.map_some'] at hproj
          have ht2 : t2.data = t.data ∧ t2.entryUuids = t.entryUuids.erase v ∧
              t2.groupUuids = t.groupUuids := by simpa using hproj
          have hwfE2 : (root.removeEntryFirst v).entryUuids.Nodup := by
            rw [Group.entryUuids_removeEntryFirst]
            exact hwfE.erase v
          obtain ⟨t1, hfind1, hdata1, hgrp1, hdich⟩ :=
            Merger.deleteEntries_groupProj merged w E (root.removeEntryFirst v)
              (dels ++ [dmGet v merged]) (cs ++ [Change.deleting v]) t2 hwfE2 hfr
          refine ⟨t1, hfind1, hdata1.trans ht2.1, hgrp1.trans ht2.2.2, ?_⟩
          intro x hx
          by_cases hxv : x = v
          · subst hxv
            exact Or.inr (Merger.deleteEntries_none merged x E (root.removeEntryFirst x)
              (dels ++ [dmGet x merged]) (cs ++ [Change.deleting x])
              (Group.findEntry_removeEntryFirst_self root x hwfE))
          · have hx2 : x ∈ t2.entryUuids := by
              rw [ht2.2.1]
              exact (List.mem_erase_of_ne hxv).mpr hx
            exact hdich x hx2


/-! ## Deletion pass, part 4: the live-group loop -/

/-- A group with no entries and no strict descendants is a leaf node. -/
theorem Group.eq_leaf_of_empty :
    ∀ (g : Group), g.entryUuids = [] → Group.strictDescendantGroupUuids g = [] →
      ∃ dv, g = Group.node dv [] []
  | .node d es gs, he, hd => by
    refine ⟨d, ?_⟩
    rw [Group.strictDescendantGroupUuids, Group.children] at hd
    have hgs : gs = [] := by
      cases gs with
      | nil => rfl
      | cons c cc =>
        rw [Group.groupUuidsIn] at hd
        cases c with
        | node dc ec gc =>
          rw [Group.groupUuids] at hd
          exact absurd hd (by simp)
    subst hgs
    have hes : es = [] := by
      cases es with
      | nil => rfl
      | cons a l =>
        rw [Group.entryUuids, Group.entryUuidsIn] at he
        simp at he
    subst hes
    rfl

/-- A group search at the root's own UUID returns the root itself. -/
theorem Group.eq_of_findGroup_root (g : Group) (v : Nat) (t : Group)
    (hv : g.data.uuid = v) (hf : g.findGroupByUuid v = some t) : g = t := by
  cases g with
  | node d es gs =>
    rw [Group.findGroupByUuid, if_pos (by simpa using hv)] at hf
    exact Option.some.inj hf

/-- The pre-order group UUID list starts with the node's own UUID. -/
theorem Group.groupUuids_eq_cons (g : Group) :
    g.groupUuids = g.data.uuid :: Group.strictDescendantGroupUuids g := by
  cases g with
  | node d es gs => rfl

/-- A UUID outside the group UUID list is not found. -/
theorem Group.findGroup_none_of_not_mem (g : Group) (w : Nat)
    (h : w ∉ g.groupUuids) : g.findGroupByUuid w = none := by
  cases hf : g.findGroupByUuid w with
  | none => rfl
  | some t => exact absurd ((Group.findGroup_isSome_iff g w).mp (by simp [hf])) h

/-- The live-group loop never touches entries: only empty leaf groups are
ever erased. -/
theorem Merger.deleteGroups_findEntry (merged : List (Nat × DeletedObject)) :
    ∀ (fuel : Nat) (Q : List Nat) (root : Group) (dels : List DeletedObject)
      (cs : List Change) (out : Group × List DeletedObject × List Change),
      Merger.deleteGroups merged fuel Q root dels cs = some out →
      ∀ x, out.1.findEntryByUuid x = root.findEntryByUuid x
  | fuel, [], root, dels, cs, out, h => by
    rw [Merger.deleteGroups] at h
    obtain rfl : (root, dels, cs) = out := Option.some.inj h
    exact fun x => rfl
  | 0, v :: Q, root, dels, cs, out, h => by
    rw [Merger.deleteGroups] at h
    exact absurd h (by simp)
  | fuel + 1, v :: Q, root, dels, cs, out, h => by
    rw [Merger.deleteGroups] at h
    cases hfg : root.findGroupByUuid v with
    | none =>
      simp only [hfg] at h
      exact Merger.deleteGroups_findEntry merged fuel Q root dels cs out h
    | some group =>
      simp only [hfg] at h
      by_cases hch : ((group.children.map Group.uuid).any (fun c => Q.contains c)) = true
      · rw [if_pos hch] at h
        exact Merger.deleteGroups_findEntry merged fuel (Q ++ [v]) root dels cs out h
      · rw [if_neg hch] at h
        by_cases htm : group.data.timeInfo.lastModificationTime >
            (dmGet v merged).deletionTime
        · rw [if_pos htm] at h
          exact Merger.deleteGroups_findEntry merged fuel Q root dels cs out h
        · rw [if_neg htm] at h
          by_cases hne2 : (!group.entryUuids.isEmpty ||
              !(Group.strictDescendantGroupUuids group).isEmpty) = true
          · rw [if_pos hne2] at h
            exact Merger.deleteGroups_findEntry merged fuel Q root dels cs out h
          · rw [if_neg hne2] at h
            have hEe : group.entryUuids = [] := by
              cases hq : group.entryUuids with
              | nil => rfl
              | cons a l => exact absurd (by simp [hq]) hne2
            have hEd : Group.strictDescendantGroupUuids group = [] := by
              cases hq : Group.strictDescendantGroupUuids group with
              | nil => rfl
              | cons a l => exact absurd (by simp [hq]) hne2
            obtain ⟨dv, rfl⟩ := Group.eq_leaf_of_empty group hEe hEd
            have hspec := Group.removeGroupLeaf_spec root v dv hfg
            intro x
            rw [Merger.deleteGroups_findEntry merged fuel Q (root.removeGroupFirst v)
              (dels ++ [dmGet v merged]) (cs ++ [Change.deleting v]) out h x,
              hspec.1 x]

/-- Tombstones of UUIDs outside the group queue are not appended by the
live-group loop. -/
theorem Merger.deleteGroups_delsFilter (merged : List (Nat × DeletedObject))
    (hm : ∀ p ∈ merged, (Prod.snd p).uuid = p.1) (u : Nat) :
    ∀ (fuel : Nat) (Q : List Nat) (root : Group) (dels : List DeletedObject)
      (cs : List Change) (out : Group × List DeletedObject × List Change),
      Merger.deleteGroups merged fuel Q root dels cs = some out →
      u ∉ Q →
      out.2.1.filter (fun o => o.uuid == u) = dels.filter (fun o => o.uuid == u)
  | fuel, [], root, dels, cs, out, h, _ => by
    rw [Merger.deleteGroups] at h
    obtain rfl : (root, dels, cs) = out := Option.some.inj h
    rfl
  | 0, v :: Q, root, dels, cs, out, h, _ => by
    rw [Merger.deleteGroups] at h
    exact absurd h (by simp)
  | fuel + 1, v :: Q, root, dels, cs, out, h, hu => by
    have hvu : u ≠ v := fun hh => hu (hh ▸ List.mem_cons_self v Q)
    have huQ : u ∉ Q := fun hh => hu (List.mem_cons_of_mem v hh)
    have huQ2 : u ∉ Q ++ [v] := by
      intro hh
      rcases List.mem_append.mp hh with h1 | h2
      · exact huQ h1
      · exact hvu (List.mem_singleton.mp h2)
    rw [Merger.deleteGroups] at h
    cases hfg : root.findGroupByUuid v with
    | none =>
      simp only [hfg] at h
      exact Merger.deleteGroups_delsFilter merged hm u fuel Q root dels cs out h huQ
    | some group =>
      simp only [hfg] at h
      by_cases hch : ((group.children.map Group.uuid).any (fun c => Q.contains c)) = true
      · rw [if_pos hch] at h
        exact Merger.deleteGroups_delsFilter merged hm u fuel (Q ++ [v]) root dels cs
          out h huQ2
      · rw [if_neg hch] at h
        by_cases htm : group.data.timeInfo.lastModificationTime >
            (dmGet v merged).deletionTime
        · rw [if_pos htm] at h
          exact Merger.deleteGroups_delsFilter merged hm u fuel Q root dels cs out h huQ
        · rw [if_neg htm] at h
          by_cases hne2 : (!group.entryUuids.isEmpty ||
              !(Group.strictDescendantGroupUuids group).isEmpty) = true
          · rw [if_pos hne2] at h
            exact Merger.deleteGroups_delsFilter merged hm u fuel Q root dels cs out h huQ
          · rw [if_neg hne2] at h
            have hrec := Merger.deleteGroups_delsFilter merged hm u fuel Q
              (root.removeGroupFirst v) (dels ++ [dmGet v merged])
              (cs ++ [Change.deleting v]) out h huQ
            rw [hrec, List.filter_append]
            have hnil : [dmGet v merged].filter (fun o => o.uuid == u) = [] := by
              have hvne : (dmGet v merged).uuid = v := dmGet_uuid v merged hm
              simp [hvne, Ne.symm hvu]
            rw [hnil, List.append_nil]

/-- A group UUID absent from the tree stays absent through the live-group
loop. -/
theorem Merger.deleteGroups_groupNone (merged : List (Nat × DeletedObject)) (w : Nat) :
    ∀ (fuel : Nat) (Q : List Nat) (root : Group) (dels : List DeletedObject)
      (cs : List Change) (out : Group × List DeletedObject × List Change),
      Merger.deleteGroups merged fuel Q root dels cs = some out →
      root.findGroupByUuid w = none →
      out.1.findGroupByUuid w = none
  | fuel, [], root, dels, cs, out, h, hw => by
    rw [Merger.deleteGroups] at h
    obtain rfl : (root, dels, cs) = out := Option.some.inj h
    exact hw
  | 0, v :: Q, root, dels, cs, out, h, _ => by
    rw [Merger.deleteGroups] at h
    exact absurd h (by simp)
  | fuel + 1, v :: Q, root, dels, cs, out, h, hw => by
    rw [Merger.deleteGroups] at h
    cases hfg : root.findGroupByUuid v with
    | none =>
      simp only [hfg] at h
      exact Merger.deleteGroups_groupNone merged w fuel Q root dels cs out h hw
    | some group =>
      simp only [hfg] at h
      by_cases hch : ((group.children.map Group.uuid).any (fun c => Q.contains c)) = true
      · rw [if_pos hch] at h
        exact Merger.deleteGroups_groupNone merged w fuel (Q ++ [v]) root dels cs out h hw
      · rw [if_neg hch] at h
        by_cases htm : group.data.timeInfo.lastModificationTime >
            (dmGet v merged).deletionTime
        · rw [if_pos htm] at h
          exact Merger.deleteGroups_groupNone merged w fuel Q root dels cs out h hw
        · rw [if_neg htm] at h
          by_cases hne2 : (!group.entryUuids.isEmpty ||
              !(Group.strictDescendantGroupUuids group).isEmpty) = true
          · rw [if_pos hne2] at h
            exact Merger.deleteGroups_groupNone merged w fuel Q root dels cs out h hw
          · rw [if_neg hne2] at h
            have hEe : group.entryUuids = [] := by
              cases hq : group.entryUuids with
              | nil => rfl
              | cons a l => exact absurd (by simp [hq]) hne2
            have hEd : Group.strictDescendantGroupUuids group = [] := by
              cases hq : Group.strictDescendantGroupUuids group with
              | nil => rfl
              | cons a l => exact absurd (by simp [hq]) hne2
            obtain ⟨dv, rfl⟩ := Group.eq_leaf_of_empty group hEe hEd
            by_cases hvr : v = root.data.uuid
            · have hroot : root = Group.node dv [] [] :=
                Group.eq_of_findGroup_root root v (Group.node dv [] []) hvr.symm hfg
              subst hroot
              have hrr : (Group.node dv [] []).removeGroupFirst v = Group.node dv [] [] := by
                rw [Group.removeGroupFirst, Group.removeGroupFirstIn]
              rw [hrr] at h
              exact Merger.deleteGroups_groupNone merged w fuel Q (Group.node dv [] [])
                (dels ++ [dmGet v merged]) (cs ++ [Change.deleting v]) out h hw
            · have hspec := Group.removeGroupLeaf_spec root v dv hfg
              have hgu : (root.removeGroupFirst v).groupUuids = root.groupUuids.erase v :=
                hspec.2.2 hvr
              have hw2 : (root.removeGroupFirst v).findGroupByUuid w = none := by
                refine Group.findGroup_none_of_not_mem _ w ?_
                rw [hgu]
                intro hm
                exact absurd ((Group.findGroup_isSome_iff root w).mpr
                  (List.mem_of_mem_erase hm)) (by simp [hw])
              exact Merger.deleteGroups_groupNone merged w fuel Q (root.removeGroupFirst v)
                (dels ++ [dmGet v merged]) (cs ++ [Change.deleting v]) out h hw2


/-- If the live-group loop erased a tombstoned group, the group's recorded
modification time did not exceed its merged deletion time, and every entry
and every strict descendant of the subtree found for it when the loop
started is gone from the resulting tree. -/
theorem Merger.deleteGroups_spec (merged : List (Nat × DeletedObject)) (u : Nat) :
    ∀ (fuel : Nat) (Q : List Nat) (root : Group) (dels : List DeletedObject)
      (cs : List Change) (out : Group × List DeletedObject × List Change) (t : Group),
      Merger.deleteGroups merged fuel Q root dels cs = some out →
      root.entryUuids.Nodup → root.groupUuids.Nodup → Q.Nodup →
      root.findGroupByUuid u = some t →
      out.1.findGroupByUuid u = none →
      t.data.timeInfo.lastModificationTime ≤ (dmGet u merged).deletionTime ∧
      (∀ x ∈ t.entryUuids, out.1.findEntryByUuid x = none) ∧
      (∀ w ∈ Group.strictDescendantGroupUuids t, out.1.findGroupByUuid w = none)
  | fuel, [], root, dels, cs, out, t, h, _, _, _, hfind, hnone => by
    rw [Merger.deleteGroups] at h
    obtain rfl : (root, dels, cs) = out := Option.some.inj h
    exact absurd hnone (by simp [hfind])
  | 0, v :: Q, root, dels, cs, out, t, h, _, _, _, _, _ => by
    rw [Merger.deleteGroups] at h
    exact absurd h (by simp)
  | fuel + 1, v :: Q, root, dels, cs, out, t, h, hwfE, hwfG, hQ, hfind, hnone => by
    have hQ2 : Q.Nodup := (List.nodup_cons.mp hQ).2
    rw [Merger.deleteGroups] at h
    cases hfg : root.findGroupByUuid v with
    | none =>
      simp only [hfg] at h
      exact Merger.deleteGroups_spec merged u fuel Q root dels cs out t h
        hwfE hwfG hQ2 hfind hnone
    | some group =>
      simp only [hfg] at h
      by_cases hch : ((group.children.map Group.uuid).any (fun c => Q.contains c)) = true
      · rw [if_pos hch] at h
        have hQ3 : (Q ++ [v]).Nodup := by
          refine List.nodup_append.mpr ⟨hQ2, List.nodup_singleton v, ?_⟩
          intro a ha hm
          obtain rfl : a = v := List.mem_singleton.mp hm
          exact (List.nodup_cons.mp hQ).1 ha
        exact Merger.deleteGroups_spec merged u fuel (Q ++ [v]) root dels cs out t h
          hwfE hwfG hQ3 hfind hnone
      · rw [if_neg hch] at h
        by_cases htm : group.data.timeInfo.lastModificationTime >
            (dmGet v merged).deletionTime
        · rw [if_pos htm] at h
          exact Merger.deleteGroups_spec merged u fuel Q root dels cs out t h
            hwfE hwfG hQ2 hfind hnone
        · rw [if_neg htm] at h
          by_cases hne2 : (!group.entryUuids.isEmpty ||
              !(Group.strictDescendantGroupUuids group).isEmpty) = true
          · rw [if_pos hne2] at h
            exact Merger.deleteGroups_spec merged u fuel Q root dels cs out t h
              hwfE hwfG hQ2 hfind hnone
          · rw [if_neg hne2] at h
            have hEe : group.entryUuids = [] := by
              cases hq : group.entryUuids with
              | nil => rfl
              | cons a l => exact absurd (by simp [hq]) hne2
            have hEd : Group.strictDescendantGroupUuids group = [] := by
              cases hq : Group.strictDescendantGroupUuids group with
              | nil => rfl
              | cons a l => exact absurd (by simp [hq]) hne2
            obtain ⟨dv, rfl⟩ := Group.eq_leaf_of_empty group hEe hEd
            by_cases hvr : v = root.data.uuid
            · have hroot : root = Group.node dv [] [] :=
                Group.eq_of_findGroup_root root v (Group.node dv [] []) hvr.symm hfg
              subst hroot
              have hrr : (Group.node dv [] []).removeGroupFirst v =
                  Group.node dv [] [] := by
                rw [Group.removeGroupFirst, Group.removeGroupFirstIn]
              rw [hrr] at h
              exact Merger.deleteGroups_spec merged u fuel Q (Group.node dv [] [])
                (dels ++ [dmGet v merged]) (cs ++ [Change.deleting v]) out t h
                hwfE hwfG hQ2 hfind hnone
            · by_cases huv : u = v
              · subst huv
                have ht : t = Group.node dv [] [] :=
                  Option.some.inj (hfind.symm.trans hfg)
                subst ht
                refine ⟨Nat.le_of_not_lt htm, ?_, ?_⟩
                · intro x hx
                  exact absurd hx (by simp [Group.entryUuids, Group.entryUuidsIn])
                · intro w hw
                  exact absurd hw
                    (by simp [Group.strictDescendantGroupUuids, Group.children,
                      Group.groupUuidsIn])
              · have hspec := Group.removeGroupLeaf_spec root v dv hfg
                have hgu : (root.removeGroupFirst v).groupUuids =
                    root.groupUuids.erase v := hspec.2.2 hvr
                have hproj := Group.findGroup_removeGroupLeaf_proj root v dv hwfG hfg u huv
                rw [hfind, Option.map_some'] at hproj
                cases hfr : (root.removeGroupFirst v).findGroupByUuid u with
                | none =>
                  rw [hfr] at hproj
                  exact absurd hproj (by simp)
                | some t2 =>
                  rw [hfr, Option.map_some'] at hproj
                  have ht2 : t2.data = t.data ∧ t2.entryUuids = t.entryUuids ∧
                      t2.groupUuids = t.groupUuids.erase v := by simpa using hproj
                  have hwfE2 : (root.removeGroupFirst v).entryUuids.Nodup := by
                    rw [hspec.2.1]
                    exact hwfE
                  have hwfG2 : (root.removeGroupFirst v).groupUuids.Nodup := by
                    rw [hgu]
                    exact hwfG.erase v
                  obtain ⟨hta, htb, htc⟩ :=
                    Merger.deleteGroups_spec merged u fuel Q (root.removeGroupFirst v)
                      (dels ++ [dmGet v merged]) (cs ++ [Change.deleting v]) out t2 h
                      hwfE2 hwfG2 hQ2 hfr hnone
                  have hsd : Group.strictDescendantGroupUuids t2 =
                      (Group.strictDescendantGroupUuids t).erase v := by
                    have h1 := Group.groupUuids_eq_cons t2
                    have h2 := Group.groupUuids_eq_cons t
                    have htu : t.data.uuid = u := Group.uuid_of_findGroup root u t hfind
                    have ht2u : t2.data.uuid = u :=
                      Group.uuid_of_findGroup (root.removeGroupFirst v) u t2 hfr
                    have hdd := ht2.2.2
                    rw [h1, h2, ht2u, htu] at hdd
                    rw [List.erase_cons_tail (by simpa using huv)] at hdd
                    injection hdd with hdd1 hdd2
                  refine ⟨?_, ?_, ?_⟩
                  · rw [← ht2.1]
                    exact hta
                  · intro x hx
                    exact htb x (by rw [ht2.2.1]; exact hx)
                  · intro w hw
                    by_cases hwv : w = v
                    · have hw2 : (root.removeGroupFirst v).findGroupByUuid v = none := by
                        refine Group.findGroup_none_of_not_mem _ v ?_
                        rw [hgu]
                        exact List.Nodup.not_mem_erase hwfG
                      rw [hwv]
                      exact Merger.deleteGroups_groupNone merged v fuel Q
                        (root.removeGroupFirst v) (dels ++ [dmGet v merged])
                        (cs ++ [Change.deleting v]) out h hw2
                    · refine htc w ?_
                      rw [hsd]
                      exact (List.mem_erase_of_ne hwv).mpr hw

/-- `Merger::mergeDeletions` decomposed into its three stages: a successful
run is a successful group-stage run on the entry-stage output, and the final
root and tombstone list are the group stage's. -/
theorem Merger.mergeDeletions_stages (root : Group)
    (tDels sDels : List DeletedObject) (cs : List Change)
    (root1 : Group) (dels1 : List DeletedObject) (cs1 : List Change)
    (h : Merger.mergeDeletions root tDels sDels cs = some (root1, dels1, cs1)) :
    ∃ cs2, Merger.deleteGroups (Merger.unionAcc root tDels sDels).mergedDeletions
        (((Merger.unionAcc root tDels sDels).groups.length + 1) *
          ((Merger.unionAcc root tDels sDels).groups.length + 1))
        (Merger.unionAcc root tDels sDels).groups
        (Merger.entriesStage root tDels sDels cs).1
        (Merger.entriesStage root tDels sDels cs).2.1
        (Merger.entriesStage root tDels sDels cs).2.2 = some (root1, dels1, cs2) := by
  rw [Merger.mergeDeletions] at h
  dsimp only at h
  split at h
  · exact absurd h (by simp)
  · rename_i root2 deletions2 changes2 heq
    refine ⟨changes2, ?_⟩
    injection h with h1
    injection h1 with ha hb
    injection hb with hb1 hb2
    subst ha
    subst hb1
    exact heq

/-! ## Claim C1: deletion versus edit for entries -/

/-- C1: for every UUID with a tombstone in the union of the source and
target tombstone sets and a live entry in the target, the deletion pass
keeps the entry and drops every tombstone for that UUID when the entry's
last_modification is strictly greater than the merged (minimum) deletion
time; otherwise it removes the entry and retains the merged tombstone. -/
theorem Merger.deletion_vs_edit_entries (root : Group)
    (tDels sDels : List DeletedObject) (cs0 : List Change)
    (u : Nat) (e : Entry) (root1 : Group) (dels1 : List DeletedObject)
    (cs1 : List Change)
    (hwf : root.wf)
    (hfind : root.findEntryByUuid u = some e)
    (htomb : u ∈ (tDels ++ sDels).map (fun o => o.uuid))
    (hrun : Merger.mergeDeletions root tDels sDels cs0 = some (root1, dels1, cs1)) :
    (e.data.timeInfo.lastModificationTime > Merger.minDeletionTime u (tDels ++ sDels) →
      root1.findEntryByUuid u = some e ∧ u ∉ dels1.map (fun o => o.uuid)) ∧
    (¬ e.data.timeInfo.lastModificationTime > Merger.minDeletionTime u (tDels ++ sDels) →
      root1.findEntryByUuid u = none ∧
      ({ uuid := u, deletionTime := Merger.minDeletionTime u (tDels ++ sDels) } :
        DeletedObject) ∈ dels1) := by
  obtain ⟨cs2, hdg⟩ := Merger.mergeDeletions_stages root tDels sDels cs0 root1 dels1 cs1 hrun
  have hmI : ∀ p ∈ (Merger.unionAcc root tDels sDels).mergedDeletions,
      (Prod.snd p).uuid = p.1 :=
    Merger.collectDeletions_uuidInv root (tDels ++ sDels)
      { mergedDeletions := [], entries := [], groups := [], deletions := [] }
      (fun p hp => absurd hp (List.not_mem_nil p))
  have hlive : (root.findEntryByUuid u).isSome = true := by simp [hfind]
  obtain ⟨hqe, hqg, hdfil, hget⟩ := Merger.collectDeletions_liveEntry root u hlive
    (tDels ++ sDels)
    { mergedDeletions := [], entries := [], groups := [], deletions := [] }
    rfl htomb (List.not_mem_nil u)
  obtain ⟨hndE, hndG⟩ := Merger.collectDeletions_nodup root (tDels ++ sDels)
    { mergedDeletions := [], entries := [], groups := [], deletions := [] }
    List.nodup_nil (fun v hv => absurd hv (List.not_mem_nil v))
    List.nodup_nil (fun v hv => absurd hv (List.not_mem_nil v))
  have hget1 : dmGet u (Merger.unionAcc root tDels sDels).mergedDeletions =
      { uuid := u, deletionTime := Merger.minDeletionTime u (tDels ++ sDels) } := hget
  obtain ⟨hkeep, hdel⟩ := Merger.deleteEntries_spec
    (Merger.unionAcc root tDels sDels).mergedDeletions hmI u e
    (Merger.unionAcc root tDels sDels).entries root
    (Merger.unionAcc root tDels sDels).deletions cs0 hndE hqe hwf.1 hfind
  have hfe : ∀ x, root1.findEntryByUuid x =
      (Merger.entriesStage root tDels sDels cs0).1.findEntryByUuid x :=
    Merger.deleteGroups_findEntry (Merger.unionAcc root tDels sDels).mergedDeletions
      _ _ _ _ _ _ hdg
  have hdf : dels1.filter (fun o => o.uuid == u) =
      (Merger.entriesStage root tDels sDels cs0).2.1.filter (fun o => o.uuid == u) :=
    Merger.deleteGroups_delsFilter (Merger.unionAcc root tDels sDels).mergedDeletions
      hmI u _ _ _ _ _ _ hdg hqg
  have hdfil1 : (Merger.unionAcc root tDels sDels).deletions.filter
      (fun o => o.uuid == u) = [] := hdfil
  constructor
  · intro hgt
    obtain ⟨ha, hb⟩ := hkeep (by rw [hget1]; exact hgt)
    have hb1 : (Merger.entriesStage root tDels sDels cs0).2.1.filter
        (fun o => o.uuid == u) =
        (Merger.unionAcc root tDels sDels).deletions.filter (fun o => o.uuid == u) := hb
    refine ⟨?_, ?_⟩
    · rw [hfe u]
      exact ha
    · intro hm
      exact (mem_map_uuid_iff_filter_ne_nil u dels1).mp hm
        (by rw [hdf]; exact hb1.trans hdfil1)
  · intro hle
    obtain ⟨ha, hb⟩ := hdel (by rw [hget1]; exact hle)
    have hb1 : (Merger.entriesStage root tDels sDels cs0).2.1.filter
        (fun o => o.uuid == u) =
        (Merger.unionAcc root tDels sDels).deletions.filter (fun o => o.uuid == u) ++
          [dmGet u (Merger.unionAcc root tDels sDels).mergedDeletions] := hb
    refine ⟨?_, ?_⟩
    · rw [hfe u]
      exact ha
    · have hff : dels1.filter (fun o => o.uuid == u) =
          [{ uuid := u, deletionTime := Merger.minDeletionTime u (tDels ++ sDels) }] := by
        rw [hdf, hb1, hdfil1, hget1]
        rfl
      refine List.mem_of_mem_filter (p := fun o => o.uuid == u) ?_
      rw [hff]
      exact List.mem_singleton.mpr rfl

/-! ## Claim C2: group deletion requires an empty subtree -/

/-- C2: a tombstoned live group is removed by the deletion pass only when
its last_modification does not exceed the merged deletion time AND, in the
merge result, every entry and every strict descendant group of its subtree
is gone as well. -/
theorem Merger.group_deletion_requires_empty_subtree (root : Group)
    (tDels sDels : List DeletedObject) (cs0 : List Change)
    (u : Nat) (t : Group) (root1 : Group) (dels1 : List DeletedObject)
    (cs1 : List Change)
    (hwf : root.wf)
    (hfind : root.findGroupByUuid u = some t)
    (htomb : u ∈ (tDels ++ sDels).map (fun o => o.uuid))
    (hrun : Merger.mergeDeletions root tDels sDels cs0 = some (root1, dels1, cs1))
    (hdel : root1.findGroupByUuid u = none) :
    t.data.timeInfo.lastModificationTime ≤ Merger.minDeletionTime u (tDels ++ sDels) ∧
    (∀ x ∈ t.entryUuids, root1.findEntryByUuid x = none) ∧
    (∀ w ∈ Group.strictDescendantGroupUuids t, root1.findGroupByUuid w = none) := by
  obtain ⟨cs2, hdg⟩ := Merger.mergeDeletions_stages root tDels sDels cs0 root1 dels1 cs1 hrun
  have hmI : ∀ p ∈ (Merger.unionAcc root tDels sDels).mergedDeletions,
      (Prod.snd p).uuid = p.1 :=
    Merger.collectDeletions_uuidInv root (tDels ++ sDels)
      { mergedDeletions := [], entries := [], groups := [], deletions := [] }
      (fun p hp => absurd hp (List.not_mem_nil p))
  have hde : root.findEntryByUuid u = none := by
    cases hf : root.findEntryByUuid u with
    | none => rfl
    | some e2 =>
      have hmemE := (Group.findEntry_isSome_iff root u).mp (by simp [hf])
      have hmemG : u ∈ root.groupUuids :=
        (Group.findGroup_isSome_iff root u).mp (by simp [hfind])
      exact absurd hmemG (hwf.2.2 hmemE)
  obtain ⟨hqg, hdfil, hget⟩ := Merger.collectDeletions_liveGroup root u hde
    (by simp [hfind]) (tDels ++ sDels)
    { mergedDeletions := [], entries := [], groups := [], deletions := [] } rfl htomb
  obtain ⟨hndE, hndG⟩ := Merger.collectDeletions_nodup root (tDels ++ sDels)
    { mergedDeletions := [], entries := [], groups := [], deletions := [] }
    List.nodup_nil (fun v hv => absurd hv (List.not_mem_nil v))
    List.nodup_nil (fun v hv => absurd hv (List.not_mem_nil v))
  have hget1 : dmGet u (Merger.unionAcc root tDels sDels).mergedDeletions =
      { uuid := u, deletionTime := Merger.minDeletionTime u (tDels ++ sDels) } := hget
  obtain ⟨t1, hfind1, hdata1, hgrp1, hdich⟩ := Merger.deleteEntries_groupProj
    (Merger.unionAcc root tDels sDels).mergedDeletions u
    (Merger.unionAcc root tDels sDels).entries root
    (Merger.unionAcc root tDels sDels).deletions cs0 t hwf.1 hfind
  obtain ⟨hwfE1, hgU1⟩ := Merger.deleteEntries_wf
    (Merger.unionAcc root tDels sDels).mergedDeletions
    (Merger.unionAcc root tDels sDels).entries root
    (Merger.unionAcc root tDels sDels).deletions cs0 hwf.1
  have hwfG1 : (Merger.entriesStage root tDels sDels cs0).1.groupUuids.Nodup := by
    have hh : (Merger.entriesStage root tDels sDels cs0).1.groupUuids =
        root.groupUuids := hgU1
    rw [hh]
    exact hwf.2.1
  have hwfE1s : (Merger.entriesStage root tDels sDels cs0).1.entryUuids.Nodup := hwfE1
  have hfind1s : (Merger.entriesStage root tDels sDels cs0).1.findGroupByUuid u =
      some t1 := hfind1
  obtain ⟨hta, htb, htc⟩ := Merger.deleteGroups_spec
    (Merger.unionAcc root tDels sDels).mergedDeletions u
    (((Merger.unionAcc root tDels sDels).groups.length + 1) *
      ((Merger.unionAcc root tDels sDels).groups.length + 1))
    (Merger.unionAcc root tDels sDels).groups
    (Merger.entriesStage root tDels sDels cs0).1
    (Merger.entriesStage root tDels sDels cs0).2.1
    (Merger.entriesStage root tDels sDels cs0).2.2
    (root1, dels1, cs2) t1 hdg hwfE1s hwfG1 hndG hfind1s hdel
  have hfe : ∀ x, root1.findEntryByUuid x =
      (Merger.entriesStage root tDels sDels cs0).1.findEntryByUuid x :=
    Merger.deleteGroups_findEntry (Merger.unionAcc root tDels sDels).mergedDeletions
      _ _ _ _ _ _ hdg
  have hsd : Group.strictDescendantGroupUuids t1 = Group.strictDescendantGroupUuids t := by
    have h1 := Group.groupUuids_eq_cons t1
    have h2 := Group.groupUuids_eq_cons t
    have htu : t.data.uuid = u := Group.uuid_of_findGroup root u t hfind
    have ht1u : t1.data.uuid = u :=
      Group.uuid_of_findGroup (Merger.entriesStage root tDels sDels cs0).1 u t1 hfind1s
    have hdd := hgrp1
    rw [h1, h2, ht1u, htu] at hdd
    injection hdd with hdd1 hdd2
  refine ⟨?_, ?_, ?_⟩
  · have hh := hta
    rw [hdata1, hget1] at hh
    exact hh
  · intro x hx
    rcases hdich x hx with hin | hgone
    · exact htb x hin
    · rw [hfe x]
      exact hgone
  · intro w hw
    exact htc w (by rw [hsd]; exact hw)

/-! ## Claim C6: the tombstone union -/

/-- C6 (actual behaviour): for a UUID with no live object in the target, the
deletion pass retains exactly the FIRST-seen tombstone for it from
`targetDeletions + sourceDeletions`, unchanged — not the one with the
earlier deletion time. -/
theorem Merger.dead_uuid_retains_first_seen (root : Group)
    (tDels sDels : List DeletedObject) (cs0 : List Change) (u : Nat)
    (o : DeletedObject) (os : List DeletedObject)
    (root1 : Group) (dels1 : List DeletedObject) (cs1 : List Change)
    (hde : root.findEntryByUuid u = none) (hdg : root.findGroupByUuid u = none)
    (hfirst : (tDels ++ sDels).filter (fun x => x.uuid == u) = o :: os)
    (hrun : Merger.mergeDeletions root tDels sDels cs0 = some (root1, dels1, cs1)) :
    dels1.filter (fun x => x.uuid == u) = [o] := by
  obtain ⟨cs2, hdg2⟩ := Merger.mergeDeletions_stages root tDels sDels cs0 root1 dels1 cs1 hrun
  have hmI : ∀ p ∈ (Merger.unionAcc root tDels sDels).mergedDeletions,
      (Prod.snd p).uuid = p.1 :=
    Merger.collectDeletions_uuidInv root (tDels ++ sDels)
      { mergedDeletions := [], entries := [], groups := [], deletions := [] }
      (fun p hp => absurd hp (List.not_mem_nil p))
  obtain ⟨hdfil, hne, hng⟩ := Merger.collectDeletions_dead root u hde hdg (tDels ++ sDels)
    { mergedDeletions := [], entries := [], groups := [], deletions := [] }
    rfl (List.not_mem_nil u) (List.not_mem_nil u)
  have hne1 : u ∉ (Merger.unionAcc root tDels sDels).entries := hne
  have hng1 : u ∉ (Merger.unionAcc root tDels sDels).groups := hng
  have hadf : (Merger.unionAcc root tDels sDels).deletions.filter
      (fun x => x.uuid == u) = [o] := by
    have hh : (Merger.unionAcc root tDels sDels).deletions.filter (fun x => x.uuid == u) =
        List.filter (fun x => x.uuid == u) [] ++
          ((tDels ++ sDels).filter (fun x => x.uuid == u)).take 1 := hdfil
    rw [hfirst] at hh
    simpa using hh
  obtain ⟨hfr, hflt⟩ := Merger.deleteEntries_frame
    (Merger.unionAcc root tDels sDels).mergedDeletions hmI u
    (Merger.unionAcc root tDels sDels).entries root
    (Merger.unionAcc root tDels sDels).deletions cs0 hne1
  have hflt1 : (Merger.entriesStage root tDels sDels cs0).2.1.filter
      (fun x => x.uuid == u) =
      (Merger.unionAcc root tDels sDels).deletions.filter (fun x => x.uuid == u) := hflt
  have hdf : dels1.filter (fun x => x.uuid == u) =
      (Merger.entriesStage root tDels sDels cs0).2.1.filter (fun x => x.uuid == u) :=
    Merger.deleteGroups_delsFilter (Merger.unionAcc root tDels sDels).mergedDeletions
      hmI u _ _ _ _ _ _ hdg2 hng1
  rw [hdf, hflt1, hadf]

/-- C6 counterexample: UUID 200 is dead in the target and tombstoned on both
sides (target at 2000, source at 1000); the deletion pass retains the
first-seen (target) tombstone with deletion time 2000, although the merged
minimum of the two deletion times is 1000. -/
theorem Merger.dead_uuid_min_counterexample :
    Merger.mergeDeletions (Group.node (fixGroupData 3 "Root" 0 0) [] [])
        [{ uuid := 200, deletionTime := 2000 }] [{ uuid := 200, deletionTime := 1000 }]
        [] =
      some (Group.node (fixGroupData 3 "Root" 0 0) [] [],
        [{ uuid := 200, deletionTime := 2000 }], []) ∧
    Merger.minDeletionTime 200
        ([{ uuid := 200, deletionTime := 2000 }] ++
          [{ uuid := 200, deletionTime := 1000 }]) = 1000 :=
  ⟨rfl, rfl⟩

/-- Witness for `Merger.dead_uuid_retains_first_seen` at the concrete dead
UUID 200 with tombstones (200, 2000) in the target and (200, 1000) in the
source. -/
theorem Merger.dead_uuid_retains_first_seen_witness :
    (([({ uuid := 200, deletionTime := 2000 } : DeletedObject)] ++
        [({ uuid := 200, deletionTime := 1000 } : DeletedObject)]).filter
          (fun x => x.uuid == 200) =
      ({ uuid := 200, deletionTime := 2000 } : DeletedObject) ::
        [({ uuid := 200, deletionTime := 1000 } : DeletedObject)]) ∧
    [({ uuid := 200, deletionTime := 2000 } : DeletedObject)].filter
        (fun x => x.uuid == 200) =
      [({ uuid := 200, deletionTime := 2000 } : DeletedObject)] :=
  ⟨rfl, Merger.dead_uuid_retains_first_seen
    (Group.node (fixGroupData 3 "Root" 0 0) [] [])
    [{ uuid := 200, deletionTime := 2000 }] [{ uuid := 200, deletionTime := 1000 }] []
    200 { uuid := 200, deletionTime := 2000 } [{ uuid := 200, deletionTime := 1000 }]
    (Group.node (fixGroupData 3 "Root" 0 0) [] []) [{ uuid := 200, deletionTime := 2000 }]
    [] rfl rfl rfl rfl⟩

/-- Witness for `Merger.deletion_vs_edit_entries`: entry 100 (last modified
at 500) with tombstones at 800 and 600; the merged minimum 600 is not
exceeded, so the entry is removed and the merged tombstone retained. -/
theorem Merger.deletion_vs_edit_entries_witness :
    (Group.node (fixGroupData 3 "Root" 0 0) [fixEntry 100 "e" 500 0] []).wf ∧
    ((Group.node (fixGroupData 3 "Root" 0 0) [] []).findEntryByUuid 100 = none ∧
      ({ uuid := 100, deletionTime :=
          Merger.minDeletionTime 100 ([{ uuid := 100, deletionTime := 800 }] ++
            [{ uuid := 100, deletionTime := 600 }]) } : DeletedObject) ∈
        [({ uuid := 100, deletionTime := 600 } : DeletedObject)]) :=
  ⟨by decide, (Merger.deletion_vs_edit_entries
    (Group.node (fixGroupData 3 "Root" 0 0) [fixEntry 100 "e" 500 0] [])
    [{ uuid := 100, deletionTime := 800 }] [{ uuid := 100, deletionTime := 600 }] []
    100 (fixEntry 100 "e" 500 0) (Group.node (fixGroupData 3 "Root" 0 0) [] [])
    [{ uuid := 100, deletionTime := 600 }]
    [Change.deleting 100, Change.changedDeletedObjects]
    (by decide) rfl (by decide) rfl).2 (by decide)⟩

/-- Witness for `Merger.group_deletion_requires_empty_subtree`: the empty
leaf group 10 (last modified at 500) with tombstones at 800 and 600 is
removed; its recorded time is at most the merged minimum 600 and its (empty)
subtree holds nothing live. -/
theorem Merger.group_deletion_requires_empty_subtree_witness :
    (Group.node (fixGroupData 3 "Root" 0 0) []
      [Group.node (fixGroupData 10 "G" 500 0) [] []]).wf ∧
    ((Group.node (fixGroupData 10 "G" 500 0) [] []).data.timeInfo.lastModificationTime ≤
      Merger.minDeletionTime 10 ([{ uuid := 10, deletionTime := 800 }] ++
        [{ uuid := 10, deletionTime := 600 }]) ∧
    (∀ x ∈ (Group.node (fixGroupData 10 "G" 500 0) [] []).entryUuids,
      (Group.node (fixGroupData 3 "Root" 0 0) [] []).findEntryByUuid x = none) ∧
    (∀ w ∈ Group.strictDescendantGroupUuids (Group.node (fixGroupData 10 "G" 500 0) [] []),
      (Group.node (fixGroupData 3 "Root" 0 0) [] []).findGroupByUuid w = none)) :=
  ⟨by decide, Merger.group_deletion_requires_empty_subtree
    (Group.node (fixGroupData 3 "Root" 0 0) []
      [Group.node (fixGroupData 10 "G" 500 0) [] []])
    [{ uuid := 10, deletionTime := 800 }] [{ uuid := 10, deletionTime := 600 }] []
    10 (Group.node (fixGroupData 10 "G" 500 0) [] [])
    (Group.node (fixGroupData 3 "Root" 0 0) [] []) [{ uuid := 10, deletionTime := 600 }]
    [Change.deleting 10, Change.changedDeletedObjects]
    (by decide) rfl (by decide) rfl rfl⟩

end KPXC
